import Mathlib

/-!
# Dense matrix-multiplication kernels

A shallow embedding of the kernels of the repository (`src/*.cpp`, `include/matrix_utils.h`)
and proofs of their contracts.

Modelling conventions.

* `Matrix` is `std::vector<float>`: a flat row-major buffer.  The element type is a parameter
  `R` carrying the operations the kernel uses (`0`, `+`, `*`, and `-` for Strassen).  A
  theorem assumes an exact (semi)ring only where its claim is about exact arithmetic; the
  others assume no law of `+` and `*`, so they also hold of rounding arithmetic.
* `A[i]` is `rd A i`, and `C[i] = v` is `C.set i v`.  The kernels are called with
  `|A| = m*n`, `|B| = n*p`, `|C| = m*p`; the theorems carry these as hypotheses.
* `int` sizes and indices are natural numbers (signed overflow is undefined in the source
  language and is not modelled).
* A counted loop `for (x = lo; x < hi; x += step)` is a left fold over the list of the
  values `x` takes, in order.
* A worker thread is the function its body computes on `C`; a run of the spawned threads is
  the workers applied one after the other in some order.
* Index safety is stated on `_checked` variants of the packed kernel: the same loops, where
  every read, write, 8-wide load or store and pointer `&M[off]` yields `none` when it falls
  outside its buffer (`foldlOpt` is a loop whose body can fail).
-/

namespace MatMul

variable {R : Type}

/-- The flat row-major buffer type of `matrix_utils.h`: `using Matrix = std::vector<float>`. -/
abbrev Matrix (R : Type) := List R

/-- Read `A[i]`. -/
def rd [Zero R] (A : Matrix R) (i : Nat) : R := A.getD i 0

/-- The buffer `Matrix X(len)` (value-initialised) and `zeros_matrix`. -/
def zeros [Zero R] (len : Nat) : Matrix R := List.replicate len 0

/-- The values taken by `x` in `for (x = 0; x < hi; x += step)`, in order. -/
def steps (hi step : Nat) : List Nat := List.range' 0 ((hi + step - 1) / step) step

/-! ## `naive.cpp` -/

/-- The kernel `matmul_naive` (naive.cpp, lines 4-22): I-J-K order, a local scalar `sum` per
output element, written once. -/
def matmul_naive [Zero R] [Add R] [Mul R] (A B C : Matrix R) (m n p : Nat) : Matrix R :=
  (List.range m).foldl (fun C i =>
    (List.range p).foldl (fun C j =>
      let sum := (List.range n).foldl
        (fun sum k => sum + rd A (i * n + k) * rd B (k * p + j)) 0
      C.set (i * p + j) sum) C) C

/-! ## `loop_reorder.cpp` -/

/-- The kernel `matmul_loop_reorder` (loop_reorder.cpp, lines 5-22): I-K-J order,
accumulating into `C`. -/
def matmul_loop_reorder [Zero R] [Add R] [Mul R] (A B C : Matrix R) (m n p : Nat) :
    Matrix R :=
  (List.range m).foldl (fun C i =>
    (List.range n).foldl (fun C k =>
      let a_val := rd A (i * n + k)
      (List.range p).foldl (fun C j =>
        C.set (i * p + j) (rd C (i * p + j) + a_val * rd B (k * p + j))) C) C) C

/-! ## `tiled.cpp` -/

/-- The constant `BLOCK_SIZE` of tiled.cpp. -/
def BLOCK_SIZE : Nat := 32

/-- The kernel `matmul_tiled` (tiled.cpp, lines 6-36).  The three outer loops step by
`BLOCK_SIZE`; the inner loops run from the block origin to the `std::min`-clipped end. -/
def matmul_tiled [Zero R] [Add R] [Mul R] (A B C : Matrix R) (m n p : Nat) : Matrix R :=
  (steps m BLOCK_SIZE).foldl (fun C i =>
    (steps n BLOCK_SIZE).foldl (fun C k =>
      (steps p BLOCK_SIZE).foldl (fun C j =>
        let i_max := min (i + BLOCK_SIZE) m
        let k_max := min (k + BLOCK_SIZE) n
        let j_max := min (j + BLOCK_SIZE) p
        (List.range' i (i_max - i)).foldl (fun C ii =>
          (List.range' k (k_max - k)).foldl (fun C kk =>
            let a_val := rd A (ii * n + kk)
            (List.range' j (j_max - j)).foldl (fun C jj =>
              C.set (ii * p + jj) (rd C (ii * p + jj) + a_val * rd B (kk * p + jj))) C) C) C)
        C) C) C


/-! ## `simd.cpp` -/

/-- The register type `__m256`: 8 single-precision lanes. -/
def M256 (R : Type) := List R

/-- Lane `l` of a register. -/
def M256.lane [Zero R] (v : M256 R) (l : Nat) : R := List.getD v l 0

instance [Zero R] : Zero (M256 R) := ⟨List.replicate 8 (0 : R)⟩

/-- The intrinsic `_mm256_loadu_ps(&M[off])`: load 8 consecutive elements. -/
def _mm256_loadu_ps [Zero R] (M : Matrix R) (off : Nat) : M256 R :=
  (List.range 8).map (fun l => rd M (off + l))

/-- The intrinsic `_mm256_set1_ps(a)`: broadcast a scalar to the 8 lanes. -/
def _mm256_set1_ps (a : R) : M256 R := List.replicate 8 a

/-- The intrinsic `_mm256_fmadd_ps(a, b, c)`: lane-wise `a*b + c`, modelled as 8 exact scalar
multiply-adds. -/
def _mm256_fmadd_ps [Zero R] [Add R] [Mul R] (a b c : M256 R) : M256 R :=
  (List.range 8).map (fun l => a.lane l * b.lane l + c.lane l)

/-- The intrinsic `_mm256_storeu_ps(&M[off], v)`: store the 8 lanes at 8 consecutive
offsets. -/
def _mm256_storeu_ps [Zero R] (M : Matrix R) (off : Nat) (v : M256 R) : Matrix R :=
  (List.range 8).foldl (fun M l => M.set (off + l) (v.lane l)) M

/-- A `for` loop over the index values `l` whose body may `break`: the body returns the new
state and whether it executed `break`. -/
def forBreak {σ : Type} (l : List Nat) (body : Nat → σ → σ × Bool) (s : σ) : σ :=
  match l with
  | [] => s
  | x :: xs =>
    let r := body x s
    if r.2 then r.1 else forBreak xs body r.1

/-- The kernel `matmul_simd` (simd.cpp, lines 6-45). -/
def matmul_simd [Zero R] [Add R] [Mul R] (A B C : Matrix R) (m n p : Nat) : Matrix R :=
  (List.range m).foldl (fun C i =>
    (List.range n).foldl (fun C k =>
      let a_vec := _mm256_set1_ps (rd A (i * n + k))
      forBreak (steps p 8) (fun j C =>
        if j + 8 > p then
          let a_val := rd A (i * n + k)
          ((List.range' j (p - j)).foldl (fun C jj =>
            C.set (i * p + jj) (rd C (i * p + jj) + a_val * rd B (k * p + jj))) C, true)
        else
          let c_vec := _mm256_loadu_ps C (i * p + j)
          let b_vec := _mm256_loadu_ps B (k * p + j)
          let c_vec := _mm256_fmadd_ps a_vec b_vec c_vec
          (_mm256_storeu_ps C (i * p + j) c_vec, false)) C) C) C

/-! ## `strassen.cpp` -/

/-- The helper `add_matrix` (strassen.cpp, lines 5-9). -/
def add_matrix [Zero R] [Add R] (A B C : Matrix R) (size : Nat) : Matrix R :=
  (List.range (size * size)).foldl (fun C i => C.set i (rd A i + rd B i)) C

/-- The helper `sub_matrix` (strassen.cpp, lines 12-16). -/
def sub_matrix [Zero R] [Sub R] (A B C : Matrix R) (size : Nat) : Matrix R :=
  (List.range (size * size)).foldl (fun C i => C.set i (rd A i - rd B i)) C

/-- The eight quadrant buffers filled by the partition loop of `strassen_recursive`. -/
structure Quadrants (R : Type) where
  A11 : Matrix R
  A12 : Matrix R
  A21 : Matrix R
  A22 : Matrix R
  B11 : Matrix R
  B12 : Matrix R
  B21 : Matrix R
  B22 : Matrix R

/-- The partition loop of `strassen_recursive` (strassen.cpp, lines 49-62). -/
def partition [Zero R] (A B : Matrix R) (size new_size : Nat) (Q : Quadrants R) :
    Quadrants R :=
  (List.range new_size).foldl (fun Q i =>
    (List.range new_size).foldl (fun Q j =>
      { A11 := Q.A11.set (i * new_size + j) (rd A (i * size + j))
        A12 := Q.A12.set (i * new_size + j) (rd A (i * size + (j + new_size)))
        A21 := Q.A21.set (i * new_size + j) (rd A ((i + new_size) * size + j))
        A22 := Q.A22.set (i * new_size + j) (rd A ((i + new_size) * size + (j + new_size)))
        B11 := Q.B11.set (i * new_size + j) (rd B (i * size + j))
        B12 := Q.B12.set (i * new_size + j) (rd B (i * size + (j + new_size)))
        B21 := Q.B21.set (i * new_size + j) (rd B ((i + new_size) * size + j))
        B22 := Q.B22.set (i * new_size + j) (rd B ((i + new_size) * size + (j + new_size))) })
      Q) Q

/-- The combine loop of `strassen_recursive` (strassen.cpp, lines 107-115): the four output
quadrants are added into `C`. -/
def combine [Zero R] [Add R] (C11 C12 C21 C22 C : Matrix R) (size new_size : Nat) :
    Matrix R :=
  (List.range new_size).foldl (fun C i =>
    (List.range new_size).foldl (fun C j =>
      let C := C.set (i * size + j) (rd C (i * size + j) + rd C11 (i * new_size + j))
      let C := C.set (i * size + (j + new_size))
        (rd C (i * size + (j + new_size)) + rd C12 (i * new_size + j))
      let C := C.set ((i + new_size) * size + j)
        (rd C ((i + new_size) * size + j) + rd C21 (i * new_size + j))
      let C := C.set ((i + new_size) * size + (j + new_size))
        (rd C ((i + new_size) * size + (j + new_size)) + rd C22 (i * new_size + j))
      C) C) C

/-- The function `strassen_recursive` (strassen.cpp, lines 24-116).  The recursion is on
`size / 2`, which is smaller than `size` whenever `size > 64`. -/
def strassen_recursive [Zero R] [Add R] [Sub R] [Mul R] (A B C : Matrix R) (size : Nat) :
    Matrix R :=
  if size ≤ 64 then
    (List.range size).foldl (fun C i =>
      (List.range size).foldl (fun C k =>
        let a_val := rd A (i * size + k)
        (List.range size).foldl (fun C j =>
          C.set (i * size + j) (rd C (i * size + j) + a_val * rd B (k * size + j))) C) C) C
  else
    let new_size := size / 2
    let sub_len := new_size * new_size
    let Q : Quadrants R := partition A B size new_size
      ⟨zeros sub_len, zeros sub_len, zeros sub_len, zeros sub_len,
       zeros sub_len, zeros sub_len, zeros sub_len, zeros sub_len⟩
    let C11 : Matrix R := zeros sub_len
    let C12 : Matrix R := zeros sub_len
    let C21 : Matrix R := zeros sub_len
    let C22 : Matrix R := zeros sub_len
    let M1 : Matrix R := zeros sub_len
    let M2 : Matrix R := zeros sub_len
    let M3 : Matrix R := zeros sub_len
    let M4 : Matrix R := zeros sub_len
    let M5 : Matrix R := zeros sub_len
    let M6 : Matrix R := zeros sub_len
    let M7 : Matrix R := zeros sub_len
    let Temp1 : Matrix R := zeros sub_len
    let Temp2 : Matrix R := zeros sub_len
    -- M1 = (A11 + A22) * (B11 + B22)
    let Temp1 := add_matrix Q.A11 Q.A22 Temp1 new_size
    let Temp2 := add_matrix Q.B11 Q.B22 Temp2 new_size
    let M1 := strassen_recursive Temp1 Temp2 M1 new_size
    -- M2 = (A21 + A22) * B11
    let Temp1 := add_matrix Q.A21 Q.A22 Temp1 new_size
    let M2 := strassen_recursive Temp1 Q.B11 M2 new_size
    -- M3 = A11 * (B12 - B22)
    let Temp2 := sub_matrix Q.B12 Q.B22 Temp2 new_size
    let M3 := strassen_recursive Q.A11 Temp2 M3 new_size
    -- M4 = A22 * (B21 - B11)
    let Temp2 := sub_matrix Q.B21 Q.B11 Temp2 new_size
    let M4 := strassen_recursive Q.A22 Temp2 M4 new_size
    -- M5 = (A11 + A12) * B22
    let Temp1 := add_matrix Q.A11 Q.A12 Temp1 new_size
    let M5 := strassen_recursive Temp1 Q.B22 M5 new_size
    -- M6 = (A21 - A11) * (B11 + B12)
    let Temp1 := sub_matrix Q.A21 Q.A11 Temp1 new_size
    let Temp2 := add_matrix Q.B11 Q.B12 Temp2 new_size
    let M6 := strassen_recursive Temp1 Temp2 M6 new_size
    -- M7 = (A12 - A22) * (B21 + B22)
    let Temp1 := sub_matrix Q.A12 Q.A22 Temp1 new_size
    let Temp2 := add_matrix Q.B21 Q.B22 Temp2 new_size
    let M7 := strassen_recursive Temp1 Temp2 M7 new_size
    let C11 := (List.range sub_len).foldl
      (fun C11 i => C11.set i (rd M1 i + rd M4 i - rd M5 i + rd M7 i)) C11
    let C12 := (List.range sub_len).foldl (fun C12 i => C12.set i (rd M3 i + rd M5 i)) C12
    let C21 := (List.range sub_len).foldl (fun C21 i => C21.set i (rd M2 i + rd M4 i)) C21
    let C22 := (List.range sub_len).foldl
      (fun C22 i => C22.set i (rd M1 i - rd M2 i + rd M3 i + rd M6 i)) C22
    combine C11 C12 C21 C22 C size new_size
termination_by size
decreasing_by all_goals omega

/-- The kernel `matmul_strassen` (strassen.cpp, lines 118-142): an inline I-K-J loop when the
shape is not square, `strassen_recursive` otherwise. -/
def matmul_strassen [Zero R] [Add R] [Sub R] [Mul R] (A B C : Matrix R) (m n p : Nat) :
    Matrix R :=
  if m ≠ n ∨ n ≠ p then
    (List.range m).foldl (fun C i =>
      (List.range n).foldl (fun C k =>
        let a_val := rd A (i * n + k)
        (List.range p).foldl (fun C j =>
          C.set (i * p + j) (rd C (i * p + j) + a_val * rd B (k * p + j))) C) C) C
  else
    strassen_recursive A B C m

/-! ## `optimized_sgemm.cpp` -/

/-- The micro-kernel `kernel_8x8` (optimized_sgemm.cpp, lines 26-51).  A pointer argument is a
buffer together with an offset into it; `c` is the array of 8 accumulator registers, every one
of which is loaded from `C` before it is read. -/
def kernel_8x8 [Zero R] [Add R] [Mul R] (k : Nat) (A : Matrix R) (aoff : Nat) (B : Matrix R)
    (boff : Nat) (C : Matrix R) (coff : Nat) (ldc : Nat) : Matrix R :=
  let c : Matrix (M256 R) := zeros 8
  let c := (List.range 8).foldl (fun c i => c.set i (_mm256_loadu_ps C (coff + i * ldc))) c
  let c := (List.range k).foldl (fun c p =>
    let b_vec := _mm256_loadu_ps B (boff + p * 8)
    (List.range 8).foldl (fun c i =>
      let a_vec := _mm256_set1_ps (rd A (aoff + (i * k + p)))
      c.set i (_mm256_fmadd_ps a_vec b_vec (rd c i))) c) c
  (List.range 8).foldl (fun C i => _mm256_storeu_ps C (coff + i * ldc) (rd c i)) C

/-- The packing routine `pack_A` (optimized_sgemm.cpp, lines 54-65). -/
def pack_A [Zero R] (k : Nat) (A : Matrix R) (aoff : Nat) (lda : Nat) (A_packed : Matrix R)
    (poff : Nat) : Matrix R :=
  (List.range 8).foldl (fun A_packed i =>
    (List.range k).foldl (fun A_packed p =>
      A_packed.set (poff + (i * k + p)) (rd A (aoff + (i * lda + p)))) A_packed) A_packed

/-- The packing routine `pack_B` (optimized_sgemm.cpp, lines 67-76). -/
def pack_B [Zero R] (k : Nat) (B : Matrix R) (boff : Nat) (ldb : Nat) (B_packed : Matrix R)
    (poff : Nat) : Matrix R :=
  (List.range k).foldl (fun B_packed p =>
    (List.range 8).foldl (fun B_packed j =>
      B_packed.set (poff + (p * 8 + j)) (rd B (boff + (p * ldb + j)))) B_packed) B_packed

/-- The block-size constant `MC` of `matmul_optimized_sgemm`. -/
def MC : Nat := 256

/-- The block-size constant `KC` of `matmul_optimized_sgemm`. -/
def KC : Nat := 256

/-- The block-size constant `NC` of `matmul_optimized_sgemm`. -/
def NC : Nat := 128

/-- The mutable buffers of `matmul_optimized_sgemm`: the two packing buffers and `C`. -/
structure SgemmState (R : Type) where
  A_packed : Matrix R
  B_packed : Matrix R
  C : Matrix R

/-- The blocked pass of `matmul_optimized_sgemm` (optimized_sgemm.cpp, lines 91-129).
`continue` skips the rest of the loop body. -/
def sgemm_blocked [Zero R] [Add R] [Mul R] (A B : Matrix R) (m n p : Nat)
    (s : SgemmState R) : SgemmState R :=
  (steps p NC).foldl (fun s j =>
    let jb := min NC (p - j)
    (steps n KC).foldl (fun s k =>
      let kb := min KC (n - k)
      (steps m MC).foldl (fun s i =>
        let ib := min MC (m - i)
        (steps jb 8).foldl (fun s jj =>
          if jj + 8 > jb then s
          else
            let s := { s with B_packed := pack_B kb B (k * p + (j + jj)) p s.B_packed 0 }
            (steps ib 8).foldl (fun s ii =>
              if ii + 8 > ib then s
              else
                let s := { s with A_packed := pack_A kb A ((i + ii) * n + k) n s.A_packed 0 }
                let coff := (i + ii) * p + (j + jj)
                { s with C := kernel_8x8 kb s.A_packed 0 s.B_packed 0 s.C coff p }) s) s) s) s) s

/-- The kernel `matmul_optimized_sgemm` (optimized_sgemm.cpp, lines 78-147): the blocked pass,
then `matmul_naive` on the whole matrix when a dimension is not a multiple of 8. -/
def matmul_optimized_sgemm [Zero R] [Add R] [Mul R] (A B C : Matrix R) (m n p : Nat) :
    Matrix R :=
  let A_packed : Matrix R := zeros (MC * KC)
  let B_packed : Matrix R := zeros (KC * NC)
  let s := sgemm_blocked A B m n p ⟨A_packed, B_packed, C⟩
  if m % 8 ≠ 0 ∨ n % 8 ≠ 0 ∨ p % 8 ≠ 0 then matmul_naive A B s.C m n p else s.C

/-! ## `parallel_threads.cpp` -/

/-- The thread count of `matmul_parallel_threads` (parallel_threads.cpp, lines 10-11): `hw` is
the value returned by `std::thread::hardware_concurrency()`, replaced by 4 when it is 0. -/
def num_threads_of (hw : Nat) : Nat := if hw = 0 then 4 else hw

/-- The expression `rows_for_thread` of the spawning loop (parallel_threads.cpp, line 19). -/
def rows_for_thread (chunk_size remainder t : Nat) : Nat :=
  chunk_size + (if t < remainder then 1 else 0)

/-- The state of the spawning loop: the variable `start_row` and the vector `threads`, each
spawned worker being recorded by the pair `(start_row, end_row)` it captured by value. -/
structure SpawnState where
  start_row : Nat
  threads : List (Nat × Nat)

/-- The first `upto` iterations of the spawning loop of `matmul_parallel_threads`
(parallel_threads.cpp, lines 13-35); the whole loop is `upto = num_threads`. -/
def spawn_loop (m num_threads upto : Nat) : SpawnState :=
  let chunk_size := m / num_threads
  let remainder := m % num_threads
  (List.range upto).foldl (fun s t =>
    let rows := rows_for_thread chunk_size remainder t
    let end_row := s.start_row + rows
    { start_row := end_row
      threads := if rows > 0 then s.threads ++ [(s.start_row, end_row)] else s.threads })
    ⟨0, []⟩

/-- The value of `start_row` at the beginning of iteration `t` of the spawning loop. -/
def start_row_at (m num_threads t : Nat) : Nat := (spawn_loop m num_threads t).start_row

/-- The value of `end_row` in iteration `t` of the spawning loop. -/
def end_row_at (m num_threads t : Nat) : Nat :=
  start_row_at m num_threads t + rows_for_thread (m / num_threads) (m % num_threads) t

/-- The workers spawned by the whole loop, in spawn order. -/
def spawned_threads (m num_threads : Nat) : List (Nat × Nat) :=
  (spawn_loop m num_threads num_threads).threads

/-- The body of a worker thread (parallel_threads.cpp, lines 24-31): the loop-order
accumulation over the rows `start_row ≤ i < end_row`. -/
def worker [Zero R] [Add R] [Mul R] (A B C : Matrix R) (n p start_row end_row : Nat) :
    Matrix R :=
  (List.range' start_row (end_row - start_row)).foldl (fun C i =>
    (List.range n).foldl (fun C k =>
      let a_val := rd A (i * n + k)
      (List.range p).foldl (fun C j =>
        C.set (i * p + j) (rd C (i * p + j) + a_val * rd B (k * p + j))) C) C) C

/-- The effect on `C` of the workers of `order` running one after the other, each to
completion: the sequential model of the spawned threads finishing in that order. -/
def run_workers [Zero R] [Add R] [Mul R] (A B C : Matrix R) (n p : Nat)
    (order : List (Nat × Nat)) : Matrix R :=
  order.foldl (fun C w => worker A B C n p w.1 w.2) C

/-- The kernel `matmul_parallel_threads` (parallel_threads.cpp, lines 7-40), with the workers
run in spawn order; `hw` is the value of `std::thread::hardware_concurrency()`. -/
def matmul_parallel_threads [Zero R] [Add R] [Mul R] (hw : Nat) (A B C : Matrix R)
    (m n p : Nat) : Matrix R :=
  let num_threads := num_threads_of hw
  run_workers A B C n p (spawned_threads m num_threads)

/-! ## `matrix_utils.h` -/

/-- The comparison loop of `verify_matrix` over the indices still to visit: `return false` at
the first index whose absolute difference exceeds `tol`, `return true` after the last. -/
def verify_loop [LinearOrderedField R] (expected actual : Matrix R) (tol : R) :
    List Nat → Bool
  | [] => true
  | i :: rest =>
    if |rd expected i - rd actual i| > tol then false
    else verify_loop expected actual tol rest

/-- The function `verify_matrix` (matrix_utils.h, lines 40-48). -/
def verify_matrix [LinearOrderedField R] (expected actual : Matrix R) (tol : R) : Bool :=
  if expected.length ≠ actual.length then false
  else verify_loop expected actual tol (List.range expected.length)

/-- One level of `strassen_recursive` above the threshold (strassen.cpp, lines 39-115): the
body of the function with its seven recursive calls, all on `new_size`, made through `rec`. -/
def strassen_level [Zero R] [Add R] [Sub R] (rec : Matrix R → Matrix R → Matrix R → Matrix R)
    (A B C : Matrix R) (size : Nat) : Matrix R :=
  let new_size := size / 2
  let sub_len := new_size * new_size
  let Q : Quadrants R := partition A B size new_size
    ⟨zeros sub_len, zeros sub_len, zeros sub_len, zeros sub_len,
     zeros sub_len, zeros sub_len, zeros sub_len, zeros sub_len⟩
  let C11 : Matrix R := zeros sub_len
  let C12 : Matrix R := zeros sub_len
  let C21 : Matrix R := zeros sub_len
  let C22 : Matrix R := zeros sub_len
  let M1 : Matrix R := zeros sub_len
  let M2 : Matrix R := zeros sub_len
  let M3 : Matrix R := zeros sub_len
  let M4 : Matrix R := zeros sub_len
  let M5 : Matrix R := zeros sub_len
  let M6 : Matrix R := zeros sub_len
  let M7 : Matrix R := zeros sub_len
  let Temp1 : Matrix R := zeros sub_len
  let Temp2 : Matrix R := zeros sub_len
  -- M1 = (A11 + A22) * (B11 + B22)
  let Temp1 := add_matrix Q.A11 Q.A22 Temp1 new_size
  let Temp2 := add_matrix Q.B11 Q.B22 Temp2 new_size
  let M1 := rec Temp1 Temp2 M1
  -- M2 = (A21 + A22) * B11
  let Temp1 := add_matrix Q.A21 Q.A22 Temp1 new_size
  let M2 := rec Temp1 Q.B11 M2
  -- M3 = A11 * (B12 - B22)
  let Temp2 := sub_matrix Q.B12 Q.B22 Temp2 new_size
  let M3 := rec Q.A11 Temp2 M3
  -- M4 = A22 * (B21 - B11)
  let Temp2 := sub_matrix Q.B21 Q.B11 Temp2 new_size
  let M4 := rec Q.A22 Temp2 M4
  -- M5 = (A11 + A12) * B22
  let Temp1 := add_matrix Q.A11 Q.A12 Temp1 new_size
  let M5 := rec Temp1 Q.B22 M5
  -- M6 = (A21 - A11) * (B11 + B12)
  let Temp1 := sub_matrix Q.A21 Q.A11 Temp1 new_size
  let Temp2 := add_matrix Q.B11 Q.B12 Temp2 new_size
  let M6 := rec Temp1 Temp2 M6
  -- M7 = (A12 - A22) * (B21 + B22)
  let Temp1 := sub_matrix Q.A12 Q.A22 Temp1 new_size
  let Temp2 := add_matrix Q.B21 Q.B22 Temp2 new_size
  let M7 := rec Temp1 Temp2 M7
  let C11 := (List.range sub_len).foldl
    (fun C11 i => C11.set i (rd M1 i + rd M4 i - rd M5 i + rd M7 i)) C11
  let C12 := (List.range sub_len).foldl (fun C12 i => C12.set i (rd M3 i + rd M5 i)) C12
  let C21 := (List.range sub_len).foldl (fun C21 i => C21.set i (rd M2 i + rd M4 i)) C21
  let C22 := (List.range sub_len).foldl
    (fun C22 i => C22.set i (rd M1 i - rd M2 i + rd M3 i + rd M6 i)) C22
  combine C11 C12 C21 C22 C size new_size

/-- The control skeleton of `strassen_recursive` on a C++ `int` size: the base case when
`size <= 64`, otherwise a descent to `new_size = size / 2`, on which all seven recursive calls
are made (every loop of the function is a bounded `for`).  It returns the depth of the
recursion, or `none` when `fuel` nested calls do not suffice. -/
def strassen_descent (fuel : Nat) (size : Int) : Option Nat :=
  match fuel with
  | 0 => none
  | fuel + 1 =>
    if size ≤ 64 then some 0
    else (strassen_descent fuel (size / 2)).map (fun d => d + 1)

/-- A counted loop whose body can fail: the first failing iteration aborts the loop. -/
def foldlOpt {σ τ : Type} (l : List τ) (f : σ → τ → Option σ) (s : σ) : Option σ :=
  match l with
  | [] => some s
  | t :: ts => (f s t).bind (fun s' => foldlOpt ts f s')

/-- Checked read of `M[i]`: `none` when `i` is outside the buffer. -/
def rd_checked [Zero R] (M : Matrix R) (i : Nat) : Option R :=
  if i < M.length then some (rd M i) else none

/-- Checked write `M[i] = v`: `none` when `i` is outside the buffer. -/
def set_checked (M : Matrix R) (i : Nat) (v : R) : Option (Matrix R) :=
  if i < M.length then some (M.set i v) else none

/-- Checked formation of the pointer `&M[off]`: `none` when `off` is outside the buffer. -/
def ptr_checked (M : Matrix R) (off : Nat) : Option Unit :=
  if off < M.length then some () else none

/-- Checked `_mm256_loadu_ps(&M[off])`: `none` unless the 8 elements lie in the buffer. -/
def loadu_checked [Zero R] (M : Matrix R) (off : Nat) : Option (M256 R) :=
  if off + 8 ≤ M.length then some (_mm256_loadu_ps M off) else none

/-- Checked `_mm256_storeu_ps(&M[off], v)`: `none` unless the 8 elements lie in the buffer. -/
def storeu_checked [Zero R] (M : Matrix R) (off : Nat) (v : M256 R) : Option (Matrix R) :=
  if off + 8 ≤ M.length then some (_mm256_storeu_ps M off v) else none

/-- The routine `pack_A` (optimized_sgemm.cpp, lines 54-65) with the read of `A` and the write
of `A_packed` checked. -/
def pack_A_checked [Zero R] (k : Nat) (A : Matrix R) (aoff : Nat) (lda : Nat)
    (A_packed : Matrix R) (poff : Nat) : Option (Matrix R) :=
  foldlOpt (List.range 8) (fun A_packed i =>
    foldlOpt (List.range k) (fun A_packed p =>
      (rd_checked A (aoff + (i * lda + p))).bind (fun v =>
        set_checked A_packed (poff + (i * k + p)) v)) A_packed) A_packed

/-- The routine `pack_B` (optimized_sgemm.cpp, lines 67-76) with the read of `B` and the write
of `B_packed` checked. -/
def pack_B_checked [Zero R] (k : Nat) (B : Matrix R) (boff : Nat) (ldb : Nat)
    (B_packed : Matrix R) (poff : Nat) : Option (Matrix R) :=
  foldlOpt (List.range k) (fun B_packed p =>
    foldlOpt (List.range 8) (fun B_packed j =>
      (rd_checked B (boff + (p * ldb + j))).bind (fun v =>
        set_checked B_packed (poff + (p * 8 + j)) v)) B_packed) B_packed

/-- The micro-kernel `kernel_8x8` (optimized_sgemm.cpp, lines 26-51) with the loads from `C`
and `B`, the scalar reads of `A` and the stores to `C` checked.  The register array `c` is
indexed by the loop counter `i < 8` only. -/
def kernel_8x8_checked [Zero R] [Add R] [Mul R] (k : Nat) (A : Matrix R) (aoff : Nat)
    (B : Matrix R) (boff : Nat) (C : Matrix R) (coff : Nat) (ldc : Nat) : Option (Matrix R) :=
  (foldlOpt (List.range 8) (fun (c : Matrix (M256 R)) i =>
      (loadu_checked C (coff + i * ldc)).bind (fun v => some (c.set i v))) (zeros 8)).bind
  (fun c =>
    (foldlOpt (List.range k) (fun c p =>
      (loadu_checked B (boff + p * 8)).bind (fun b_vec =>
        foldlOpt (List.range 8) (fun c i =>
          (rd_checked A (aoff + (i * k + p))).bind (fun a =>
            some (c.set i (_mm256_fmadd_ps (_mm256_set1_ps a) b_vec (rd c i))))) c)) c).bind
    (fun c =>
      foldlOpt (List.range 8) (fun C i => storeu_checked C (coff + i * ldc) (rd c i)) C))

/-- One micro-tile of the blocked pass (optimized_sgemm.cpp, lines 121 and 124), checked: the
pointers `&A[(i+ii)*n + k]` and `&A_packed[0]` and the call of `pack_A`, then the pointers
`&A_packed[0]`, `&B_packed[0]`, `&C[(i+ii)*p + (j+jj)]` and the call of `kernel_8x8`. -/
def sgemm_tile_checked [Zero R] [Add R] [Mul R] (A : Matrix R) (n p kb i ii j jj k : Nat)
    (s : SgemmState R) : Option (SgemmState R) :=
  (ptr_checked A ((i + ii) * n + k)).bind (fun _ =>
  (ptr_checked s.A_packed 0).bind (fun _ =>
  (pack_A_checked kb A ((i + ii) * n + k) n s.A_packed 0).bind (fun Ap =>
  (ptr_checked Ap 0).bind (fun _ =>
  (ptr_checked s.B_packed 0).bind (fun _ =>
  (ptr_checked s.C ((i + ii) * p + (j + jj))).bind (fun _ =>
  (kernel_8x8_checked kb Ap 0 s.B_packed 0 s.C ((i + ii) * p + (j + jj)) p).bind (fun C' =>
    some ⟨Ap, s.B_packed, C'⟩)))))))

/-- The blocked pass of `matmul_optimized_sgemm` (optimized_sgemm.cpp, lines 91-129) with
every buffer access checked; line 115 forms `&B[k*p + (j+jj)]` and `&B_packed[0]` and calls
`pack_B`. -/
def sgemm_blocked_checked [Zero R] [Add R] [Mul R] (A B : Matrix R) (m n p : Nat)
    (s : SgemmState R) : Option (SgemmState R) :=
  foldlOpt (steps p NC) (fun s j =>
    let jb := min NC (p - j)
    foldlOpt (steps n KC) (fun s k =>
      let kb := min KC (n - k)
      foldlOpt (steps m MC) (fun s i =>
        let ib := min MC (m - i)
        foldlOpt (steps jb 8) (fun s jj =>
          if jj + 8 > jb then some s
          else
            (ptr_checked B (k * p + (j + jj))).bind (fun _ =>
            (ptr_checked s.B_packed 0).bind (fun _ =>
            (pack_B_checked kb B (k * p + (j + jj)) p s.B_packed 0).bind (fun Bp =>
              foldlOpt (steps ib 8) (fun s ii =>
                if ii + 8 > ib then some s
                else sgemm_tile_checked A n p kb i ii j jj k s) ⟨s.A_packed, Bp, s.C⟩))))
          s) s) s) s

/-- The kernel `matmul_naive` (naive.cpp, lines 4-22) with every buffer access checked. -/
def matmul_naive_checked [Zero R] [Add R] [Mul R] (A B C : Matrix R) (m n p : Nat) :
    Option (Matrix R) :=
  foldlOpt (List.range m) (fun C i =>
    foldlOpt (List.range p) (fun C j =>
      (foldlOpt (List.range n) (fun sum k =>
        (rd_checked A (i * n + k)).bind (fun a =>
          (rd_checked B (k * p + j)).bind (fun b => some (sum + a * b)))) 0).bind
      (fun sum => set_checked C (i * p + j) sum)) C) C

/-- The kernel `matmul_optimized_sgemm` (optimized_sgemm.cpp, lines 78-147) with every buffer
access checked: `none` as soon as one index is outside its buffer. -/
def matmul_optimized_sgemm_checked [Zero R] [Add R] [Mul R] (A B C : Matrix R)
    (m n p : Nat) : Option (Matrix R) :=
  (sgemm_blocked_checked A B m n p ⟨zeros (MC * KC), zeros (KC * NC), C⟩).bind (fun s =>
    if m % 8 ≠ 0 ∨ n % 8 ≠ 0 ∨ p % 8 ≠ 0 then matmul_naive_checked A B s.C m n p
    else some s.C)


/-! ## Specification vocabulary -/

/-- A buffer transformer `U` acts pointwise on buffers of length `L`: it keeps the length, and
the new entry at `q` is `u q` of the old entry at `q`. -/
def PW [Zero R] (L : Nat) (U : Matrix R → Matrix R) (u : Nat → R → R) : Prop :=
  ∀ C : Matrix R, C.length = L → (U C).length = L ∧ ∀ q, q < L → rd (U C) q = u q (rd C q)


/-- The left-to-right accumulation `c + A[i,k₀]*B[k₀,j] + A[i,k₁]*B[k₁,j] + ...` over the
inner indices `ks`, in that order. -/
def dotAcc [Zero R] [Add R] [Mul R] (A B : Matrix R) (n p i j : Nat) (ks : List Nat) (c : R) :
    R :=
  ks.foldl (fun c k => c + rd A (i * n + k) * rd B (k * p + j)) c


/-- What the partition loop leaves in the eight quadrant buffers. -/
def QuadOK [Zero R] (A B : Matrix R) (size h : Nat) (Q : Quadrants R) : Prop :=
  (Q.A11.length = h * h ∧ Q.A12.length = h * h ∧ Q.A21.length = h * h ∧ Q.A22.length = h * h ∧
   Q.B11.length = h * h ∧ Q.B12.length = h * h ∧ Q.B21.length = h * h ∧ Q.B22.length = h * h) ∧
  ∀ a b, a < h → b < h →
    rd Q.A11 (a * h + b) = rd A (a * size + b) ∧
    rd Q.A12 (a * h + b) = rd A (a * size + (b + h)) ∧
    rd Q.A21 (a * h + b) = rd A ((a + h) * size + b) ∧
    rd Q.A22 (a * h + b) = rd A ((a + h) * size + (b + h)) ∧
    rd Q.B11 (a * h + b) = rd B (a * size + b) ∧
    rd Q.B12 (a * h + b) = rd B (a * size + (b + h)) ∧
    rd Q.B21 (a * h + b) = rd B ((a + h) * size + b) ∧
    rd Q.B22 (a * h + b) = rd B ((a + h) * size + (b + h))

/-- The contract of `strassen_recursive` at side length `size`: the result has the length of
`C` and its entry `(i, j)` is the prior entry plus the `(i, j)` entry of the product. -/
def StrassenOK (R : Type) [Ring R] (size : Nat) : Prop :=
  ∀ A B C : Matrix R, C.length = size * size →
    (strassen_recursive A B C size).length = size * size ∧
    ∀ i j, i < size → j < size →
      rd (strassen_recursive A B C size) (i * size + j)
        = rd C (i * size + j) + ∑ k ∈ Finset.range size, rd A (i * size + k) * rd B (k * size + j)

/-- The all-ones matrix of side 65. -/
def ones65 : Matrix Int := List.replicate (65 * 65) 1

/-- The packing buffers keep the lengths they were allocated with. -/
def SgemmInv (s : SgemmState R) : Prop :=
  s.A_packed.length = MC * KC ∧ s.B_packed.length = KC * NC

/-- The packing buffer for `B` holds the `kb`-by-8 strip of `B` that starts at offset `boff`
(row stride `p`). -/
def PackedB [Zero R] (B : Matrix R) (kb boff p : Nat) (s : SgemmState R) : Prop :=
  SgemmInv s ∧ ∀ t l, t < kb → l < 8 → rd s.B_packed (0 + (t * 8 + l)) = rd B (boff + (t * p + l))

/-- A transformer of the state of `matmul_optimized_sgemm` that preserves `Inv` and acts
pointwise on `C` (of length `L`). -/
def PWS [Zero R] (L : Nat) (Inv : SgemmState R → Prop) (U : SgemmState R → SgemmState R)
    (u : Nat → R → R) : Prop :=
  ∀ s : SgemmState R, Inv s → s.C.length = L →
    Inv (U s) ∧ (U s).C.length = L ∧ ∀ q, q < L → rd (U s).C q = u q (rd s.C q)

/-! # Proofs -/

/-! ## Buffers and pointwise updates -/

theorem rd_set [Zero R] (C : Matrix R) (i q : Nat) (v : R) (hq : q < C.length) :
    rd (C.set i v) q = if q = i then v else rd C q := by
  unfold rd
  rw [List.getD_eq_getElem?_getD, List.getD_eq_getElem?_getD, List.getElem?_set]
  by_cases h : i = q
  · subst h
    simp [hq]
  · have h' : ¬ q = i := fun e => h e.symm
    simp [h, h']

theorem rd_zeros [Zero R] (len q : Nat) : rd (zeros len : Matrix R) q = 0 := by
  unfold rd zeros
  rw [List.getD_eq_getElem?_getD]
  by_cases h : q < len
  · simp [List.getElem?_replicate, h]
  · simp [List.getElem?_replicate, h]

theorem length_zeros [Zero R] (len : Nat) : (zeros len : Matrix R).length = len := by
  simp [zeros]

theorem ext_rd [Zero R] {C D : Matrix R} {L : Nat} (hC : C.length = L) (hD : D.length = L)
    (h : ∀ q, q < L → rd C q = rd D q) : C = D := by
  apply List.ext_getElem (by rw [hC, hD])
  intro q h1 h2
  have := h q (by omega)
  simpa [rd, List.getD_eq_getElem?_getD, List.getElem?_eq_getElem h1,
    List.getElem?_eq_getElem h2] using this

theorem PW.set [Zero R] (L idx : Nat) (f : R → R) :
    PW L (fun C : Matrix R => C.set idx (f (rd C idx)))
      (fun q c => if q = idx then f c else c) := by
  intro C hC
  refine ⟨by simp [hC], fun q hq => ?_⟩
  rw [rd_set _ _ _ _ (by omega)]
  by_cases h : q = idx
  · simp [h]
  · simp [h]

theorem PW.foldl [Zero R] {τ : Type} (L : Nat) (l : List τ) (step : Matrix R → τ → Matrix R)
    (u : τ → Nat → R → R) (h : ∀ t, t ∈ l → PW L (fun C => step C t) (u t)) :
    PW L (fun C => l.foldl step C) (fun q c => l.foldl (fun c t => u t q c) c) := by
  induction l with
  | nil => intro C hC; exact ⟨hC, fun q _ => rfl⟩
  | cons t ts ih =>
    intro C hC
    have h1 := h t (List.mem_cons_self _ _) C hC
    have h2 := ih (fun t' ht' => h t' (List.mem_cons_of_mem _ ht')) (step C t) h1.1
    refine ⟨h2.1, fun q hq => ?_⟩
    simp only [List.foldl_cons]
    rw [h2.2 q hq, h1.2 q hq]

theorem PW.congr [Zero R] {L : Nat} {U : Matrix R → Matrix R} {u v : Nat → R → R}
    (h : PW L U u) (huv : ∀ q, q < L → ∀ c, u q c = v q c) : PW L U v := by
  intro C hC
  refine ⟨(h C hC).1, fun q hq => ?_⟩
  rw [(h C hC).2 q hq, huv q hq]

/-! ## Folds of guarded updates -/

theorem foldl_skip {τ : Type} (l : List τ) (c : R) : l.foldl (fun c _ => c) c = c := by
  induction l with
  | nil => rfl
  | cons t ts ih => simp

theorem foldl_none {τ : Type} (l : List τ) (P : τ → Prop) [DecidablePred P] (g : τ → R → R)
    (c : R) (hP : ∀ t, t ∈ l → ¬ P t) :
    l.foldl (fun c t => if P t then g t c else c) c = c := by
  induction l with
  | nil => rfl
  | cons t ts ih =>
    simp only [List.foldl_cons, if_neg (hP t (List.mem_cons_self _ _))]
    exact ih (fun t' ht' => hP t' (List.mem_cons_of_mem _ ht'))

theorem foldl_unique {τ : Type} (l : List τ) (hnd : l.Nodup) (P : τ → Prop) [DecidablePred P]
    (g : τ → R → R) (c : R) (x : τ) (hx : x ∈ l) (hP : ∀ t, t ∈ l → (P t ↔ t = x)) :
    l.foldl (fun c t => if P t then g t c else c) c = g x c := by
  induction l generalizing c with
  | nil => simp at hx
  | cons t ts ih =>
    rw [List.nodup_cons] at hnd
    simp only [List.foldl_cons]
    by_cases htx : t = x
    · subst htx
      rw [if_pos ((hP t (List.mem_cons_self _ _)).2 rfl)]
      apply foldl_none
      intro t' ht' hPt'
      have := (hP t' (List.mem_cons_of_mem _ ht')).1 hPt'
      subst this
      exact hnd.1 ht'
    · rw [if_neg (fun hPt => htx ((hP t (List.mem_cons_self _ _)).1 hPt))]
      have hx' : x ∈ ts := by
        rcases List.mem_cons.1 hx with h | h
        · exact absurd h.symm htx
        · exact h
      exact ih hnd.2 c hx' (fun t' ht' => hP t' (List.mem_cons_of_mem _ ht'))

/-- A fold of guarded updates over a duplicate-free list, whose guard singles out at most the
element `x` (and then only when `Q`), applies the update of `x` once or not at all. -/
theorem foldl_select (l : List Nat) (hnd : l.Nodup) (P : Nat → Prop) [DecidablePred P]
    (Q : Prop) [Decidable Q] (g : Nat → R → R) (c : R) (x : Nat)
    (hP : ∀ t, t ∈ l → (P t ↔ t = x ∧ Q)) :
    l.foldl (fun c t => if P t then g t c else c) c = if x ∈ l ∧ Q then g x c else c := by
  by_cases h : x ∈ l ∧ Q
  · rw [if_pos h]
    exact foldl_unique l hnd P g c x h.1 (fun t ht => by rw [hP t ht]; simp [h.2])
  · rw [if_neg h]
    apply foldl_none
    intro t ht hPt
    have := (hP t ht).1 hPt
    exact h ⟨this.1 ▸ ht, this.2⟩

theorem foldl_guard {τ : Type} (l : List τ) (P : Prop) [Decidable P] (g : R → τ → R) (c : R) :
    l.foldl (fun c t => if P then g c t else c) c = if P then l.foldl g c else c := by
  by_cases h : P
  · simp [h]
  · simp [h, foldl_skip]

/-! ## Row-major indexing -/

theorem idx_eq_iff {p i j i0 j0 : Nat} (hj : j < p) (hj0 : j0 < p) :
    i0 * p + j0 = i * p + j ↔ i = i0 ∧ j = j0 := by
  constructor
  · intro h
    have hi : i = i0 := by
      rcases Nat.lt_trichotomy i i0 with h1 | h1 | h1
      · have := Nat.mul_le_mul_right p (Nat.succ_le_of_lt h1)
        rw [Nat.succ_mul] at this
        omega
      · exact h1
      · have := Nat.mul_le_mul_right p (Nat.succ_le_of_lt h1)
        rw [Nat.succ_mul] at this
        omega
    subst hi
    exact ⟨rfl, by omega⟩
  · rintro ⟨rfl, rfl⟩
    rfl

theorem idx_lt {m p i j : Nat} (hi : i < m) (hj : j < p) : i * p + j < m * p := by
  have := Nat.mul_le_mul_right p (Nat.succ_le_of_lt hi)
  rw [Nat.succ_mul] at this
  omega

theorem idx_decomp {m p q : Nat} (hq : q < m * p) :
    q / p < m ∧ q % p < p ∧ q = (q / p) * p + q % p := by
  have hp : 0 < p := by
    rcases Nat.eq_zero_or_pos p with h | h
    · subst h; simp at hq
    · exact h
  refine ⟨?_, Nat.mod_lt _ hp, ?_⟩
  · rw [Nat.div_lt_iff_lt_mul hp]; exact hq
  · rw [Nat.mul_comm]; exact (Nat.div_add_mod q p).symm

/-- Two buffers of length `m*p` that agree at every `(i, j)` are equal. -/
theorem ext_entries [Zero R] {C D : Matrix R} {m p : Nat} (hC : C.length = m * p)
    (hD : D.length = m * p)
    (h : ∀ i j, i < m → j < p → rd C (i * p + j) = rd D (i * p + j)) : C = D := by
  apply ext_rd hC hD
  intro q hq
  obtain ⟨h1, h2, h3⟩ := idx_decomp hq
  rw [h3]
  exact h _ _ h1 h2

theorem dotAcc_eq_sum [Semiring R] (A B : Matrix R) (n p i j N : Nat) (c : R) :
    dotAcc A B n p i j (List.range N) c
      = c + ∑ k ∈ Finset.range N, rd A (i * n + k) * rd B (k * p + j) := by
  induction N with
  | zero => simp [dotAcc]
  | succ N ih =>
    unfold dotAcc at ih ⊢
    rw [List.range_succ, List.foldl_append, ih, Finset.sum_range_succ]
    simp [add_assoc]

/-! ## Entries of `matmul_naive` and `matmul_loop_reorder` -/

theorem matmul_naive_pw [Zero R] [Add R] [Mul R] (A B : Matrix R) (m n p : Nat) :
    PW (m * p) (fun C => matmul_naive A B C m n p)
      (fun q c => (List.range m).foldl (fun c i => (List.range p).foldl (fun c j =>
        if q = i * p + j then dotAcc A B n p i j (List.range n) 0 else c) c) c) := by
  unfold matmul_naive
  apply PW.foldl
  intro i _
  apply PW.foldl
  intro j _
  exact PW.set (m * p) (i * p + j) (fun _ => dotAcc A B n p i j (List.range n) 0)

theorem matmul_naive_length [Zero R] [Add R] [Mul R] (A B C : Matrix R) (m n p : Nat)
    (hC : C.length = m * p) : (matmul_naive A B C m n p).length = m * p :=
  (matmul_naive_pw A B m n p C hC).1

theorem matmul_naive_entry [Zero R] [Add R] [Mul R] (A B C : Matrix R) (m n p : Nat)
    (hC : C.length = m * p) (i j : Nat) (hi : i < m) (hj : j < p) :
    rd (matmul_naive A B C m n p) (i * p + j) = dotAcc A B n p i j (List.range n) 0 := by
  rw [(matmul_naive_pw A B m n p C hC).2 _ (idx_lt hi hj)]
  have inner : ∀ (t : Nat) (c : R), (List.range p).foldl (fun c j' =>
      if i * p + j = t * p + j' then dotAcc A B n p t j' (List.range n) 0 else c) c
      = if t = i then dotAcc A B n p t j (List.range n) 0 else c := by
    intro t c
    rw [foldl_select (List.range p) (List.nodup_range p) (fun j' => i * p + j = t * p + j')
      (t = i) (fun j' _ => dotAcc A B n p t j' (List.range n) 0) c j
      (fun j' hj' => by
        show i * p + j = t * p + j' ↔ _
        rw [idx_eq_iff (List.mem_range.1 hj') hj]
        exact ⟨fun h => ⟨h.2, h.1⟩, fun h => ⟨h.2, h.1⟩⟩)]
    simp [hj]
  simp only [inner]
  rw [foldl_select (List.range m) (List.nodup_range m) (fun t => t = i) True
    (fun t _ => dotAcc A B n p t j (List.range n) 0) _ i (fun t _ => by simp)]
  simp [hi]

theorem matmul_loop_reorder_pw [Zero R] [Add R] [Mul R] (A B : Matrix R) (m n p : Nat) :
    PW (m * p) (fun C => matmul_loop_reorder A B C m n p)
      (fun q c => (List.range m).foldl (fun c i => (List.range n).foldl (fun c k =>
        (List.range p).foldl (fun c j =>
          if q = i * p + j then c + rd A (i * n + k) * rd B (k * p + j) else c) c) c) c) := by
  unfold matmul_loop_reorder
  apply PW.foldl
  intro i _
  apply PW.foldl
  intro k _
  apply PW.foldl
  intro j _
  exact PW.set (m * p) (i * p + j) (fun c => c + rd A (i * n + k) * rd B (k * p + j))

theorem matmul_loop_reorder_length [Zero R] [Add R] [Mul R] (A B C : Matrix R) (m n p : Nat)
    (hC : C.length = m * p) : (matmul_loop_reorder A B C m n p).length = m * p :=
  (matmul_loop_reorder_pw A B m n p C hC).1

/-- One sweep of the innermost (column) loop, seen from the entry `(i, j)`. -/
theorem fold_col (p i j t : Nat) (hj : j < p) (js : List Nat)
    (hnd : js.Nodup) (hjs : ∀ x, x ∈ js → x < p) (g : Nat → R → R) (c : R) :
    js.foldl (fun c j' => if i * p + j = t * p + j' then g j' c else c) c
      = if j ∈ js ∧ t = i then g j c else c :=
  foldl_select js hnd (fun j' => i * p + j = t * p + j') (t = i) g c j
    (fun j' hj' => by
      show i * p + j = t * p + j' ↔ _
      rw [idx_eq_iff (hjs j' hj') hj]
      exact ⟨fun h => ⟨h.2, h.1⟩, fun h => ⟨h.2, h.1⟩⟩)

theorem matmul_loop_reorder_entry [Zero R] [Add R] [Mul R] (A B C : Matrix R) (m n p : Nat)
    (hC : C.length = m * p) (i j : Nat) (hi : i < m) (hj : j < p) :
    rd (matmul_loop_reorder A B C m n p) (i * p + j)
      = dotAcc A B n p i j (List.range n) (rd C (i * p + j)) := by
  rw [(matmul_loop_reorder_pw A B m n p C hC).2 _ (idx_lt hi hj)]
  have inner : ∀ (t k : Nat) (c : R), (List.range p).foldl (fun c j' =>
      if i * p + j = t * p + j' then c + rd A (t * n + k) * rd B (k * p + j') else c) c
      = if t = i then c + rd A (t * n + k) * rd B (k * p + j) else c := by
    intro t k c
    rw [fold_col p i j t hj (List.range p) (List.nodup_range p)
      (fun x hx => List.mem_range.1 hx) (fun j' c => c + rd A (t * n + k) * rd B (k * p + j'))]
    simp [hj]
  simp only [inner, foldl_guard]
  rw [foldl_select (List.range m) (List.nodup_range m) (fun t => t = i) True
    (fun t c => (List.range n).foldl (fun c k => c + rd A (t * n + k) * rd B (k * p + j)) c)
    _ i (fun t _ => by simp)]
  simp [hi, dotAcc]

/-! ## Strided loops and their blocks -/

theorem steps_nodup (N S : Nat) (hS : 0 < S) : (steps N S).Nodup :=
  List.nodup_range' 0 _ S hS

theorem mem_steps {N S b : Nat} (hS : 0 < S) : b ∈ steps N S ↔ ∃ t, b = S * t ∧ b < N := by
  unfold steps
  rw [List.mem_range']
  have key : ∀ t, t < (N + S - 1) / S ↔ S * t < N := by
    intro t
    rw [← Nat.succ_le_iff, Nat.le_div_iff_mul_le hS, Nat.succ_mul, Nat.mul_comm]
    omega
  constructor
  · rintro ⟨t, ht, rfl⟩
    exact ⟨t, by simp, by simpa using (key t).1 ht⟩
  · rintro ⟨t, rfl, ht⟩
    exact ⟨t, (key t).2 ht, by simp⟩

theorem block_bounds (S x : Nat) (hS : 0 < S) : S * (x / S) ≤ x ∧ x < S * (x / S) + S := by
  have := Nat.div_add_mod x S
  have := Nat.mod_lt x hS
  omega

theorem block_mem {N S x : Nat} (hS : 0 < S) (hx : x < N) : S * (x / S) ∈ steps N S :=
  (mem_steps hS).2 ⟨x / S, rfl, by have := block_bounds S x hS; omega⟩

/-- Among the block origins of a strided loop, the block `[b, b+S)` containing `x` is the one
with origin `S * (x / S)`. -/
theorem block_iff {N S b x : Nat} (hS : 0 < S) (hb : b ∈ steps N S) :
    (b ≤ x ∧ x < b + S) ↔ b = S * (x / S) := by
  obtain ⟨t, rfl, -⟩ := (mem_steps hS).1 hb
  constructor
  · rintro ⟨h1, h2⟩
    have : x / S = t := Nat.div_eq_of_lt_le (by rw [Nat.mul_comm]; exact h1)
      (by rw [Nat.succ_mul, Nat.mul_comm]; exact h2)
    rw [this]
  · intro h
    have := block_bounds S x hS
    omega

theorem mem_chunk {b len x : Nat} : x ∈ List.range' b len ↔ b ≤ x ∧ x < b + len := by
  rw [List.mem_range'_1]

/-- Running the blocks of a strided loop in order, each over its clipped chunk, visits
`0, 1, ..., N-1` in order. -/
theorem foldl_chunks (N S : Nat) (hS : 0 < S) (g : R → Nat → R) (c : R) :
    (steps N S).foldl (fun c b => (List.range' b (min (b + S) N - b)).foldl g c) c
      = (List.range N).foldl g c := by
  have key : ∀ cnt : Nat,
      (List.range' 0 cnt S).foldl (fun c b => (List.range' b (min (b + S) N - b)).foldl g c) c
        = (List.range (min (S * cnt) N)).foldl g c := by
    intro cnt
    induction cnt with
    | zero => simp
    | succ cnt ih =>
      rw [List.range'_concat, List.foldl_append, ih]
      simp only [List.foldl_cons, List.foldl_nil, Nat.zero_add]
      rw [← List.foldl_append, List.range_eq_range', List.range_eq_range']
      congr 1
      rw [Nat.mul_succ]
      by_cases h : S * cnt ≤ N
      · rw [Nat.min_eq_left h]
        have := List.range'_append 0 (S * cnt) (min (S * cnt + S) N - S * cnt) 1
        simp only [Nat.zero_add, Nat.one_mul] at this
        rw [this]
        congr 1
        omega
      · have h1 : min (S * cnt) N = N := by omega
        have h2 : min (S * cnt + S) N = N := by omega
        have h3 : N - S * cnt = 0 := by omega
        rw [h1, h2, h3]
        simp
  unfold steps
  rw [key]
  congr 2
  have h1 := Nat.div_add_mod (N + S - 1) S
  have h2 := Nat.mod_lt (N + S - 1) hS
  omega

/-! ## Entries of `matmul_tiled` -/

theorem matmul_tiled_pw [Zero R] [Add R] [Mul R] (A B : Matrix R) (m n p : Nat) :
    PW (m * p) (fun C => matmul_tiled A B C m n p)
      (fun q c => (steps m BLOCK_SIZE).foldl (fun c i => (steps n BLOCK_SIZE).foldl (fun c k =>
        (steps p BLOCK_SIZE).foldl (fun c j =>
          (List.range' i (min (i + BLOCK_SIZE) m - i)).foldl (fun c ii =>
            (List.range' k (min (k + BLOCK_SIZE) n - k)).foldl (fun c kk =>
              (List.range' j (min (j + BLOCK_SIZE) p - j)).foldl (fun c jj =>
                if q = ii * p + jj then c + rd A (ii * n + kk) * rd B (kk * p + jj) else c)
              c) c) c) c) c) c) := by
  unfold matmul_tiled
  apply PW.foldl
  intro i _
  apply PW.foldl
  intro k _
  apply PW.foldl
  intro j _
  apply PW.foldl
  intro ii _
  apply PW.foldl
  intro kk _
  apply PW.foldl
  intro jj _
  exact PW.set (m * p) (ii * p + jj) (fun c => c + rd A (ii * n + kk) * rd B (kk * p + jj))

theorem matmul_tiled_length [Zero R] [Add R] [Mul R] (A B C : Matrix R) (m n p : Nat)
    (hC : C.length = m * p) : (matmul_tiled A B C m n p).length = m * p :=
  (matmul_tiled_pw A B m n p C hC).1

theorem BLOCK_SIZE_pos : 0 < BLOCK_SIZE := by decide

theorem matmul_tiled_entry [Zero R] [Add R] [Mul R] (A B C : Matrix R) (m n p : Nat)
    (hC : C.length = m * p) (i j : Nat) (hi : i < m) (hj : j < p) :
    rd (matmul_tiled A B C m n p) (i * p + j)
      = dotAcc A B n p i j (List.range n) (rd C (i * p + j)) := by
  rw [(matmul_tiled_pw A B m n p C hC).2 _ (idx_lt hi hj)]
  -- the innermost three loops, seen from the entry `(i, j)`
  have tile : ∀ (bi bk bj : Nat) (c : R),
      (List.range' bi (min (bi + BLOCK_SIZE) m - bi)).foldl (fun c ii =>
        (List.range' bk (min (bk + BLOCK_SIZE) n - bk)).foldl (fun c kk =>
          (List.range' bj (min (bj + BLOCK_SIZE) p - bj)).foldl (fun c jj =>
            if i * p + j = ii * p + jj then c + rd A (ii * n + kk) * rd B (kk * p + jj) else c)
          c) c) c
      = if (bi ≤ i ∧ i < bi + BLOCK_SIZE) ∧ (bj ≤ j ∧ j < bj + BLOCK_SIZE) then
          dotAcc A B n p i j (List.range' bk (min (bk + BLOCK_SIZE) n - bk)) c
        else c := by
    intro bi bk bj c
    have inner : ∀ (ii kk : Nat) (c : R),
        (List.range' bj (min (bj + BLOCK_SIZE) p - bj)).foldl (fun c jj =>
          if i * p + j = ii * p + jj then c + rd A (ii * n + kk) * rd B (kk * p + jj) else c) c
        = if j ∈ List.range' bj (min (bj + BLOCK_SIZE) p - bj) ∧ ii = i then
            c + rd A (ii * n + kk) * rd B (kk * p + j) else c := by
      intro ii kk c
      exact fold_col p i j ii hj _ (List.nodup_range' _ _) (fun x hx => by
        have := mem_chunk.1 hx; omega)
        (fun jj c => c + rd A (ii * n + kk) * rd B (kk * p + jj)) c
    simp only [inner, foldl_guard]
    rw [foldl_select (List.range' bi (min (bi + BLOCK_SIZE) m - bi)) (List.nodup_range' _ _)
      (fun ii => j ∈ List.range' bj (min (bj + BLOCK_SIZE) p - bj) ∧ ii = i)
      (j ∈ List.range' bj (min (bj + BLOCK_SIZE) p - bj))
      (fun ii c => (List.range' bk (min (bk + BLOCK_SIZE) n - bk)).foldl
        (fun c kk => c + rd A (ii * n + kk) * rd B (kk * p + j)) c) c i
      (fun ii _ => ⟨fun h => ⟨h.2, h.1⟩, fun h => ⟨h.2, h.1⟩⟩)]
    have e : (i ∈ List.range' bi (min (bi + BLOCK_SIZE) m - bi) ∧
        j ∈ List.range' bj (min (bj + BLOCK_SIZE) p - bj))
        ↔ ((bi ≤ i ∧ i < bi + BLOCK_SIZE) ∧ (bj ≤ j ∧ j < bj + BLOCK_SIZE)) := by
      rw [mem_chunk, mem_chunk]
      omega
    simp only [e, dotAcc]
  simp only [tile]
  -- the column blocks: exactly one contains `j`
  have colblk : ∀ (bi bk : Nat) (c : R),
      (steps p BLOCK_SIZE).foldl (fun c bj =>
        if (bi ≤ i ∧ i < bi + BLOCK_SIZE) ∧ (bj ≤ j ∧ j < bj + BLOCK_SIZE) then
          dotAcc A B n p i j (List.range' bk (min (bk + BLOCK_SIZE) n - bk)) c
        else c) c
      = if bi ≤ i ∧ i < bi + BLOCK_SIZE then
          dotAcc A B n p i j (List.range' bk (min (bk + BLOCK_SIZE) n - bk)) c
        else c := by
    intro bi bk c
    rw [foldl_select (steps p BLOCK_SIZE) (steps_nodup _ _ BLOCK_SIZE_pos)
      (fun bj => (bi ≤ i ∧ i < bi + BLOCK_SIZE) ∧ (bj ≤ j ∧ j < bj + BLOCK_SIZE))
      (bi ≤ i ∧ i < bi + BLOCK_SIZE)
      (fun _ c => dotAcc A B n p i j (List.range' bk (min (bk + BLOCK_SIZE) n - bk)) c) c
      (BLOCK_SIZE * (j / BLOCK_SIZE))
      (fun bj hbj => by
        show _ ∧ _ ↔ _
        rw [block_iff BLOCK_SIZE_pos hbj]
        exact ⟨fun h => ⟨h.2, h.1⟩, fun h => ⟨h.2, h.1⟩⟩)]
    simp [block_mem BLOCK_SIZE_pos hj]
  simp only [colblk, foldl_guard]
  have kblk : ∀ c : R, (steps n BLOCK_SIZE).foldl (fun c bk =>
      dotAcc A B n p i j (List.range' bk (min (bk + BLOCK_SIZE) n - bk)) c) c
      = dotAcc A B n p i j (List.range n) c := by
    intro c
    exact foldl_chunks n BLOCK_SIZE BLOCK_SIZE_pos
      (fun c k => c + rd A (i * n + k) * rd B (k * p + j)) c
  simp only [kblk]
  rw [foldl_select (steps m BLOCK_SIZE) (steps_nodup _ _ BLOCK_SIZE_pos)
    (fun bi => bi ≤ i ∧ i < bi + BLOCK_SIZE) True
    (fun _ c => dotAcc A B n p i j (List.range n) c) _ (BLOCK_SIZE * (i / BLOCK_SIZE))
    (fun bi hbi => by
      show _ ∧ _ ↔ _
      rw [block_iff BLOCK_SIZE_pos hbi]
      simp)]
  simp [block_mem BLOCK_SIZE_pos hi]

/-! ## The reference, loop-order and cache-blocked kernels -/

/-- Claim C1.  For buffers of the right lengths, `matmul_naive` returns a buffer whose entry at
offset `i*p+j` is the sum over `k < n` of `A[i*n+k] * B[k*p+j]` as the kernel accumulates it
into its local scalar: the left-to-right fold `((0 + A[i,0]*B[0,j]) + A[i,1]*B[1,j]) + ...`
with the element type's own `+` and `*`, of which no algebraic law is assumed; this holds for
every `i < m` and `j < p`.  The returned buffer is the same for every prior content of `C`:
the kernel overwrites. -/
theorem matmul_naive_contract [Zero R] [Add R] [Mul R] (A B C : Matrix R) (m n p : Nat)
    (_hA : A.length = m * n) (_hB : B.length = n * p) (hC : C.length = m * p) :
    (∀ i j, i < m → j < p →
      rd (matmul_naive A B C m n p) (i * p + j)
        = (List.range n).foldl (fun sum k => sum + rd A (i * n + k) * rd B (k * p + j)) 0) ∧
    (∀ C' : Matrix R, C'.length = m * p →
      matmul_naive A B C' m n p = matmul_naive A B C m n p) := by
  refine ⟨fun i j hi hj => ?_, fun C' hC' => ?_⟩
  · exact matmul_naive_entry A B C m n p hC i j hi hj
  · apply ext_entries (matmul_naive_length A B C' m n p hC') (matmul_naive_length A B C m n p hC)
    intro i j hi hj
    rw [matmul_naive_entry A B C' m n p hC' i j hi hj, matmul_naive_entry A B C m n p hC i j hi hj]

/-- Instance of `matmul_naive_contract` on a 2x2 product with a non-zero prior `C`. -/
theorem matmul_naive_contract_witness :
    ([1, 2, 3, 4] : Matrix Int).length = 2 * 2 ∧ ([5, 6, 7, 8] : Matrix Int).length = 2 * 2 ∧
    ([9, 9, 9, 9] : Matrix Int).length = 2 * 2 ∧
    rd (matmul_naive [1, 2, 3, 4] [5, 6, 7, 8] [9, 9, 9, 9] 2 2 2 : Matrix Int) (1 * 2 + 0)
      = (List.range 2).foldl (fun sum k =>
          sum + rd ([1, 2, 3, 4] : Matrix Int) (1 * 2 + k)
            * rd ([5, 6, 7, 8] : Matrix Int) (k * 2 + 0)) 0 :=
  ⟨rfl, rfl, rfl,
    (matmul_naive_contract [1, 2, 3, 4] [5, 6, 7, 8] [9, 9, 9, 9] 2 2 2 rfl rfl rfl).1 1 0
      (by decide) (by decide)⟩

/-- Claim C8.  For buffers of the right lengths, `matmul_loop_reorder` returns a buffer whose
entry `(i, j)` is the prior `C[i,j]` plus the sum over `k` of `A[i,k] * B[k,j]`; with a zeroed
`C` the output is that of `matmul_naive`, and in general it is the reference result plus the
prior contents. -/
theorem matmul_loop_reorder_accumulates [Semiring R] (A B C : Matrix R) (m n p : Nat)
    (_hA : A.length = m * n) (_hB : B.length = n * p) (hC : C.length = m * p) :
    (∀ i j, i < m → j < p →
      rd (matmul_loop_reorder A B C m n p) (i * p + j)
        = rd C (i * p + j) + ∑ k ∈ Finset.range n, rd A (i * n + k) * rd B (k * p + j)) ∧
    (C = zeros (m * p) → matmul_loop_reorder A B C m n p = matmul_naive A B C m n p) ∧
    (∀ i j, i < m → j < p →
      rd (matmul_loop_reorder A B C m n p) (i * p + j)
        = rd (matmul_naive A B C m n p) (i * p + j) + rd C (i * p + j)) := by
  have h1 : ∀ i j, i < m → j < p →
      rd (matmul_loop_reorder A B C m n p) (i * p + j)
        = rd C (i * p + j) + ∑ k ∈ Finset.range n, rd A (i * n + k) * rd B (k * p + j) := by
    intro i j hi hj
    rw [matmul_loop_reorder_entry A B C m n p hC i j hi hj, dotAcc_eq_sum]
  have h2 : ∀ i j, i < m → j < p →
      rd (matmul_naive A B C m n p) (i * p + j)
        = ∑ k ∈ Finset.range n, rd A (i * n + k) * rd B (k * p + j) := by
    intro i j hi hj
    rw [matmul_naive_entry A B C m n p hC i j hi hj, dotAcc_eq_sum, zero_add]
  refine ⟨h1, fun hz => ?_, fun i j hi hj => ?_⟩
  · apply ext_entries (matmul_loop_reorder_length A B C m n p hC)
      (matmul_naive_length A B C m n p hC)
    intro i j hi hj
    rw [h1 i j hi hj, h2 i j hi hj, hz, rd_zeros, zero_add]
  · rw [h1 i j hi hj, h2 i j hi hj, add_comm]

theorem matmul_loop_reorder_accumulates_witness :
    rd (matmul_loop_reorder [1, 2, 3, 4] [5, 6, 7, 8] [9, 9, 9, 9] 2 2 2 : Matrix Int) (1 * 2 + 0)
      = rd ([9, 9, 9, 9] : Matrix Int) (1 * 2 + 0) + ∑ k ∈ Finset.range 2,
          rd ([1, 2, 3, 4] : Matrix Int) (1 * 2 + k) * rd ([5, 6, 7, 8] : Matrix Int) (k * 2 + 0) :=
  (matmul_loop_reorder_accumulates [1, 2, 3, 4] [5, 6, 7, 8] [9, 9, 9, 9] 2 2 2
    rfl rfl rfl).1 1 0 (by decide) (by decide)

/-- Claim C9.  For every `m`, `n`, `p` (multiples of the tile edge 32 or not) and every prior
`C` of length `m*p`, `matmul_tiled` returns the same buffer as `matmul_loop_reorder`: every
entry receives the same updates in the same order, whatever the operations `+` and `*` are. -/
theorem matmul_tiled_eq_loop_reorder [Zero R] [Add R] [Mul R] (A B C : Matrix R) (m n p : Nat)
    (_hA : A.length = m * n) (_hB : B.length = n * p) (hC : C.length = m * p) :
    matmul_tiled A B C m n p = matmul_loop_reorder A B C m n p := by
  apply ext_entries (matmul_tiled_length A B C m n p hC)
    (matmul_loop_reorder_length A B C m n p hC)
  intro i j hi hj
  rw [matmul_tiled_entry A B C m n p hC i j hi hj,
    matmul_loop_reorder_entry A B C m n p hC i j hi hj]

theorem matmul_tiled_eq_loop_reorder_witness :
    matmul_tiled (List.replicate (33 * 1) 2) (List.replicate (1 * 70) 3)
        (List.replicate (33 * 70) 5) 33 1 70
      = (matmul_loop_reorder (List.replicate (33 * 1) 2) (List.replicate (1 * 70) 3)
        (List.replicate (33 * 70) 5) 33 1 70 : Matrix Int) :=
  matmul_tiled_eq_loop_reorder (List.replicate (33 * 1) 2) (List.replicate (1 * 70) 3)
    (List.replicate (33 * 70) 5) 33 1 70 (List.length_replicate _ _)
    (List.length_replicate _ _) (List.length_replicate _ _)

/-! ## Vector registers -/

theorem lane_map_range [Zero R] (f : Nat → R) (l : Nat) (hl : l < 8) :
    M256.lane ((List.range 8).map f : M256 R) l = f l := by
  unfold M256.lane
  rw [List.getD_eq_getElem?_getD, List.getElem?_map, List.getElem?_range hl]
  rfl

theorem lane_loadu [Zero R] (M : Matrix R) (off l : Nat) (hl : l < 8) :
    (_mm256_loadu_ps M off).lane l = rd M (off + l) :=
  lane_map_range _ l hl

theorem lane_fmadd [Zero R] [Add R] [Mul R] (a b c : M256 R) (l : Nat) (hl : l < 8) :
    (_mm256_fmadd_ps a b c).lane l = a.lane l * b.lane l + c.lane l :=
  lane_map_range _ l hl

theorem lane_set1 [Zero R] (a : R) (l : Nat) (hl : l < 8) : (_mm256_set1_ps a).lane l = a := by
  unfold M256.lane _mm256_set1_ps
  rw [List.getD_eq_getElem?_getD, List.getElem?_replicate, if_pos hl]
  rfl

/-- A vector store changes exactly the 8 entries at `off, ..., off+7`. -/
theorem storeu_pw [Zero R] (L off : Nat) (v : M256 R) :
    PW L (fun M : Matrix R => _mm256_storeu_ps M off v)
      (fun q c => if off ≤ q ∧ q < off + 8 then v.lane (q - off) else c) := by
  have h : PW L (fun M : Matrix R => _mm256_storeu_ps M off v)
      (fun q c => (List.range 8).foldl (fun c l => if q = off + l then v.lane l else c) c) := by
    unfold _mm256_storeu_ps
    apply PW.foldl
    intro l _
    exact PW.set L (off + l) (fun _ => v.lane l)
  apply h.congr
  intro q _ c
  show (List.range 8).foldl (fun c l => if q = off + l then v.lane l else c) c = _
  rw [foldl_select (List.range 8) (List.nodup_range 8) (fun l => q = off + l) (off ≤ q)
    (fun l _ => v.lane l) c (q - off) (fun l _ => by show q = off + l ↔ _; omega)]
  have e : (q - off ∈ List.range 8 ∧ off ≤ q) ↔ (off ≤ q ∧ q < off + 8) := by
    rw [List.mem_range]; omega
  simp only [e]

/-! ## Loops with `break` -/

/-- A loop whose body can only `break` at the last index is a plain fold. -/
theorem forBreak_eq_foldl {σ : Type} (l : List Nat) (body : Nat → σ → σ × Bool)
    (h : ∀ x, x ∈ l.dropLast → ∀ s, (body x s).2 = false) (s : σ) :
    forBreak l body s = l.foldl (fun s x => (body x s).1) s := by
  induction l generalizing s with
  | nil => rfl
  | cons x xs ih =>
    cases xs with
    | nil =>
      simp only [forBreak, List.foldl_cons, List.foldl_nil]
      split <;> rfl
    | cons y ys =>
      have hx : (body x s).2 = false := h x (by simp) s
      simp only [forBreak, hx, List.foldl_cons]
      have := ih (fun z hz s' => h z (by simp only [List.dropLast_cons₂]; exact List.mem_cons_of_mem _ hz) s')
        (body x s).1
      simpa [forBreak] using this

theorem steps_dropLast {N S x : Nat} (hS : 0 < S) (hx : x ∈ (steps N S).dropLast) :
    x + S < N := by
  unfold steps at hx
  have key : ∀ t, t < (N + S - 1) / S ↔ S * t < N := by
    intro t
    rw [← Nat.succ_le_iff, Nat.le_div_iff_mul_le hS, Nat.succ_mul, Nat.mul_comm]
    omega
  cases hc : (N + S - 1) / S with
  | zero => rw [hc] at hx; simp at hx
  | succ c =>
    rw [hc, List.range'_concat, List.dropLast_concat, List.mem_range'] at hx
    obtain ⟨t, ht, rfl⟩ := hx
    have h1 : S * c < N := (key c).1 (by omega)
    have h2 : S * (t + 1) ≤ S * c := Nat.mul_le_mul_left S (by omega)
    rw [Nat.mul_add] at h2
    omega

/-! ## Entries of `matmul_simd` -/

/-- The column loop of `matmul_simd` for fixed `(i, k)`, as a pointwise update. -/
theorem simd_row_pw [Zero R] [Add R] [Mul R] (A B : Matrix R) (L n p i k : Nat) :
    PW L (fun C : Matrix R => forBreak (steps p 8) (fun j C =>
        if j + 8 > p then
          ((List.range' j (p - j)).foldl (fun C jj =>
            C.set (i * p + jj) (rd C (i * p + jj) + rd A (i * n + k) * rd B (k * p + jj))) C,
            true)
        else
          (_mm256_storeu_ps C (i * p + j)
            (_mm256_fmadd_ps (_mm256_set1_ps (rd A (i * n + k))) (_mm256_loadu_ps B (k * p + j))
              (_mm256_loadu_ps C (i * p + j))), false)) C)
      (fun q c => (steps p 8).foldl (fun c j =>
        if j + 8 > p then
          (List.range' j (p - j)).foldl (fun c jj =>
            if q = i * p + jj then c + rd A (i * n + k) * rd B (k * p + jj) else c) c
        else if i * p + j ≤ q ∧ q < i * p + j + 8 then
          rd A (i * n + k) * rd B (k * p + j + (q - (i * p + j))) + c
        else c) c) := by
  have e := fun C : Matrix R => forBreak_eq_foldl (steps p 8) (fun j C =>
        if j + 8 > p then
          ((List.range' j (p - j)).foldl (fun C jj =>
            C.set (i * p + jj) (rd C (i * p + jj) + rd A (i * n + k) * rd B (k * p + jj))) C,
            true)
        else
          (_mm256_storeu_ps C (i * p + j)
            (_mm256_fmadd_ps (_mm256_set1_ps (rd A (i * n + k))) (_mm256_loadu_ps B (k * p + j))
              (_mm256_loadu_ps C (i * p + j))), false))
      (fun x hx s => by
        have := steps_dropLast (by decide) hx
        beta_reduce
        rw [if_neg (by omega)]) C
  simp only [e]
  apply PW.foldl
  intro j _
  by_cases h : j + 8 > p
  · simp only [if_pos h]
    apply PW.foldl
    intro jj _
    exact PW.set L (i * p + jj) (fun c => c + rd A (i * n + k) * rd B (k * p + jj))
  · simp only [if_neg h]
    intro C hC
    have hs := storeu_pw L (i * p + j)
      (_mm256_fmadd_ps (_mm256_set1_ps (rd A (i * n + k))) (_mm256_loadu_ps B (k * p + j))
        (_mm256_loadu_ps C (i * p + j))) C hC
    refine ⟨hs.1, fun q hq => ?_⟩
    rw [hs.2 q hq]
    by_cases hh : i * p + j ≤ q ∧ q < i * p + j + 8
    · have hl : q - (i * p + j) < 8 := by omega
      have hq' : i * p + j + (q - (i * p + j)) = q := by omega
      simp only [if_pos hh, lane_fmadd _ _ _ _ hl, lane_set1 _ _ hl, lane_loadu _ _ _ hl, hq']
    · simp only [if_neg hh]

theorem matmul_simd_pw [Zero R] [Add R] [Mul R] (A B : Matrix R) (m n p : Nat) :
    PW (m * p) (fun C => matmul_simd A B C m n p)
      (fun q c => (List.range m).foldl (fun c i => (List.range n).foldl (fun c k =>
        (steps p 8).foldl (fun c j =>
          if j + 8 > p then
            (List.range' j (p - j)).foldl (fun c jj =>
              if q = i * p + jj then c + rd A (i * n + k) * rd B (k * p + jj) else c) c
          else if i * p + j ≤ q ∧ q < i * p + j + 8 then
            rd A (i * n + k) * rd B (k * p + j + (q - (i * p + j))) + c
          else c) c) c) c) := by
  unfold matmul_simd
  apply PW.foldl
  intro i _
  apply PW.foldl
  intro k _
  exact simd_row_pw A B (m * p) n p i k

theorem matmul_simd_length [Zero R] [Add R] [Mul R] (A B C : Matrix R) (m n p : Nat)
    (hC : C.length = m * p) : (matmul_simd A B C m n p).length = m * p :=
  (matmul_simd_pw A B m n p C hC).1

/-- An 8-wide window that fits in row `t` contains the entry `(i, j)` only when `t = i`. -/
theorem window_iff {p i j t b w : Nat} (hj : j < p) (hb : b + w ≤ p) :
    (t * p + b ≤ i * p + j ∧ i * p + j < t * p + b + w) ↔ (t = i ∧ (b ≤ j ∧ j < b + w)) := by
  constructor
  · rintro ⟨h1, h2⟩
    have ht : t = i := by
      have hlt : i * p + j - t * p < p := by omega
      have := (@idx_eq_iff p t (i * p + j - t * p) i j hlt hj).1 (by omega)
      exact this.1
    subst ht
    exact ⟨rfl, by omega⟩
  · rintro ⟨rfl, h⟩
    omega

theorem matmul_simd_entry [Semiring R] (A B C : Matrix R) (m n p : Nat)
    (hC : C.length = m * p) (i j : Nat) (hi : i < m) (hj : j < p) :
    rd (matmul_simd A B C m n p) (i * p + j)
      = dotAcc A B n p i j (List.range n) (rd C (i * p + j)) := by
  rw [(matmul_simd_pw A B m n p C hC).2 _ (idx_lt hi hj)]
  have blk : ∀ (t k b : Nat) (c : R),
      (if b + 8 > p then
        (List.range' b (p - b)).foldl (fun c jj =>
          if i * p + j = t * p + jj then c + rd A (t * n + k) * rd B (k * p + jj) else c) c
      else if t * p + b ≤ i * p + j ∧ i * p + j < t * p + b + 8 then
        rd A (t * n + k) * rd B (k * p + b + (i * p + j - (t * p + b))) + c
      else c)
      = if (b ≤ j ∧ j < b + 8) ∧ t = i then c + rd A (t * n + k) * rd B (k * p + j) else c := by
    intro t k b c
    by_cases h : b + 8 > p
    · rw [if_pos h, fold_col p i j t hj (List.range' b (p - b)) (List.nodup_range' _ _)
        (fun x hx => by have := mem_chunk.1 hx; omega)
        (fun jj c => c + rd A (t * n + k) * rd B (k * p + jj)) c]
      have e : (j ∈ List.range' b (p - b) ∧ t = i) ↔ ((b ≤ j ∧ j < b + 8) ∧ t = i) := by
        rw [mem_chunk]; omega
      simp only [e]
    · rw [if_neg h]
      have e : (t * p + b ≤ i * p + j ∧ i * p + j < t * p + b + 8)
          ↔ ((b ≤ j ∧ j < b + 8) ∧ t = i) := by
        rw [window_iff hj (by omega)]
        exact ⟨fun h => ⟨h.2, h.1⟩, fun h => ⟨h.2, h.1⟩⟩
      simp only [e]
      by_cases hh : (b ≤ j ∧ j < b + 8) ∧ t = i
      · obtain ⟨h1, rfl⟩ := hh
        have e2 : k * p + b + (t * p + j - (t * p + b)) = k * p + j := by omega
        rw [if_pos ⟨h1, rfl⟩, if_pos ⟨h1, rfl⟩, e2, add_comm]
      · simp only [if_neg hh]
  simp only [blk]
  have row : ∀ (t k : Nat) (c : R), (steps p 8).foldl (fun c b =>
      if (b ≤ j ∧ j < b + 8) ∧ t = i then c + rd A (t * n + k) * rd B (k * p + j) else c) c
      = if t = i then c + rd A (t * n + k) * rd B (k * p + j) else c := by
    intro t k c
    rw [foldl_select (steps p 8) (steps_nodup _ _ (by decide))
      (fun b => (b ≤ j ∧ j < b + 8) ∧ t = i) (t = i)
      (fun _ c => c + rd A (t * n + k) * rd B (k * p + j)) c (8 * (j / 8))
      (fun b hb => by
        show _ ∧ _ ↔ _
        rw [block_iff (by decide) hb])]
    simp [block_mem (by decide : 0 < 8) hj]
  simp only [row, foldl_guard]
  rw [foldl_select (List.range m) (List.nodup_range m) (fun t => t = i) True
    (fun t c => (List.range n).foldl (fun c k => c + rd A (t * n + k) * rd B (k * p + j)) c)
    _ i (fun t _ => by simp)]
  simp [hi, dotAcc]

/-- Claim C10.  With each 8-lane fused multiply-add modelled as 8 exact scalar multiply-adds,
for every `m`, `n`, `p` (in particular `p < 8` and `p` not a multiple of 8) and every prior `C`
of length `m*p`, `matmul_simd` returns the same buffer as `matmul_loop_reorder`. -/
theorem matmul_simd_eq_loop_reorder [Semiring R] (A B C : Matrix R) (m n p : Nat)
    (_hA : A.length = m * n) (_hB : B.length = n * p) (hC : C.length = m * p) :
    matmul_simd A B C m n p = matmul_loop_reorder A B C m n p := by
  apply ext_entries (matmul_simd_length A B C m n p hC)
    (matmul_loop_reorder_length A B C m n p hC)
  intro i j hi hj
  rw [matmul_simd_entry A B C m n p hC i j hi hj,
    matmul_loop_reorder_entry A B C m n p hC i j hi hj]

theorem matmul_simd_eq_loop_reorder_witness :
    matmul_simd (List.replicate (2 * 3) 2) (List.replicate (3 * 11) 3)
        (List.replicate (2 * 11) 5) 2 3 11
      = (matmul_loop_reorder (List.replicate (2 * 3) 2) (List.replicate (3 * 11) 3)
        (List.replicate (2 * 11) 5) 2 3 11 : Matrix Int) :=
  matmul_simd_eq_loop_reorder (List.replicate (2 * 3) 2) (List.replicate (3 * 11) 3)
    (List.replicate (2 * 11) 5) 2 3 11 (List.length_replicate _ _)
    (List.length_replicate _ _) (List.length_replicate _ _)

/-! ## Fill loops -/

theorem PW.comp [Zero R] {L : Nat} {U V : Matrix R → Matrix R} {u v : Nat → R → R}
    (hU : PW L U u) (hV : PW L V v) : PW L (fun C => V (U C)) (fun q c => v q (u q c)) := by
  intro C hC
  have h1 := hU C hC
  have h2 := hV (U C) h1.1
  refine ⟨h2.1, fun q hq => ?_⟩
  rw [h2.2 q hq, h1.2 q hq]

/-- A loop `for i < L: C[i] = f i` over a buffer of length `L`. -/
theorem fill_spec [Zero R] (L : Nat) (f : Nat → R) (C : Matrix R) (hC : C.length = L) :
    ((List.range L).foldl (fun C i => C.set i (f i)) C).length = L ∧
    ∀ q, q < L → rd ((List.range L).foldl (fun C i => C.set i (f i)) C) q = f q := by
  have h : PW L (fun C : Matrix R => (List.range L).foldl (fun C i => C.set i (f i)) C)
      (fun q c => (List.range L).foldl (fun c i => if q = i then f i else c) c) := by
    apply PW.foldl
    intro i _
    exact PW.set L i (fun _ => f i)
  refine ⟨(h C hC).1, fun q hq => ?_⟩
  rw [(h C hC).2 q hq]
  show (List.range L).foldl (fun c i => if q = i then f i else c) (rd C q) = f q
  rw [foldl_select (List.range L) (List.nodup_range L) (fun i => q = i) True
    (fun i _ => f i) _ q (fun i _ => by show q = i ↔ _; simp [eq_comm])]
  simp [hq]

/-- A loop nest `for i < h, j < h: C[i*h+j] = f i j` over a buffer of length `h*h`. -/
theorem fill2_spec [Zero R] (h : Nat) (f : Nat → Nat → R) (C : Matrix R)
    (hC : C.length = h * h) :
    ((List.range h).foldl (fun C i =>
      (List.range h).foldl (fun C j => C.set (i * h + j) (f i j)) C) C).length = h * h ∧
    ∀ a b, a < h → b < h →
      rd ((List.range h).foldl (fun C i =>
        (List.range h).foldl (fun C j => C.set (i * h + j) (f i j)) C) C) (a * h + b)
        = f a b := by
  have hpw : PW (h * h) (fun C : Matrix R => (List.range h).foldl (fun C i =>
        (List.range h).foldl (fun C j => C.set (i * h + j) (f i j)) C) C)
      (fun q c => (List.range h).foldl (fun c i => (List.range h).foldl (fun c j =>
        if q = i * h + j then f i j else c) c) c) := by
    apply PW.foldl
    intro i _
    apply PW.foldl
    intro j _
    exact PW.set (h * h) (i * h + j) (fun _ => f i j)
  refine ⟨(hpw C hC).1, fun a b ha hb => ?_⟩
  rw [(hpw C hC).2 _ (idx_lt ha hb)]
  have inner : ∀ (t : Nat) (c : R), (List.range h).foldl (fun c j =>
      if a * h + b = t * h + j then f t j else c) c = if t = a then f t b else c := by
    intro t c
    rw [fold_col h a b t hb (List.range h) (List.nodup_range h)
      (fun x hx => List.mem_range.1 hx) (fun j _ => f t j)]
    simp [hb]
  simp only [inner]
  rw [foldl_select (List.range h) (List.nodup_range h) (fun t => t = a) True
    (fun t _ => f t b) _ a (fun t _ => by simp)]
  simp [ha]

theorem add_matrix_spec [Zero R] [Add R] (A B C : Matrix R) (h : Nat) (hC : C.length = h * h) :
    (add_matrix A B C h).length = h * h ∧
    ∀ q, q < h * h → rd (add_matrix A B C h) q = rd A q + rd B q :=
  fill_spec (h * h) (fun i => rd A i + rd B i) C hC

theorem sub_matrix_spec [Zero R] [Sub R] (A B C : Matrix R) (h : Nat) (hC : C.length = h * h) :
    (sub_matrix A B C h).length = h * h ∧
    ∀ q, q < h * h → rd (sub_matrix A B C h) q = rd A q - rd B q :=
  fill_spec (h * h) (fun i => rd A i - rd B i) C hC

/-! ## The quadrants of `strassen_recursive` -/

theorem foldl_proj {σ τ ρ : Type} (proj : σ → ρ) (step : σ → τ → σ) (step' : ρ → τ → ρ)
    (h : ∀ s t, proj (step s t) = step' (proj s) t) (l : List τ) (s : σ) :
    proj (l.foldl step s) = l.foldl step' (proj s) := by
  induction l generalizing s with
  | nil => rfl
  | cons t ts ih => simp only [List.foldl_cons]; rw [ih, h]

theorem partition_spec [Zero R] (A B : Matrix R) (size h : Nat) :
    QuadOK A B size h (partition A B size h
      ⟨zeros (h * h), zeros (h * h), zeros (h * h), zeros (h * h),
       zeros (h * h), zeros (h * h), zeros (h * h), zeros (h * h)⟩) := by
  generalize hQ0 : (⟨zeros (h * h), zeros (h * h), zeros (h * h), zeros (h * h),
       zeros (h * h), zeros (h * h), zeros (h * h), zeros (h * h)⟩ : Quadrants R) = Q0
  have key : ∀ (proj : Quadrants R → Matrix R) (f : Nat → Nat → R),
      (∀ (Q : Quadrants R) (i j : Nat), proj
        { A11 := Q.A11.set (i * h + j) (rd A (i * size + j))
          A12 := Q.A12.set (i * h + j) (rd A (i * size + (j + h)))
          A21 := Q.A21.set (i * h + j) (rd A ((i + h) * size + j))
          A22 := Q.A22.set (i * h + j) (rd A ((i + h) * size + (j + h)))
          B11 := Q.B11.set (i * h + j) (rd B (i * size + j))
          B12 := Q.B12.set (i * h + j) (rd B (i * size + (j + h)))
          B21 := Q.B21.set (i * h + j) (rd B ((i + h) * size + j))
          B22 := Q.B22.set (i * h + j) (rd B ((i + h) * size + (j + h))) }
        = (proj Q).set (i * h + j) (f i j)) →
      ∀ Q0 : Quadrants R, (proj Q0).length = h * h →
        (proj (partition A B size h Q0)).length = h * h ∧
        ∀ a b, a < h → b < h → rd (proj (partition A B size h Q0)) (a * h + b) = f a b := by
    intro proj f hp Q0 hQ0
    have e : proj (partition A B size h Q0) = (List.range h).foldl (fun C i =>
        (List.range h).foldl (fun C j => C.set (i * h + j) (f i j)) C) (proj Q0) := by
      unfold partition
      apply foldl_proj proj
      intro s i
      apply foldl_proj proj
      intro s j
      exact hp s i j
    rw [e]
    exact fill2_spec h f (proj Q0) hQ0
  have k1 := key (fun Q => Q.A11) (fun i j => rd A (i * size + j)) (fun _ _ _ => rfl) Q0
    (by rw [← hQ0]; exact length_zeros (h * h))
  have k2 := key (fun Q => Q.A12) (fun i j => rd A (i * size + (j + h))) (fun _ _ _ => rfl) Q0
    (by rw [← hQ0]; exact length_zeros (h * h))
  have k3 := key (fun Q => Q.A21) (fun i j => rd A ((i + h) * size + j)) (fun _ _ _ => rfl) Q0
    (by rw [← hQ0]; exact length_zeros (h * h))
  have k4 := key (fun Q => Q.A22) (fun i j => rd A ((i + h) * size + (j + h)))
    (fun _ _ _ => rfl) Q0
    (by rw [← hQ0]; exact length_zeros (h * h))
  have k5 := key (fun Q => Q.B11) (fun i j => rd B (i * size + j)) (fun _ _ _ => rfl) Q0
    (by rw [← hQ0]; exact length_zeros (h * h))
  have k6 := key (fun Q => Q.B12) (fun i j => rd B (i * size + (j + h))) (fun _ _ _ => rfl) Q0
    (by rw [← hQ0]; exact length_zeros (h * h))
  have k7 := key (fun Q => Q.B21) (fun i j => rd B ((i + h) * size + j)) (fun _ _ _ => rfl) Q0
    (by rw [← hQ0]; exact length_zeros (h * h))
  have k8 := key (fun Q => Q.B22) (fun i j => rd B ((i + h) * size + (j + h)))
    (fun _ _ _ => rfl) Q0
    (by rw [← hQ0]; exact length_zeros (h * h))
  exact ⟨⟨k1.1, k2.1, k3.1, k4.1, k5.1, k6.1, k7.1, k8.1⟩, fun a b ha hb =>
    ⟨k1.2 a b ha hb, k2.2 a b ha hb, k3.2 a b ha hb, k4.2 a b ha hb,
     k5.2 a b ha hb, k6.2 a b ha hb, k7.2 a b ha hb, k8.2 a b ha hb⟩⟩

/-! ## The combine loop of `strassen_recursive` -/

/-- A two-level fold whose body acts only at the index pair `(a, b)`. -/
theorem fold2_select (l1 l2 : List Nat) (h1 : l1.Nodup) (h2 : l2.Nodup) (a b : Nat)
    (ha : a ∈ l1) (hb : b ∈ l2) (F g : Nat → Nat → R → R)
    (hF : ∀ i, i ∈ l1 → ∀ j, j ∈ l2 → ∀ c, F i j c = if j = b ∧ i = a then g i j c else c)
    (c : R) :
    l1.foldl (fun c i => l2.foldl (fun c j => F i j c) c) c = g a b c := by
  have inner : ∀ i, i ∈ l1 → ∀ c, l2.foldl (fun c j => F i j c) c
      = if i = a then g i b c else c := by
    intro i hi c
    rw [List.foldl_ext (fun c j => F i j c) (fun c j => if j = b ∧ i = a then g i j c else c) c
      (fun c j hj => hF i hi j hj c)]
    rw [foldl_select l2 h2 (fun j => j = b ∧ i = a) (i = a) (fun j c => g i j c) c b
      (fun j _ => Iff.rfl)]
    simp [hb]
  rw [List.foldl_ext _ (fun c i => if i = a then g i b c else c) c
    (fun c i hi => inner i hi c)]
  rw [foldl_select l1 h1 (fun i => i = a) True (fun i c => g i b c) c a (fun i _ => by simp)]
  simp [ha]

/-- A two-level fold whose body never acts. -/
theorem fold2_none (l1 l2 : List Nat) (F : Nat → Nat → R → R)
    (hF : ∀ i, i ∈ l1 → ∀ j, j ∈ l2 → ∀ c, F i j c = c) (c : R) :
    l1.foldl (fun c i => l2.foldl (fun c j => F i j c) c) c = c := by
  have inner : ∀ i, i ∈ l1 → ∀ c, l2.foldl (fun c j => F i j c) c = c := by
    intro i hi c
    rw [List.foldl_ext (fun c j => F i j c) (fun c _ => c) c (fun c j hj => hF i hi j hj c)]
    exact foldl_skip l2 c
  rw [List.foldl_ext _ (fun c _ => c) c (fun c i hi => inner i hi c)]
  exact foldl_skip l1 c

theorem combine_pw [Zero R] [Add R] (C11 C12 C21 C22 : Matrix R) (size h : Nat) :
    PW (size * size) (fun C => combine C11 C12 C21 C22 C size h)
      (fun q c => (List.range h).foldl (fun c i => (List.range h).foldl (fun c j =>
        (fun c => if q = (i + h) * size + (j + h) then c + rd C22 (i * h + j) else c)
        ((fun c => if q = (i + h) * size + j then c + rd C21 (i * h + j) else c)
        ((fun c => if q = i * size + (j + h) then c + rd C12 (i * h + j) else c)
        ((fun c => if q = i * size + j then c + rd C11 (i * h + j) else c) c)))) c) c) := by
  unfold combine
  apply PW.foldl
  intro i _
  apply PW.foldl
  intro j _
  exact ((((PW.set (size * size) (i * size + j) (fun c => c + rd C11 (i * h + j))).comp
    (PW.set (size * size) (i * size + (j + h)) (fun c => c + rd C12 (i * h + j)))).comp
    (PW.set (size * size) ((i + h) * size + j) (fun c => c + rd C21 (i * h + j)))).comp
    (PW.set (size * size) ((i + h) * size + (j + h)) (fun c => c + rd C22 (i * h + j))))

theorem combine_length [Zero R] [Add R] (C11 C12 C21 C22 C : Matrix R) (size h : Nat)
    (hC : C.length = size * size) : (combine C11 C12 C21 C22 C size h).length = size * size :=
  (combine_pw C11 C12 C21 C22 size h C hC).1

/-- The combine loop adds each output quadrant into its quadrant of `C`. -/
theorem combine_entry [Zero R] [Add R] (C11 C12 C21 C22 C : Matrix R) (size h : Nat)
    (hC : C.length = size * size) (hh : h + h ≤ size) (a b : Nat) (ha : a < h) (hb : b < h) :
    rd (combine C11 C12 C21 C22 C size h) (a * size + b)
      = rd C (a * size + b) + rd C11 (a * h + b) ∧
    rd (combine C11 C12 C21 C22 C size h) (a * size + (b + h))
      = rd C (a * size + (b + h)) + rd C12 (a * h + b) ∧
    rd (combine C11 C12 C21 C22 C size h) ((a + h) * size + b)
      = rd C ((a + h) * size + b) + rd C21 (a * h + b) ∧
    rd (combine C11 C12 C21 C22 C size h) ((a + h) * size + (b + h))
      = rd C ((a + h) * size + (b + h)) + rd C22 (a * h + b) := by
  have hpw := combine_pw C11 C12 C21 C22 size h C hC
  have ma : a ∈ List.range h := List.mem_range.2 ha
  have mb : b ∈ List.range h := List.mem_range.2 hb
  refine ⟨?_, ?_, ?_, ?_⟩
  · rw [hpw.2 _ (idx_lt (by omega) (by omega))]
    exact fold2_select _ _ (List.nodup_range h) (List.nodup_range h) a b ma mb _
      (fun i j c => c + rd C11 (i * h + j)) (fun i hi j hj c => by
        have hi' := List.mem_range.1 hi
        have hj' := List.mem_range.1 hj
        have c1 : a * size + b = i * size + j ↔ (j = b ∧ i = a) := by
          rw [idx_eq_iff (by omega) (by omega)]; omega
        have c2 : ¬ a * size + b = i * size + (j + h) := by
          rw [idx_eq_iff (by omega) (by omega)]; omega
        have c3 : ¬ a * size + b = (i + h) * size + j := by
          rw [idx_eq_iff (by omega) (by omega)]; omega
        have c4 : ¬ a * size + b = (i + h) * size + (j + h) := by
          rw [idx_eq_iff (by omega) (by omega)]; omega
        simp only [c1, c2, c3, c4, if_false]) _
  · rw [hpw.2 _ (idx_lt (by omega) (by omega))]
    exact fold2_select _ _ (List.nodup_range h) (List.nodup_range h) a b ma mb _
      (fun i j c => c + rd C12 (i * h + j)) (fun i hi j hj c => by
        have hi' := List.mem_range.1 hi
        have hj' := List.mem_range.1 hj
        have c1 : ¬ a * size + (b + h) = i * size + j := by
          rw [idx_eq_iff (by omega) (by omega)]; omega
        have c2 : a * size + (b + h) = i * size + (j + h) ↔ (j = b ∧ i = a) := by
          rw [idx_eq_iff (by omega) (by omega)]; omega
        have c3 : ¬ a * size + (b + h) = (i + h) * size + j := by
          rw [idx_eq_iff (by omega) (by omega)]; omega
        have c4 : ¬ a * size + (b + h) = (i + h) * size + (j + h) := by
          rw [idx_eq_iff (by omega) (by omega)]; omega
        simp only [c1, c2, c3, c4, if_false]) _
  · rw [hpw.2 _ (idx_lt (by omega) (by omega))]
    exact fold2_select _ _ (List.nodup_range h) (List.nodup_range h) a b ma mb _
      (fun i j c => c + rd C21 (i * h + j)) (fun i hi j hj c => by
        have hi' := List.mem_range.1 hi
        have hj' := List.mem_range.1 hj
        have c1 : ¬ (a + h) * size + b = i * size + j := by
          rw [idx_eq_iff (by omega) (by omega)]; omega
        have c2 : ¬ (a + h) * size + b = i * size + (j + h) := by
          rw [idx_eq_iff (by omega) (by omega)]; omega
        have c3 : (a + h) * size + b = (i + h) * size + j ↔ (j = b ∧ i = a) := by
          rw [idx_eq_iff (by omega) (by omega)]; omega
        have c4 : ¬ (a + h) * size + b = (i + h) * size + (j + h) := by
          rw [idx_eq_iff (by omega) (by omega)]; omega
        simp only [c1, c2, c3, c4, if_false]) _
  · rw [hpw.2 _ (idx_lt (by omega) (by omega))]
    exact fold2_select _ _ (List.nodup_range h) (List.nodup_range h) a b ma mb _
      (fun i j c => c + rd C22 (i * h + j)) (fun i hi j hj c => by
        have hi' := List.mem_range.1 hi
        have hj' := List.mem_range.1 hj
        have c1 : ¬ (a + h) * size + (b + h) = i * size + j := by
          rw [idx_eq_iff (by omega) (by omega)]; omega
        have c2 : ¬ (a + h) * size + (b + h) = i * size + (j + h) := by
          rw [idx_eq_iff (by omega) (by omega)]; omega
        have c3 : ¬ (a + h) * size + (b + h) = (i + h) * size + j := by
          rw [idx_eq_iff (by omega) (by omega)]; omega
        have c4 : (a + h) * size + (b + h) = (i + h) * size + (j + h) ↔ (j = b ∧ i = a) := by
          rw [idx_eq_iff (by omega) (by omega)]; omega
        simp only [c1, c2, c3, c4, if_false]) _

/-- The combine loop leaves alone every entry of a row or column at or beyond `2 * h`. -/
theorem combine_frame [Zero R] [Add R] (C11 C12 C21 C22 C : Matrix R) (size h : Nat)
    (hC : C.length = size * size) (hh : h + h ≤ size) (r c : Nat) (hr : r < size)
    (hc : c < size) (hout : h + h ≤ r ∨ h + h ≤ c) :
    rd (combine C11 C12 C21 C22 C size h) (r * size + c) = rd C (r * size + c) := by
  rw [(combine_pw C11 C12 C21 C22 size h C hC).2 _ (idx_lt hr hc)]
  exact fold2_none _ _ _ (fun i hi j hj x => by
    have hi' := List.mem_range.1 hi
    have hj' := List.mem_range.1 hj
    have c1 : ¬ r * size + c = i * size + j := by
      rw [idx_eq_iff (by omega) (by omega)]; omega
    have c2 : ¬ r * size + c = i * size + (j + h) := by
      rw [idx_eq_iff (by omega) (by omega)]; omega
    have c3 : ¬ r * size + c = (i + h) * size + j := by
      rw [idx_eq_iff (by omega) (by omega)]; omega
    have c4 : ¬ r * size + c = (i + h) * size + (j + h) := by
      rw [idx_eq_iff (by omega) (by omega)]; omega
    simp only [c1, c2, c3, c4, if_false]) _

/-! ## Correctness of `strassen_recursive` -/

theorem strassen_base_eq [Zero R] [Add R] [Sub R] [Mul R] (A B C : Matrix R) (size : Nat)
    (h : size ≤ 64) :
    strassen_recursive A B C size = matmul_loop_reorder A B C size size size := by
  rw [strassen_recursive, if_pos h]
  rfl

theorem strassen_base [Ring R] (size : Nat) (h : size ≤ 64) : StrassenOK R size := by
  intro A B C hC
  rw [strassen_base_eq A B C size h]
  refine ⟨matmul_loop_reorder_length A B C size size size hC, fun i j hi hj => ?_⟩
  rw [matmul_loop_reorder_entry A B C size size size hC i j hi hj, dotAcc_eq_sum]

theorem sum_split [AddCommMonoid R] (f : Nat → R) (h : Nat) :
    ∑ k ∈ Finset.range (h + h), f k
      = ∑ k ∈ Finset.range h, f k + ∑ k ∈ Finset.range h, f (k + h) := by
  rw [Finset.sum_range_add]
  congr 1
  apply Finset.sum_congr rfl
  intro k _
  rw [Nat.add_comm]

/-- A recursive product into a zeroed buffer, read through the entries of its operands. -/
theorem strassen_product [Ring R] (h : Nat) (IH : StrassenOK R h) (X Y : Matrix R)
    (x y : Nat → Nat → R)
    (hX : ∀ a k, a < h → k < h → rd X (a * h + k) = x a k)
    (hY : ∀ k b, k < h → b < h → rd Y (k * h + b) = y k b) :
    (strassen_recursive X Y (zeros (h * h)) h).length = h * h ∧
    ∀ a b, a < h → b < h →
      rd (strassen_recursive X Y (zeros (h * h)) h) (a * h + b)
        = ∑ k ∈ Finset.range h, x a k * y k b := by
  have := IH X Y (zeros (h * h)) (length_zeros _)
  refine ⟨this.1, fun a b ha hb => ?_⟩
  rw [this.2 a b ha hb, rd_zeros, zero_add]
  apply Finset.sum_congr rfl
  intro k hk
  rw [hX a k ha (Finset.mem_range.1 hk), hY k b (Finset.mem_range.1 hk) hb]

/-- The four Strassen combinations, entry by entry. -/
theorem strassen_algebra [Ring R] (h : Nat) (a11 a12 a21 a22 b11 b12 b21 b22 : Nat → R) :
    (∑ k ∈ Finset.range h, (a11 k + a22 k) * (b11 k + b22 k)
      + ∑ k ∈ Finset.range h, a22 k * (b21 k - b11 k)
      - ∑ k ∈ Finset.range h, (a11 k + a12 k) * b22 k
      + ∑ k ∈ Finset.range h, (a12 k - a22 k) * (b21 k + b22 k)
      = ∑ k ∈ Finset.range h, a11 k * b11 k + ∑ k ∈ Finset.range h, a12 k * b21 k) ∧
    (∑ k ∈ Finset.range h, a11 k * (b12 k - b22 k)
      + ∑ k ∈ Finset.range h, (a11 k + a12 k) * b22 k
      = ∑ k ∈ Finset.range h, a11 k * b12 k + ∑ k ∈ Finset.range h, a12 k * b22 k) ∧
    (∑ k ∈ Finset.range h, (a21 k + a22 k) * b11 k
      + ∑ k ∈ Finset.range h, a22 k * (b21 k - b11 k)
      = ∑ k ∈ Finset.range h, a21 k * b11 k + ∑ k ∈ Finset.range h, a22 k * b21 k) ∧
    (∑ k ∈ Finset.range h, (a11 k + a22 k) * (b11 k + b22 k)
      - ∑ k ∈ Finset.range h, (a21 k + a22 k) * b11 k
      + ∑ k ∈ Finset.range h, a11 k * (b12 k - b22 k)
      + ∑ k ∈ Finset.range h, (a21 k - a11 k) * (b11 k + b12 k)
      = ∑ k ∈ Finset.range h, a21 k * b12 k + ∑ k ∈ Finset.range h, a22 k * b22 k) := by
  refine ⟨?_, ?_, ?_, ?_⟩ <;>
  · simp only [add_mul, mul_add, sub_mul, mul_sub, Finset.sum_add_distrib,
      Finset.sum_sub_distrib]
    abel

/-- One level of the recursion: if the half-size products are right, so is the result. -/
theorem strassen_step [Ring R] (size h : Nat) (h64 : ¬ size ≤ 64) (hh : size / 2 = h)
    (heven : size = h + h) (IH : StrassenOK R h) : StrassenOK R size := by
  intro A B C hC
  rw [strassen_recursive, if_neg h64]
  lift_lets
  extract_lets ns sl Q Z T1a T2a M1 T1b M2 T2c M3 T2d M4 T1e M5 T1f T2f M6 T1g T2g M7
    C11 C12 C21 C22
  have hns : ns = h := hh
  have hsl : sl = h * h := by show ns * ns = h * h; rw [hns]
  clear_value sl
  clear_value ns
  subst hns
  subst hsl
  have hZ : Z.length = ns * ns := length_zeros _
  obtain ⟨⟨-, -, -, -, -, -, -, -⟩, hQ⟩ : QuadOK A B size ns Q := partition_spec A B size ns
  have hT1a : T1a.length = ns * ns ∧ ∀ q, q < ns * ns → rd T1a q = rd Q.A11 q + rd Q.A22 q :=
    add_matrix_spec Q.A11 Q.A22 Z ns hZ
  have hT2a : T2a.length = ns * ns ∧ ∀ q, q < ns * ns → rd T2a q = rd Q.B11 q + rd Q.B22 q :=
    add_matrix_spec Q.B11 Q.B22 Z ns hZ
  have hT1b : T1b.length = ns * ns ∧ ∀ q, q < ns * ns → rd T1b q = rd Q.A21 q + rd Q.A22 q :=
    add_matrix_spec Q.A21 Q.A22 T1a ns hT1a.1
  have hT2c : T2c.length = ns * ns ∧ ∀ q, q < ns * ns → rd T2c q = rd Q.B12 q - rd Q.B22 q :=
    sub_matrix_spec Q.B12 Q.B22 T2a ns hT2a.1
  have hT2d : T2d.length = ns * ns ∧ ∀ q, q < ns * ns → rd T2d q = rd Q.B21 q - rd Q.B11 q :=
    sub_matrix_spec Q.B21 Q.B11 T2c ns hT2c.1
  have hT1e : T1e.length = ns * ns ∧ ∀ q, q < ns * ns → rd T1e q = rd Q.A11 q + rd Q.A12 q :=
    add_matrix_spec Q.A11 Q.A12 T1b ns hT1b.1
  have hT1f : T1f.length = ns * ns ∧ ∀ q, q < ns * ns → rd T1f q = rd Q.A21 q - rd Q.A11 q :=
    sub_matrix_spec Q.A21 Q.A11 T1e ns hT1e.1
  have hT2f : T2f.length = ns * ns ∧ ∀ q, q < ns * ns → rd T2f q = rd Q.B11 q + rd Q.B12 q :=
    add_matrix_spec Q.B11 Q.B12 T2d ns hT2d.1
  have hT1g : T1g.length = ns * ns ∧ ∀ q, q < ns * ns → rd T1g q = rd Q.A12 q - rd Q.A22 q :=
    sub_matrix_spec Q.A12 Q.A22 T1f ns hT1f.1
  have hT2g : T2g.length = ns * ns ∧ ∀ q, q < ns * ns → rd T2g q = rd Q.B21 q + rd Q.B22 q :=
    add_matrix_spec Q.B21 Q.B22 T2f ns hT2f.1
  have hM1 : ∀ a b, a < ns → b < ns → rd M1 (a * ns + b) = ∑ k ∈ Finset.range ns,
      (rd A (a * size + k) + rd A ((a + ns) * size + (k + ns)))
        * (rd B (k * size + b) + rd B ((k + ns) * size + (b + ns))) :=
    (strassen_product ns IH T1a T2a _ _
      (fun a k ha hk => by
        rw [hT1a.2 _ (idx_lt ha hk), (hQ a k ha hk).1, (hQ a k ha hk).2.2.2.1])
      (fun k b hk hb => by
        rw [hT2a.2 _ (idx_lt hk hb), (hQ k b hk hb).2.2.2.2.1,
          (hQ k b hk hb).2.2.2.2.2.2.2])).2
  have hM2 : ∀ a b, a < ns → b < ns → rd M2 (a * ns + b) = ∑ k ∈ Finset.range ns,
      (rd A ((a + ns) * size + k) + rd A ((a + ns) * size + (k + ns))) * rd B (k * size + b) :=
    (strassen_product ns IH T1b Q.B11 _ _
      (fun a k ha hk => by
        rw [hT1b.2 _ (idx_lt ha hk), (hQ a k ha hk).2.2.1, (hQ a k ha hk).2.2.2.1])
      (fun k b hk hb => (hQ k b hk hb).2.2.2.2.1)).2
  have hM3 : ∀ a b, a < ns → b < ns → rd M3 (a * ns + b) = ∑ k ∈ Finset.range ns,
      rd A (a * size + k) * (rd B (k * size + (b + ns)) - rd B ((k + ns) * size + (b + ns))) :=
    (strassen_product ns IH Q.A11 T2c _ _
      (fun a k ha hk => (hQ a k ha hk).1)
      (fun k b hk hb => by
        rw [hT2c.2 _ (idx_lt hk hb), (hQ k b hk hb).2.2.2.2.2.1,
          (hQ k b hk hb).2.2.2.2.2.2.2])).2
  have hM4 : ∀ a b, a < ns → b < ns → rd M4 (a * ns + b) = ∑ k ∈ Finset.range ns,
      rd A ((a + ns) * size + (k + ns)) * (rd B ((k + ns) * size + b) - rd B (k * size + b)) :=
    (strassen_product ns IH Q.A22 T2d _ _
      (fun a k ha hk => (hQ a k ha hk).2.2.2.1)
      (fun k b hk hb => by
        rw [hT2d.2 _ (idx_lt hk hb), (hQ k b hk hb).2.2.2.2.2.2.1,
          (hQ k b hk hb).2.2.2.2.1])).2
  have hM5 : ∀ a b, a < ns → b < ns → rd M5 (a * ns + b) = ∑ k ∈ Finset.range ns,
      (rd A (a * size + k) + rd A (a * size + (k + ns))) * rd B ((k + ns) * size + (b + ns)) :=
    (strassen_product ns IH T1e Q.B22 _ _
      (fun a k ha hk => by
        rw [hT1e.2 _ (idx_lt ha hk), (hQ a k ha hk).1, (hQ a k ha hk).2.1])
      (fun k b hk hb => (hQ k b hk hb).2.2.2.2.2.2.2)).2
  have hM6 : ∀ a b, a < ns → b < ns → rd M6 (a * ns + b) = ∑ k ∈ Finset.range ns,
      (rd A ((a + ns) * size + k) - rd A (a * size + k))
        * (rd B (k * size + b) + rd B (k * size + (b + ns))) :=
    (strassen_product ns IH T1f T2f _ _
      (fun a k ha hk => by
        rw [hT1f.2 _ (idx_lt ha hk), (hQ a k ha hk).2.2.1, (hQ a k ha hk).1])
      (fun k b hk hb => by
        rw [hT2f.2 _ (idx_lt hk hb), (hQ k b hk hb).2.2.2.2.1,
          (hQ k b hk hb).2.2.2.2.2.1])).2
  have hM7 : ∀ a b, a < ns → b < ns → rd M7 (a * ns + b) = ∑ k ∈ Finset.range ns,
      (rd A (a * size + (k + ns)) - rd A ((a + ns) * size + (k + ns)))
        * (rd B ((k + ns) * size + b) + rd B ((k + ns) * size + (b + ns))) :=
    (strassen_product ns IH T1g T2g _ _
      (fun a k ha hk => by
        rw [hT1g.2 _ (idx_lt ha hk), (hQ a k ha hk).2.1, (hQ a k ha hk).2.2.2.1])
      (fun k b hk hb => by
        rw [hT2g.2 _ (idx_lt hk hb), (hQ k b hk hb).2.2.2.2.2.2.1,
          (hQ k b hk hb).2.2.2.2.2.2.2])).2
  have hC11 : ∀ q, q < ns * ns → rd C11 q = rd M1 q + rd M4 q - rd M5 q + rd M7 q :=
    (fill_spec (ns * ns) (fun i => rd M1 i + rd M4 i - rd M5 i + rd M7 i) Z hZ).2
  have hC12 : ∀ q, q < ns * ns → rd C12 q = rd M3 q + rd M5 q :=
    (fill_spec (ns * ns) (fun i => rd M3 i + rd M5 i) Z hZ).2
  have hC21 : ∀ q, q < ns * ns → rd C21 q = rd M2 q + rd M4 q :=
    (fill_spec (ns * ns) (fun i => rd M2 i + rd M4 i) Z hZ).2
  have hC22 : ∀ q, q < ns * ns → rd C22 q = rd M1 q - rd M2 q + rd M3 q + rd M6 q :=
    (fill_spec (ns * ns) (fun i => rd M1 i - rd M2 i + rd M3 i + rd M6 i) Z hZ).2
  clear_value C11 C12 C21 C22 M1 M2 M3 M4 M5 M6 M7
  have erange : Finset.range size = Finset.range (ns + ns) := by rw [← heven]
  refine ⟨combine_length C11 C12 C21 C22 C size ns hC, fun i j hi hj => ?_⟩
  have quad : ∀ a b, a < ns → b < ns → _ :=
    fun a b ha hb => combine_entry C11 C12 C21 C22 C size ns hC (by omega) a b ha hb
  have alg : ∀ a b : Nat, _ := fun a b => strassen_algebra ns
    (fun k => rd A (a * size + k)) (fun k => rd A (a * size + (k + ns)))
    (fun k => rd A ((a + ns) * size + k)) (fun k => rd A ((a + ns) * size + (k + ns)))
    (fun k => rd B (k * size + b)) (fun k => rd B (k * size + (b + ns)))
    (fun k => rd B ((k + ns) * size + b)) (fun k => rd B ((k + ns) * size + (b + ns)))
  by_cases hi' : i < ns
  · by_cases hj' : j < ns
    · rw [(quad i j hi' hj').1, hC11 _ (idx_lt hi' hj'), hM1 i j hi' hj', hM4 i j hi' hj',
        hM5 i j hi' hj', hM7 i j hi' hj', erange, sum_split]
      congr 1
      exact (alg i j).1
    · obtain ⟨b, rfl⟩ : ∃ b, j = b + ns := ⟨j - ns, by omega⟩
      have hb : b < ns := by omega
      rw [(quad i b hi' hb).2.1, hC12 _ (idx_lt hi' hb), hM3 i b hi' hb, hM5 i b hi' hb,
        erange, sum_split]
      congr 1
      exact (alg i b).2.1
  · obtain ⟨a, rfl⟩ : ∃ a, i = a + ns := ⟨i - ns, by omega⟩
    have ha : a < ns := by omega
    by_cases hj' : j < ns
    · rw [(quad a j ha hj').2.2.1, hC21 _ (idx_lt ha hj'), hM2 a j ha hj', hM4 a j ha hj',
        erange, sum_split]
      congr 1
      exact (alg a j).2.2.1
    · obtain ⟨b, rfl⟩ : ∃ b, j = b + ns := ⟨j - ns, by omega⟩
      have hb : b < ns := by omega
      rw [(quad a b ha hb).2.2.2, hC22 _ (idx_lt ha hb), hM1 a b ha hb, hM2 a b ha hb,
        hM3 a b ha hb, hM6 a b ha hb, erange, sum_split]
      congr 1
      exact (alg a b).2.2.2

theorem strassen_halving [Ring R] (b k : Nat) (hb : b ≤ 64) : StrassenOK R (b * 2 ^ k) := by
  induction k with
  | zero => exact strassen_base _ (by simpa using hb)
  | succ k ih =>
    by_cases h64 : b * 2 ^ (k + 1) ≤ 64
    · exact strassen_base _ h64
    · have e : b * 2 ^ (k + 1) = b * 2 ^ k * 2 := by rw [pow_succ, Nat.mul_assoc]
      rw [e] at h64 ⊢
      exact strassen_step _ (b * 2 ^ k) h64 (by omega) (by omega) ih

theorem matmul_strassen_square [Zero R] [Add R] [Sub R] [Mul R] (A B C : Matrix R) (s : Nat) :
    matmul_strassen A B C s s s = strassen_recursive A B C s := by
  unfold matmul_strassen
  rw [if_neg (by simp)]

theorem matmul_strassen_fallback [Zero R] [Add R] [Sub R] [Mul R] (A B C : Matrix R)
    (m n p : Nat) (h : m ≠ n ∨ n ≠ p) :
    matmul_strassen A B C m n p = matmul_loop_reorder A B C m n p := by
  unfold matmul_strassen
  rw [if_pos h]
  rfl

/-- On a zeroed output buffer the accumulating loop gives the reference result. -/
theorem loop_reorder_zeros [Semiring R] (A B : Matrix R) (m n p : Nat) :
    matmul_loop_reorder A B (zeros (m * p)) m n p = matmul_naive A B (zeros (m * p)) m n p := by
  apply ext_entries (matmul_loop_reorder_length A B _ m n p (length_zeros _))
    (matmul_naive_length A B _ m n p (length_zeros _))
  intro i j hi hj
  rw [matmul_loop_reorder_entry A B _ m n p (length_zeros _) i j hi hj,
    matmul_naive_entry A B _ m n p (length_zeros _) i j hi hj, rd_zeros]

/-- With a zeroed output buffer, a correct `strassen_recursive` gives the reference result. -/
theorem strassen_zeros [Ring R] (s : Nat) (h : StrassenOK R s) (A B : Matrix R) :
    matmul_strassen A B (zeros (s * s)) s s s = matmul_naive A B (zeros (s * s)) s s s := by
  rw [matmul_strassen_square]
  have := h A B (zeros (s * s)) (length_zeros _)
  apply ext_entries this.1 (matmul_naive_length A B _ s s s (length_zeros _))
  intro i j hi hj
  rw [this.2 i j hi hj, matmul_naive_entry A B _ s s s (length_zeros _) i j hi hj,
    dotAcc_eq_sum, rd_zeros]

/-- Claim C2.  Over a ring, for every side length `s = b * 2^k` with `1 ≤ b ≤ 64` (so that `s`
halves evenly down to the base case; every power of two is of this form), every `s`-by-`s`
`A`, `B` and every prior `C`, `matmul_strassen A B C s s s` keeps the length of `C` and its
entry `(i, j)` is the prior `C[i,j]` plus the `(i, j)` entry of the product; when `C` is zeroed
the output is the output of `matmul_naive`. -/
theorem matmul_strassen_well_formed [Ring R] (s b k : Nat) (hs : s = b * 2 ^ k) (_hb1 : 1 ≤ b)
    (hb : b ≤ 64) (A B C : Matrix R) (_hA : A.length = s * s) (_hB : B.length = s * s)
    (hC : C.length = s * s) :
    (matmul_strassen A B C s s s).length = s * s ∧
    (∀ i j, i < s → j < s →
      rd (matmul_strassen A B C s s s) (i * s + j)
        = rd C (i * s + j) + ∑ k ∈ Finset.range s, rd A (i * s + k) * rd B (k * s + j)) ∧
    (C = zeros (s * s) → matmul_strassen A B C s s s = matmul_naive A B C s s s) := by
  have hok : StrassenOK R s := hs ▸ strassen_halving b k hb
  refine ⟨?_, ?_, ?_⟩
  · rw [matmul_strassen_square]; exact (hok A B C hC).1
  · rw [matmul_strassen_square]; exact (hok A B C hC).2
  · intro hz
    rw [hz]
    exact strassen_zeros s hok A B

theorem matmul_strassen_well_formed_witness :
    rd (matmul_strassen (zeros (128 * 128)) (zeros (128 * 128)) (zeros (128 * 128)) 128 128 128 :
        Matrix Int) (3 * 128 + 5)
      = rd (zeros (128 * 128) : Matrix Int) (3 * 128 + 5)
        + ∑ k ∈ Finset.range 128, rd (zeros (128 * 128) : Matrix Int) (3 * 128 + k)
            * rd (zeros (128 * 128) : Matrix Int) (k * 128 + 5) :=
  (matmul_strassen_well_formed 128 64 1 (by decide) (by decide) (by decide)
    (zeros (128 * 128)) (zeros (128 * 128)) (zeros (128 * 128))
    (length_zeros _) (length_zeros _) (length_zeros _)).2.1 3 5 (by decide) (by decide)

/-- Claim C5.  For every non-square shape (`m ≠ n` or `n ≠ p`), `matmul_strassen` runs its
inline I-K-J loop, the loop of `matmul_loop_reorder`, instead of `strassen_recursive`, and on
a zeroed `C` its output is the output of `matmul_naive`. -/
theorem matmul_strassen_nonsquare [Ring R] (A B : Matrix R) (m n p : Nat)
    (_hA : A.length = m * n) (_hB : B.length = n * p) (h : m ≠ n ∨ n ≠ p) :
    (∀ C : Matrix R, matmul_strassen A B C m n p = matmul_loop_reorder A B C m n p) ∧
    matmul_strassen A B (zeros (m * p)) m n p = matmul_naive A B (zeros (m * p)) m n p := by
  refine ⟨fun C => matmul_strassen_fallback A B C m n p h, ?_⟩
  rw [matmul_strassen_fallback A B _ m n p h]
  exact loop_reorder_zeros A B m n p

theorem matmul_strassen_nonsquare_witness :
    matmul_strassen [1, 2] [3, 4] (zeros (2 * 2)) 2 1 2
      = (matmul_naive [1, 2] [3, 4] (zeros (2 * 2)) 2 1 2 : Matrix Int) :=
  (matmul_strassen_nonsquare [1, 2] [3, 4] 2 1 2 rfl rfl (by decide)).2

/-! ## Sides that do not halve evenly -/

/-- Above the threshold, `strassen_recursive` leaves alone every entry of `C` in a row or
column at or beyond `2 * (size / 2)`. -/
theorem strassen_frame [Zero R] [Add R] [Sub R] [Mul R] (A B C : Matrix R) (size : Nat)
    (h64 : ¬ size ≤ 64) (hC : C.length = size * size) (r c : Nat) (hr : r < size)
    (hc : c < size) (hout : size / 2 + size / 2 ≤ r ∨ size / 2 + size / 2 ≤ c) :
    rd (strassen_recursive A B C size) (r * size + c) = rd C (r * size + c) := by
  rw [strassen_recursive, if_neg h64]
  lift_lets
  extract_lets ns sl Q Z T1a T2a M1 T1b M2 T2c M3 T2d M4 T1e M5 T1f T2f M6 T1g T2g M7
    C11 C12 C21 C22
  exact combine_frame C11 C12 C21 C22 C size ns hC (by show size / 2 + size / 2 ≤ size; omega)
    r c hr hc hout

theorem rd_replicate [Zero R] (len q : Nat) (v : R) (hq : q < len) :
    rd (List.replicate len v : Matrix R) q = v := by
  unfold rd
  rw [List.getD_eq_getElem?_getD, List.getElem?_replicate, if_pos hq]
  rfl

theorem strassen_65_entry :
    rd (matmul_strassen ones65 ones65 (zeros (65 * 65)) 65 65 65) (64 * 65 + 64) = 0 := by
  rw [matmul_strassen_square,
    strassen_frame ones65 ones65 (zeros (65 * 65)) 65 (by decide) (length_zeros _) 64 64
      (by decide) (by decide) (by decide), rd_zeros]

theorem naive_65_entry :
    rd (matmul_naive ones65 ones65 (zeros (65 * 65)) 65 65 65) (64 * 65 + 64) = 65 := by
  rw [matmul_naive_entry ones65 ones65 _ 65 65 65 (length_zeros _) 64 64 (by decide)
    (by decide), dotAcc_eq_sum, zero_add]
  rw [Finset.sum_congr rfl (fun k hk => by
    have hk' := Finset.mem_range.1 hk
    show rd ones65 (64 * 65 + k) * rd ones65 (k * 65 + 64) = 1
    unfold ones65
    rw [rd_replicate _ _ _ (by omega), rd_replicate _ _ _ (by omega)]
    rfl)]
  simp

/-- Claim C6, counterexample.  The side length 65 is not a power of two, and on the all-ones
65-by-65 matrices with a zeroed `C` the output of `matmul_strassen` differs from the output of
`matmul_naive`: the entry in the last row and last column stays 0 instead of 65. -/
theorem matmul_strassen_65_differs :
    (¬ ∃ k : Nat, 65 = 2 ^ k) ∧
    matmul_strassen ones65 ones65 (zeros (65 * 65)) 65 65 65
      ≠ matmul_naive ones65 ones65 (zeros (65 * 65)) 65 65 65 := by
  constructor
  · rintro ⟨k, hk⟩
    rcases Nat.lt_or_ge k 7 with h | h
    · interval_cases k <;> omega
    · have := Nat.pow_le_pow_right (by decide : 0 < 2) h
      omega
  · intro h
    have h1 := strassen_65_entry
    rw [h, naive_65_entry] at h1
    exact absurd h1 (by decide)

/-- Claim C6, amended.  For every side length `s = b * 2^k` with `b ≤ 64` (a power of two or
not: 6, 96 and 192 are of this form) and a zeroed `C`, the output of `matmul_strassen` is the
output of `matmul_naive`. -/
theorem matmul_strassen_halving_matches_reference [Ring R] (s b k : Nat) (hs : s = b * 2 ^ k)
    (hb : b ≤ 64) (A B : Matrix R) (_hA : A.length = s * s) (_hB : B.length = s * s) :
    matmul_strassen A B (zeros (s * s)) s s s = matmul_naive A B (zeros (s * s)) s s s :=
  strassen_zeros s (hs ▸ strassen_halving b k hb) A B

theorem matmul_strassen_halving_matches_reference_witness :
    matmul_strassen (zeros (6 * 6)) (zeros (6 * 6)) (zeros (6 * 6)) 6 6 6
      = (matmul_naive (zeros (6 * 6)) (zeros (6 * 6)) (zeros (6 * 6)) 6 6 6 : Matrix Int) :=
  matmul_strassen_halving_matches_reference 6 3 1 (by decide) (by decide)
    (zeros (6 * 6)) (zeros (6 * 6)) (length_zeros _) (length_zeros _)

/-! ## Packing and the micro-kernel -/

/-- A loop nest `for i < m, j < p: C[off + (i*p+j)] = f i j` that fits in the buffer. -/
theorem fill_rect_spec [Zero R] (L m p off : Nat) (f : Nat → Nat → R) (C : Matrix R)
    (hC : C.length = L) (hfit : off + m * p ≤ L) :
    ((List.range m).foldl (fun C i =>
      (List.range p).foldl (fun C j => C.set (off + (i * p + j)) (f i j)) C) C).length = L ∧
    ∀ a b, a < m → b < p →
      rd ((List.range m).foldl (fun C i =>
        (List.range p).foldl (fun C j => C.set (off + (i * p + j)) (f i j)) C) C)
        (off + (a * p + b)) = f a b := by
  have hpw : PW L (fun C : Matrix R => (List.range m).foldl (fun C i =>
        (List.range p).foldl (fun C j => C.set (off + (i * p + j)) (f i j)) C) C)
      (fun q c => (List.range m).foldl (fun c i => (List.range p).foldl (fun c j =>
        if q = off + (i * p + j) then f i j else c) c) c) := by
    apply PW.foldl
    intro i _
    apply PW.foldl
    intro j _
    exact PW.set L (off + (i * p + j)) (fun _ => f i j)
  refine ⟨(hpw C hC).1, fun a b ha hb => ?_⟩
  have := idx_lt ha hb
  rw [(hpw C hC).2 _ (by omega)]
  exact fold2_select _ _ (List.nodup_range m) (List.nodup_range p) a b (List.mem_range.2 ha)
    (List.mem_range.2 hb) _ (fun i j _ => f i j) (fun i _ j hj c => by
      have e : off + (a * p + b) = off + (i * p + j) ↔ (j = b ∧ i = a) := by
        rw [Nat.add_left_cancel_iff, idx_eq_iff (List.mem_range.1 hj) hb]
        exact ⟨fun h => ⟨h.2, h.1⟩, fun h => ⟨h.2, h.1⟩⟩
      simp only [e]) _

theorem pack_A_spec [Zero R] (k : Nat) (A : Matrix R) (aoff lda : Nat) (Ap : Matrix R)
    (poff : Nat) (hfit : poff + 8 * k ≤ Ap.length) :
    (pack_A k A aoff lda Ap poff).length = Ap.length ∧
    ∀ r t, r < 8 → t < k →
      rd (pack_A k A aoff lda Ap poff) (poff + (r * k + t)) = rd A (aoff + (r * lda + t)) :=
  fill_rect_spec Ap.length 8 k poff (fun i p => rd A (aoff + (i * lda + p))) Ap rfl hfit

theorem pack_B_spec [Zero R] (k : Nat) (B : Matrix R) (boff ldb : Nat) (Bp : Matrix R)
    (poff : Nat) (hfit : poff + k * 8 ≤ Bp.length) :
    (pack_B k B boff ldb Bp poff).length = Bp.length ∧
    ∀ t l, t < k → l < 8 →
      rd (pack_B k B boff ldb Bp poff) (poff + (t * 8 + l)) = rd B (boff + (t * ldb + l)) :=
  fill_rect_spec Bp.length k 8 poff (fun p j => rd B (boff + (p * ldb + j))) Bp rfl hfit

/-- A lane of an accumulator register after the inner-dimension loop of the micro-kernel. -/
theorem lane_foldl_fmadd [Zero R] [Add R] [Mul R] (B : Matrix R) (a : Nat → R) (bo : Nat → Nat)
    (ts : List Nat) (v : M256 R) (l : Nat) (hl : l < 8) :
    (ts.foldl (fun v t =>
        _mm256_fmadd_ps (_mm256_set1_ps (a t)) (_mm256_loadu_ps B (bo t)) v) v).lane l
      = ts.foldl (fun acc t => a t * rd B (bo t + l) + acc) (v.lane l) := by
  induction ts generalizing v with
  | nil => rfl
  | cons t ts ih =>
    simp only [List.foldl_cons]
    rw [ih, lane_fmadd _ _ _ _ hl, lane_set1 _ _ hl, lane_loadu _ _ _ hl]

/-- The accumulator registers of `kernel_8x8` after the inner-dimension loop. -/
theorem kernel_regs [Zero R] [Add R] [Mul R] (k : Nat) (A : Matrix R) (aoff : Nat)
    (B : Matrix R) (boff : Nat) (c1 : Matrix (M256 R)) (hc1 : c1.length = 8) (r : Nat)
    (hr : r < 8) :
    rd ((List.range k).foldl (fun c p =>
        (List.range 8).foldl (fun c i =>
          c.set i (_mm256_fmadd_ps (_mm256_set1_ps (rd A (aoff + (i * k + p))))
            (_mm256_loadu_ps B (boff + p * 8)) (rd c i))) c) c1) r
      = (List.range k).foldl (fun v p =>
          _mm256_fmadd_ps (_mm256_set1_ps (rd A (aoff + (r * k + p))))
            (_mm256_loadu_ps B (boff + p * 8)) v) (rd c1 r) := by
  have hpw : PW 8 (fun c : Matrix (M256 R) => (List.range k).foldl (fun c p =>
        (List.range 8).foldl (fun c i =>
          c.set i (_mm256_fmadd_ps (_mm256_set1_ps (rd A (aoff + (i * k + p))))
            (_mm256_loadu_ps B (boff + p * 8)) (rd c i))) c) c)
      (fun q v => (List.range k).foldl (fun v p => (List.range 8).foldl (fun v i =>
        if q = i then _mm256_fmadd_ps (_mm256_set1_ps (rd A (aoff + (i * k + p))))
            (_mm256_loadu_ps B (boff + p * 8)) v else v) v) v) := by
    apply PW.foldl
    intro p _
    apply PW.foldl
    intro i _
    exact PW.set 8 i (fun v => _mm256_fmadd_ps (_mm256_set1_ps (rd A (aoff + (i * k + p))))
            (_mm256_loadu_ps B (boff + p * 8)) v)
  rw [(hpw c1 hc1).2 r hr]
  apply List.foldl_ext
  intro v p _
  rw [foldl_select (List.range 8) (List.nodup_range 8) (fun i => r = i) True
    (fun i v => _mm256_fmadd_ps (_mm256_set1_ps (rd A (aoff + (i * k + p))))
            (_mm256_loadu_ps B (boff + p * 8)) v) v r
    (fun i _ => by show r = i ↔ _; simp [eq_comm])]
  simp [hr]

/-- The micro-kernel as a pointwise update of `C`: the entry at `q` changes only when `q` lies
in one of the 8 row windows of the tile, and then by the multiply-adds of the inner loop. -/
theorem kernel_8x8_pw [Zero R] [Add R] [Mul R] (L k : Nat) (A : Matrix R) (aoff : Nat)
    (B : Matrix R) (boff coff ldc : Nat) :
    PW L (fun C => kernel_8x8 k A aoff B boff C coff ldc)
      (fun q c0 => (List.range 8).foldl (fun c r =>
        if coff + r * ldc ≤ q ∧ q < coff + r * ldc + 8 then
          (List.range k).foldl (fun acc t =>
            rd A (aoff + (r * k + t)) * rd B (boff + t * 8 + (q - (coff + r * ldc))) + acc) c0
        else c) c0) := by
  intro C hC
  beta_reduce
  unfold kernel_8x8
  lift_lets
  extract_lets c0 c1 c2
  have h1 : c1.length = 8 ∧ ∀ r, r < 8 → rd c1 r = _mm256_loadu_ps C (coff + r * ldc) :=
    fill_spec 8 (fun i => _mm256_loadu_ps C (coff + i * ldc)) c0 (length_zeros 8)
  have h2 : ∀ r, r < 8 → rd c2 r = (List.range k).foldl (fun v p =>
          _mm256_fmadd_ps (_mm256_set1_ps (rd A (aoff + (r * k + p))))
            (_mm256_loadu_ps B (boff + p * 8)) v) (rd c1 r) :=
    fun r hr => kernel_regs k A aoff B boff c1 h1.1 r hr
  clear_value c2
  have hst : PW L (fun C : Matrix R => (List.range 8).foldl (fun C i =>
        _mm256_storeu_ps C (coff + i * ldc) (rd c2 i)) C)
      (fun q c => (List.range 8).foldl (fun c r =>
        if coff + r * ldc ≤ q ∧ q < coff + r * ldc + 8 then
          (rd c2 r).lane (q - (coff + r * ldc)) else c) c) := by
    apply PW.foldl
    intro i _
    exact storeu_pw L (coff + i * ldc) (rd c2 i)
  refine ⟨(hst C hC).1, fun q hq => ?_⟩
  rw [(hst C hC).2 q hq]
  apply List.foldl_ext
  intro c r hr
  have hr' := List.mem_range.1 hr
  by_cases hw : coff + r * ldc ≤ q ∧ q < coff + r * ldc + 8
  · have hl : q - (coff + r * ldc) < 8 := by omega
    have hq' : coff + r * ldc + (q - (coff + r * ldc)) = q := by omega
    rw [if_pos hw, if_pos hw, h2 r hr',
      lane_foldl_fmadd B (fun t => rd A (aoff + (r * k + t))) (fun t => boff + t * 8) _ _ _ hl,
      h1.2 r hr', lane_loadu _ _ _ hl, hq']
  · rw [if_neg hw, if_neg hw]

/-! ## The blocked pass of `matmul_optimized_sgemm` -/

theorem PWS.fold [Zero R] {τ : Type} (L : Nat) (Inv : SgemmState R → Prop) (l : List τ)
    (step : SgemmState R → τ → SgemmState R) (u : τ → Nat → R → R)
    (h : ∀ t, t ∈ l → PWS L Inv (fun s => step s t) (u t)) :
    PWS L Inv (fun s => l.foldl step s) (fun q c => l.foldl (fun c t => u t q c) c) := by
  induction l with
  | nil => intro s hI hC; exact ⟨hI, hC, fun q _ => rfl⟩
  | cons t ts ih =>
    intro s hI hC
    have h1 := h t (List.mem_cons_self _ _) s hI hC
    have h2 := ih (fun t' ht' => h t' (List.mem_cons_of_mem _ ht')) (step s t) h1.1 h1.2.1
    refine ⟨h2.1, h2.2.1, fun q hq => ?_⟩
    simp only [List.foldl_cons]
    rw [h2.2.2 q hq, h1.2.2 q hq]

/-- One micro-tile: pack a strip of `A`, run the micro-kernel. -/
theorem sgemm_tile_pws [Zero R] [Add R] [Mul R] (A B : Matrix R) (L n p kb i ii j jj k : Nat)
    (hkb : kb ≤ KC) :
    PWS L (PackedB B kb (k * p + (j + jj)) p)
      (fun s =>
        let s := { s with A_packed := pack_A kb A ((i + ii) * n + k) n s.A_packed 0 }
        let coff := (i + ii) * p + (j + jj)
        { s with C := kernel_8x8 kb s.A_packed 0 s.B_packed 0 s.C coff p })
      (fun q c0 => (List.range 8).foldl (fun c r =>
        if (i + ii) * p + (j + jj) + r * p ≤ q ∧ q < (i + ii) * p + (j + jj) + r * p + 8 then
          (List.range kb).foldl (fun acc t =>
            rd A ((i + ii) * n + k + (r * n + t))
              * rd B (k * p + (j + jj) + (t * p + (q - ((i + ii) * p + (j + jj) + r * p))))
              + acc) c0
        else c) c0) := by
  intro s hI hC
  obtain ⟨⟨hA, hB⟩, hBp⟩ := hI
  have hfit : 0 + 8 * kb ≤ s.A_packed.length := by
    rw [hA]; unfold KC at hkb; unfold MC KC; omega
  have hp := pack_A_spec kb A ((i + ii) * n + k) n s.A_packed 0 hfit
  have hk := kernel_8x8_pw L kb (pack_A kb A ((i + ii) * n + k) n s.A_packed 0) 0 s.B_packed 0
    ((i + ii) * p + (j + jj)) p s.C hC
  dsimp only
  refine ⟨?_, ?_, fun q hq => ?_⟩
  · exact ⟨⟨hp.1.trans hA, hB⟩, hBp⟩
  · exact hk.1
  rw [hk.2 q hq]
  apply List.foldl_ext
  intro c r hr
  have hr' := List.mem_range.1 hr
  by_cases hw : (i + ii) * p + (j + jj) + r * p ≤ q ∧ q < (i + ii) * p + (j + jj) + r * p + 8
  · rw [if_pos hw, if_pos hw]
    apply List.foldl_ext
    intro acc t ht
    have ht' := List.mem_range.1 ht
    have e : 0 + t * 8 + (q - ((i + ii) * p + (j + jj) + r * p))
        = 0 + (t * 8 + (q - ((i + ii) * p + (j + jj) + r * p))) := by omega
    rw [hp.2 r t hr' ht', e, hBp t _ ht' (by omega)]
  · rw [if_neg hw, if_neg hw]

/-- The blocked pass, as a pointwise update of `C` that keeps the packing buffers' lengths. -/
theorem sgemm_blocked_pws [Zero R] [Add R] [Mul R] (A B : Matrix R) (m n p : Nat) :
    PWS (m * p) SgemmInv (sgemm_blocked A B m n p)
      (fun q c => (steps p NC).foldl (fun c j => (steps n KC).foldl (fun c k =>
        (steps m MC).foldl (fun c i => (steps (min NC (p - j)) 8).foldl (fun c jj =>
          if jj + 8 > min NC (p - j) then c
          else (steps (min MC (m - i)) 8).foldl (fun c ii =>
            if ii + 8 > min MC (m - i) then c
            else (fun c0 => (List.range 8).foldl (fun c r =>
              if (i + ii) * p + (j + jj) + r * p ≤ q ∧ q < (i + ii) * p + (j + jj) + r * p + 8
              then
                (List.range (min KC (n - k))).foldl (fun acc t =>
                  rd A ((i + ii) * n + k + (r * n + t))
                    * rd B (k * p + (j + jj)
                        + (t * p + (q - ((i + ii) * p + (j + jj) + r * p))))
                    + acc) c0
              else c) c0) c) c) c) c) c) c) := by
  unfold sgemm_blocked
  apply PWS.fold
  intro j _
  apply PWS.fold
  intro k _
  apply PWS.fold
  intro i _
  apply PWS.fold
  intro jj _
  by_cases hjj : jj + 8 > min NC (p - j)
  · simp only [if_pos hjj]
    intro s hI hC
    exact ⟨hI, hC, fun q _ => rfl⟩
  · simp only [if_neg hjj]
    intro s hI hC
    have hkb : min KC (n - k) ≤ KC := Nat.min_le_left _ _
    have hfit : 0 + min KC (n - k) * 8 ≤ s.B_packed.length := by
      rw [hI.2]; unfold KC at hkb; unfold KC NC; omega
    have hb := pack_B_spec (min KC (n - k)) B (k * p + (j + jj)) p s.B_packed 0 hfit
    have hin : PWS (m * p) (PackedB B (min KC (n - k)) (k * p + (j + jj)) p)
        (fun s => (steps (min MC (m - i)) 8).foldl (fun s ii =>
          if ii + 8 > min MC (m - i) then s
          else
            let s := { s with
              A_packed := pack_A (min KC (n - k)) A ((i + ii) * n + k) n s.A_packed 0 }
            let coff := (i + ii) * p + (j + jj)
            { s with C := kernel_8x8 (min KC (n - k)) s.A_packed 0 s.B_packed 0 s.C coff p }) s)
        (fun q c => (steps (min MC (m - i)) 8).foldl (fun c ii =>
            if ii + 8 > min MC (m - i) then c
            else (fun c0 => (List.range 8).foldl (fun c r =>
              if (i + ii) * p + (j + jj) + r * p ≤ q ∧ q < (i + ii) * p + (j + jj) + r * p + 8
              then
                (List.range (min KC (n - k))).foldl (fun acc t =>
                  rd A ((i + ii) * n + k + (r * n + t))
                    * rd B (k * p + (j + jj)
                        + (t * p + (q - ((i + ii) * p + (j + jj) + r * p))))
                    + acc) c0
              else c) c0) c) c) := by
      apply PWS.fold
      intro ii _
      by_cases hii : ii + 8 > min MC (m - i)
      · simp only [if_pos hii]
        intro s hI hC
        exact ⟨hI, hC, fun q _ => rfl⟩
      · simp only [if_neg hii]
        exact sgemm_tile_pws A B (m * p) n p (min KC (n - k)) i ii j jj k hkb
    have := hin ⟨s.A_packed, pack_B (min KC (n - k)) B (k * p + (j + jj)) p s.B_packed 0, s.C⟩
      ⟨⟨hI.1, hb.1.trans hI.2⟩, hb.2⟩ hC
    exact ⟨this.1.1, this.2.1, this.2.2⟩

/-! ## Entries of the blocked pass on aligned sizes -/

theorem fma_fold_sum [Semiring R] (f : Nat → R) (k : Nat) (c : R) :
    (List.range k).foldl (fun acc t => f t + acc) c = c + ∑ t ∈ Finset.range k, f t := by
  induction k with
  | zero => simp
  | succ k ih =>
    rw [List.range_succ, List.foldl_append, ih, Finset.sum_range_succ]
    simp only [List.foldl_cons, List.foldl_nil]
    rw [add_comm, add_assoc]

theorem range'_fold_sum [Semiring R] (f : Nat → R) (k len : Nat) (c : R) :
    (List.range' k len).foldl (fun acc t => acc + f t) c
      = c + ∑ t ∈ Finset.range len, f (k + t) := by
  induction len with
  | zero => simp
  | succ len ih =>
    rw [List.range'_concat, List.foldl_append, ih, Finset.sum_range_succ]
    simp only [List.foldl_cons, List.foldl_nil, Nat.one_mul]
    rw [add_assoc]

/-- One micro-tile seen from the entry `(i0, j0)`: the tile at rows `r0..r0+7` and columns
`c0..c0+7` adds the partial dot product over the inner block `[k, k+kb)` to the entries it
contains and leaves the others alone. -/
theorem sgemm_tile_entry [Semiring R] (A B : Matrix R) (n p kb i0 j0 r0 c0 k : Nat)
    (hj0 : j0 < p) (hfit : c0 + 8 ≤ p) (c : R) :
    (List.range 8).foldl (fun c' r =>
      if r0 * p + c0 + r * p ≤ i0 * p + j0 ∧ i0 * p + j0 < r0 * p + c0 + r * p + 8 then
        (List.range kb).foldl (fun acc t =>
          rd A (r0 * n + k + (r * n + t))
            * rd B (k * p + c0 + (t * p + (i0 * p + j0 - (r0 * p + c0 + r * p)))) + acc) c
      else c') c
    = if (r0 ≤ i0 ∧ i0 < r0 + 8) ∧ (c0 ≤ j0 ∧ j0 < c0 + 8) then
        c + ∑ t ∈ Finset.range kb, rd A (i0 * n + (k + t)) * rd B ((k + t) * p + j0)
      else c := by
  have hcond : ∀ r, (r0 * p + c0 + r * p ≤ i0 * p + j0 ∧ i0 * p + j0 < r0 * p + c0 + r * p + 8)
      ↔ (r = i0 - r0 ∧ (r0 ≤ i0 ∧ (c0 ≤ j0 ∧ j0 < c0 + 8))) := by
    intro r
    have e : r0 * p + c0 + r * p = (r0 + r) * p + c0 := by rw [Nat.add_mul]; omega
    rw [e, window_iff hj0 hfit]
    omega
  rw [foldl_select (List.range 8) (List.nodup_range 8)
    (fun r => r0 * p + c0 + r * p ≤ i0 * p + j0 ∧ i0 * p + j0 < r0 * p + c0 + r * p + 8)
    (r0 ≤ i0 ∧ (c0 ≤ j0 ∧ j0 < c0 + 8))
    (fun r _ => (List.range kb).foldl (fun acc t =>
          rd A (r0 * n + k + (r * n + t))
            * rd B (k * p + c0 + (t * p + (i0 * p + j0 - (r0 * p + c0 + r * p)))) + acc) c)
    c (i0 - r0) (fun r _ => hcond r)]
  by_cases h : (r0 ≤ i0 ∧ i0 < r0 + 8) ∧ (c0 ≤ j0 ∧ j0 < c0 + 8)
  · have h' : i0 - r0 ∈ List.range 8 ∧ (r0 ≤ i0 ∧ (c0 ≤ j0 ∧ j0 < c0 + 8)) := by
      rw [List.mem_range]; omega
    rw [if_pos h, if_pos h', fma_fold_sum]
    congr 1
    apply Finset.sum_congr rfl
    intro t _
    have hi0 : i0 = r0 + (i0 - r0) := by omega
    have e1 : r0 * n + k + ((i0 - r0) * n + t) = i0 * n + (k + t) := by
      conv_rhs => rw [hi0, Nat.add_mul]
      omega
    have e2 : k * p + c0 + (t * p + (i0 * p + j0 - (r0 * p + c0 + (i0 - r0) * p)))
        = (k + t) * p + j0 := by
      have e3 : i0 * p = r0 * p + (i0 - r0) * p := by
        conv_lhs => rw [hi0, Nat.add_mul]
      rw [Nat.add_mul, e3]
      omega
    rw [e1, e2]
  · have h' : ¬ (i0 - r0 ∈ List.range 8 ∧ (r0 ≤ i0 ∧ (c0 ≤ j0 ∧ j0 < c0 + 8))) := by
      rw [List.mem_range]; omega
    rw [if_neg h, if_neg h']

/-- The 8-wide sub-blocks of a block whose width is a multiple of 8: none is skipped, and
exactly one contains a given position of the block. -/
theorem fold_sub_blocks (w b x0 : Nat) (hw : w % 8 = 0) (Q : Prop) [Decidable Q]
    (F : Nat → R → R) (g : R → R) (c : R)
    (hF : ∀ t, t ∈ steps w 8 → t + 8 ≤ w → ∀ c,
      F t c = if (b + t ≤ x0 ∧ x0 < b + t + 8) ∧ Q then g c else c) :
    (steps w 8).foldl (fun c t => if t + 8 > w then c else F t c) c
      = if (b ≤ x0 ∧ x0 < b + w) ∧ Q then g c else c := by
  have hmem : ∀ t, t ∈ steps w 8 → t + 8 ≤ w := by
    intro t ht
    obtain ⟨s, hs, hlt⟩ := (mem_steps (by decide : 0 < 8)).1 ht
    omega
  rw [List.foldl_ext _ (fun c t => if (b + t ≤ x0 ∧ x0 < b + t + 8) ∧ Q then g c else c) c
    (fun c t ht => by
      have := hmem t ht
      rw [if_neg (by omega)]
      exact hF t ht this c)]
  rw [foldl_select (steps w 8) (steps_nodup _ _ (by decide))
    (fun t => (b + t ≤ x0 ∧ x0 < b + t + 8) ∧ Q) (b ≤ x0 ∧ Q) (fun _ c => g c) c
    (8 * ((x0 - b) / 8)) (fun t ht => by
      obtain ⟨s, hs, hlt⟩ := (mem_steps (by decide : 0 < 8)).1 ht
      show (b + t ≤ x0 ∧ x0 < b + t + 8) ∧ Q ↔ _
      constructor
      · rintro ⟨h1, h2⟩
        exact ⟨by omega, by omega, h2⟩
      · rintro ⟨h1, h2, h3⟩
        exact ⟨by omega, h3⟩)]
  have e : (8 * ((x0 - b) / 8) ∈ steps w 8 ∧ (b ≤ x0 ∧ Q)) ↔ ((b ≤ x0 ∧ x0 < b + w) ∧ Q) := by
    rw [mem_steps (by decide : 0 < 8)]
    constructor
    · rintro ⟨⟨s, hs, hlt⟩, h1, h2⟩
      exact ⟨⟨h1, by omega⟩, h2⟩
    · rintro ⟨⟨h1, h2⟩, h3⟩
      exact ⟨⟨(x0 - b) / 8, rfl, by omega⟩, h1, h3⟩
  simp only [e]

theorem MC_eq : MC = 256 := rfl

theorem KC_eq : KC = 256 := rfl

theorem NC_eq : NC = 128 := rfl

/-- When `m` and `p` are multiples of 8, the blocked pass adds the full dot product to every
entry of `C`, in increasing order of the inner index. -/
theorem sgemm_blocked_entry [Semiring R] (A B : Matrix R) (m n p : Nat) (hm : m % 8 = 0)
    (hp : p % 8 = 0) (s : SgemmState R) (hI : SgemmInv s) (hC : s.C.length = m * p)
    (i0 j0 : Nat) (hi0 : i0 < m) (hj0 : j0 < p) :
    rd (sgemm_blocked A B m n p s).C (i0 * p + j0)
      = dotAcc A B n p i0 j0 (List.range n) (rd s.C (i0 * p + j0)) := by
  rw [(sgemm_blocked_pws A B m n p s hI hC).2.2 _ (idx_lt hi0 hj0)]
  have hMC : 0 < MC := by decide
  have hKC : 0 < KC := by decide
  have hNC : 0 < NC := by decide
  -- the micro-tiles of one row-block strip
  have L_ii : ∀ (j k i jj : Nat) (c : R), j ∈ steps p NC → i ∈ steps m MC →
      jj + 8 ≤ min NC (p - j) →
      (steps (min MC (m - i)) 8).foldl (fun c ii =>
        if ii + 8 > min MC (m - i) then c
        else (List.range 8).foldl (fun c' r =>
          if (i + ii) * p + (j + jj) + r * p ≤ i0 * p + j0
              ∧ i0 * p + j0 < (i + ii) * p + (j + jj) + r * p + 8 then
            (List.range (min KC (n - k))).foldl (fun acc t =>
              rd A ((i + ii) * n + k + (r * n + t))
                * rd B (k * p + (j + jj)
                    + (t * p + (i0 * p + j0 - ((i + ii) * p + (j + jj) + r * p)))) + acc) c
          else c') c) c
      = if (i ≤ i0 ∧ i0 < i + min MC (m - i)) ∧ (j + jj ≤ j0 ∧ j0 < j + jj + 8) then
          c + ∑ t ∈ Finset.range (min KC (n - k)),
            rd A (i0 * n + (k + t)) * rd B ((k + t) * p + j0)
        else c := by
    intro j k i jj c hj hi hjj
    obtain ⟨tj, htj, hjlt⟩ := (mem_steps hNC).1 hj
    obtain ⟨ti, hti, hilt⟩ := (mem_steps hMC).1 hi
    rw [MC_eq] at hti
    apply fold_sub_blocks (min MC (m - i)) i i0 (by rw [MC_eq]; omega)
      (j + jj ≤ j0 ∧ j0 < j + jj + 8) _
      (fun c => c + ∑ t ∈ Finset.range (min KC (n - k)),
            rd A (i0 * n + (k + t)) * rd B ((k + t) * p + j0))
    intro ii _ _ c
    exact sgemm_tile_entry A B n p (min KC (n - k)) i0 j0 (i + ii) (j + jj) k hj0
      (by omega) c
  -- the column strips of one macro-block
  have L_jj : ∀ (j k i : Nat) (c : R), j ∈ steps p NC → i ∈ steps m MC →
      (steps (min NC (p - j)) 8).foldl (fun c jj =>
        if jj + 8 > min NC (p - j) then c
        else (steps (min MC (m - i)) 8).foldl (fun c ii =>
          if ii + 8 > min MC (m - i) then c
          else (fun c0 => (List.range 8).foldl (fun c' r =>
            if (i + ii) * p + (j + jj) + r * p ≤ i0 * p + j0
                ∧ i0 * p + j0 < (i + ii) * p + (j + jj) + r * p + 8 then
              (List.range (min KC (n - k))).foldl (fun acc t =>
                rd A ((i + ii) * n + k + (r * n + t))
                  * rd B (k * p + (j + jj)
                      + (t * p + (i0 * p + j0 - ((i + ii) * p + (j + jj) + r * p)))) + acc) c0
            else c') c0) c) c) c
      = if (j ≤ j0 ∧ j0 < j + min NC (p - j)) ∧ (i ≤ i0 ∧ i0 < i + min MC (m - i)) then
          c + ∑ t ∈ Finset.range (min KC (n - k)),
            rd A (i0 * n + (k + t)) * rd B ((k + t) * p + j0)
        else c := by
    intro j k i c hj hi
    obtain ⟨tj, htj, hjlt⟩ := (mem_steps hNC).1 hj
    rw [NC_eq] at htj
    apply fold_sub_blocks (min NC (p - j)) j j0 (by rw [NC_eq]; omega)
      (i ≤ i0 ∧ i0 < i + min MC (m - i)) _
      (fun c => c + ∑ t ∈ Finset.range (min KC (n - k)),
            rd A (i0 * n + (k + t)) * rd B ((k + t) * p + j0))
    intro jj _ hjj c
    exact (L_ii j k i jj c hj hi hjj).trans (if_congr and_comm rfl rfl)
  -- the row macro-blocks
  have L_i : ∀ (j k : Nat) (c : R), j ∈ steps p NC →
      (steps m MC).foldl (fun c i =>
        if (j ≤ j0 ∧ j0 < j + min NC (p - j)) ∧ (i ≤ i0 ∧ i0 < i + min MC (m - i)) then
          c + ∑ t ∈ Finset.range (min KC (n - k)),
            rd A (i0 * n + (k + t)) * rd B ((k + t) * p + j0)
        else c) c
      = if j ≤ j0 ∧ j0 < j + min NC (p - j) then
          c + ∑ t ∈ Finset.range (min KC (n - k)),
            rd A (i0 * n + (k + t)) * rd B ((k + t) * p + j0)
        else c := by
    intro j k c _
    rw [foldl_select (steps m MC) (steps_nodup _ _ hMC)
      (fun i => (j ≤ j0 ∧ j0 < j + min NC (p - j)) ∧ (i ≤ i0 ∧ i0 < i + min MC (m - i)))
      (j ≤ j0 ∧ j0 < j + min NC (p - j))
      (fun _ c => c + ∑ t ∈ Finset.range (min KC (n - k)),
            rd A (i0 * n + (k + t)) * rd B ((k + t) * p + j0)) c (MC * (i0 / MC))
      (fun i hi => by
        show _ ∧ _ ↔ _
        rw [← block_iff hMC hi]
        obtain ⟨ti, hti, hilt⟩ := (mem_steps hMC).1 hi
        constructor
        · rintro ⟨h1, h2, h3⟩
          exact ⟨⟨h2, by omega⟩, h1⟩
        · rintro ⟨⟨h1, h2⟩, h3⟩
          exact ⟨h3, h1, by omega⟩)]
    simp only [block_mem hMC hi0, true_and]
  -- the inner-dimension macro-blocks
  have L_k : ∀ (j : Nat) (c : R), j ∈ steps p NC →
      (steps n KC).foldl (fun c k =>
        if j ≤ j0 ∧ j0 < j + min NC (p - j) then
          c + ∑ t ∈ Finset.range (min KC (n - k)),
            rd A (i0 * n + (k + t)) * rd B ((k + t) * p + j0)
        else c) c
      = if j ≤ j0 ∧ j0 < j + min NC (p - j) then dotAcc A B n p i0 j0 (List.range n) c
        else c := by
    intro j c _
    rw [foldl_guard]
    by_cases h : j ≤ j0 ∧ j0 < j + min NC (p - j)
    · rw [if_pos h, if_pos h]
      unfold dotAcc
      rw [← foldl_chunks n KC hKC (fun c k => c + rd A (i0 * n + k) * rd B (k * p + j0)) c]
      apply List.foldl_ext
      intro c k _
      rw [range'_fold_sum (fun x => rd A (i0 * n + x) * rd B (x * p + j0))]
      have e : min (k + KC) n - k = min KC (n - k) := by omega
      rw [e]
    · rw [if_neg h, if_neg h]
  refine (List.foldl_ext _ (fun c j => if j ≤ j0 ∧ j0 < j + min NC (p - j) then
      dotAcc A B n p i0 j0 (List.range n) c else c) _ (fun c j hj => ?_)).trans ?_
  · refine (List.foldl_ext _ _ _ (fun c k _ => ?_)).trans (L_k j c hj)
    refine (List.foldl_ext _ _ _ (fun c i hi => ?_)).trans (L_i j k c hj)
    exact L_jj j k i c hj hi
  · rw [foldl_select (steps p NC) (steps_nodup _ _ hNC)
      (fun j => j ≤ j0 ∧ j0 < j + min NC (p - j)) True
      (fun _ c => dotAcc A B n p i0 j0 (List.range n) c) _ (NC * (j0 / NC))
      (fun j hj => by
        show _ ∧ _ ↔ _
        rw [← block_iff hNC hj]
        obtain ⟨tj, htj, hjlt⟩ := (mem_steps hNC).1 hj
        constructor
        · rintro ⟨h1, h2⟩
          exact ⟨⟨h1, by omega⟩, trivial⟩
        · rintro ⟨⟨h1, h2⟩, -⟩
          exact ⟨h1, by omega⟩)]
    simp only [block_mem hNC hj0, and_self, if_true]

/-! ## The packed kernel `matmul_optimized_sgemm` -/

theorem sgemm_init_inv [Zero R] (C : Matrix R) :
    SgemmInv (⟨zeros (MC * KC), zeros (KC * NC), C⟩ : SgemmState R) :=
  ⟨length_zeros _, length_zeros _⟩

theorem matmul_naive_indep [Zero R] [Add R] [Mul R] (A B C D : Matrix R) (m n p : Nat)
    (hC : C.length = m * p) (hD : D.length = m * p) :
    matmul_naive A B C m n p = matmul_naive A B D m n p := by
  apply ext_entries (matmul_naive_length A B C m n p hC) (matmul_naive_length A B D m n p hD)
  intro i j hi hj
  rw [matmul_naive_entry A B C m n p hC i j hi hj, matmul_naive_entry A B D m n p hD i j hi hj]

/-- On a size with a dimension that is not a multiple of 8 the packed kernel ends with
`matmul_naive` over the whole matrix, which overwrites what the blocked pass left. -/
theorem sgemm_unaligned_eq [Zero R] [Add R] [Mul R] (A B C : Matrix R) (m n p : Nat)
    (h : m % 8 ≠ 0 ∨ n % 8 ≠ 0 ∨ p % 8 ≠ 0) (hC : C.length = m * p) :
    matmul_optimized_sgemm A B C m n p = matmul_naive A B C m n p := by
  unfold matmul_optimized_sgemm
  simp only [if_pos h]
  exact matmul_naive_indep A B _ C m n p
    (sgemm_blocked_pws A B m n p _ (sgemm_init_inv C) hC).2.1 hC

/-- On a size whose dimensions are all multiples of 8 the packed kernel returns what the
blocked pass left in `C`: the prior entry plus the dot product. -/
theorem sgemm_aligned [Semiring R] (A B C : Matrix R) (m n p : Nat) (hm : m % 8 = 0)
    (hn : n % 8 = 0) (hp : p % 8 = 0) (hC : C.length = m * p) :
    (matmul_optimized_sgemm A B C m n p).length = m * p ∧
    ∀ i j, i < m → j < p →
      rd (matmul_optimized_sgemm A B C m n p) (i * p + j)
        = rd C (i * p + j) + ∑ k ∈ Finset.range n, rd A (i * n + k) * rd B (k * p + j) := by
  have hal : ¬ (m % 8 ≠ 0 ∨ n % 8 ≠ 0 ∨ p % 8 ≠ 0) := by omega
  unfold matmul_optimized_sgemm
  simp only [if_neg hal]
  refine ⟨(sgemm_blocked_pws A B m n p _ (sgemm_init_inv C) hC).2.1, fun i j hi hj => ?_⟩
  rw [sgemm_blocked_entry A B m n p hm hp _ (sgemm_init_inv C) hC i j hi hj, dotAcc_eq_sum]

theorem matmul_naive_sum [Semiring R] (A B C : Matrix R) (m n p : Nat) (hC : C.length = m * p)
    (i j : Nat) (hi : i < m) (hj : j < p) :
    rd (matmul_naive A B C m n p) (i * p + j)
      = ∑ k ∈ Finset.range n, rd A (i * n + k) * rd B (k * p + j) := by
  rw [matmul_naive_entry A B C m n p hC i j hi hj, dotAcc_eq_sum, zero_add]

/-- Claim C3.  Over exact arithmetic, for every `m`, `n`, `p` that are all multiples of 8 (of
any size relative to the macro-blocks `MC`, `KC`, `NC`) and every prior `C`,
`matmul_optimized_sgemm` keeps the length of `C` and its entry `(i, j)` is the prior `C[i,j]`
plus the `(i, j)` entry of the product; with `C` zeroed the output is that of
`matmul_naive`. -/
theorem matmul_optimized_sgemm_aligned [Semiring R] (A B C : Matrix R) (m n p : Nat)
    (hm : m % 8 = 0) (hn : n % 8 = 0) (hp : p % 8 = 0)
    (_hA : A.length = m * n) (_hB : B.length = n * p) (hC : C.length = m * p) :
    (matmul_optimized_sgemm A B C m n p).length = m * p ∧
    (∀ i j, i < m → j < p →
      rd (matmul_optimized_sgemm A B C m n p) (i * p + j)
        = rd C (i * p + j) + ∑ k ∈ Finset.range n, rd A (i * n + k) * rd B (k * p + j)) ∧
    (C = zeros (m * p) →
      matmul_optimized_sgemm A B C m n p = matmul_naive A B C m n p) := by
  have h := sgemm_aligned A B C m n p hm hn hp hC
  refine ⟨h.1, h.2, fun hz => ?_⟩
  apply ext_entries h.1 (matmul_naive_length A B C m n p hC)
  intro i j hi hj
  rw [h.2 i j hi hj, matmul_naive_sum A B C m n p hC i j hi hj, hz, rd_zeros, zero_add]

theorem matmul_optimized_sgemm_aligned_witness :
    matmul_optimized_sgemm (List.replicate (264 * 520) 1) (List.replicate (520 * 136) 1)
        (zeros (264 * 136)) 264 520 136
      = (matmul_naive (List.replicate (264 * 520) 1) (List.replicate (520 * 136) 1)
        (zeros (264 * 136)) 264 520 136 : Matrix Int) :=
  (matmul_optimized_sgemm_aligned (List.replicate (264 * 520) 1)
    (List.replicate (520 * 136) 1) (zeros (264 * 136)) 264 520 136 (by decide) (by decide)
    (by decide) (List.length_replicate _ _) (List.length_replicate _ _)
    (length_zeros _)).2.2 rfl

/-- Claim C4.  For every `m`, `n`, `p` with a dimension that is not a multiple of 8 and every
prior `C`, `matmul_optimized_sgemm` returns exactly the buffer `matmul_naive` returns: nothing
the blocked pass wrote survives. -/
theorem matmul_optimized_sgemm_fallback [Zero R] [Add R] [Mul R] (A B C : Matrix R)
    (m n p : Nat) (h : m % 8 ≠ 0 ∨ n % 8 ≠ 0 ∨ p % 8 ≠ 0)
    (_hA : A.length = m * n) (_hB : B.length = n * p) (hC : C.length = m * p) :
    matmul_optimized_sgemm A B C m n p = matmul_naive A B C m n p :=
  sgemm_unaligned_eq A B C m n p h hC

theorem matmul_optimized_sgemm_fallback_witness :
    matmul_optimized_sgemm (List.replicate (12 * 8) 1) (List.replicate (8 * 16) 1)
        (List.replicate (12 * 16) 5) 12 8 16
      = (matmul_naive (List.replicate (12 * 8) 1) (List.replicate (8 * 16) 1)
        (List.replicate (12 * 16) 5) 12 8 16 : Matrix Int) :=
  matmul_optimized_sgemm_fallback (List.replicate (12 * 8) 1) (List.replicate (8 * 16) 1)
    (List.replicate (12 * 16) 5) 12 8 16 (by decide) (List.length_replicate _ _)
    (List.length_replicate _ _) (List.length_replicate _ _)

/-- Claim C7, counterexample.  On the 1-by-1 input `A = [1]`, `B = [1]` with prior `C = [1]`
the packed kernel does not return the reference result plus the prior contents: the fallback
overwrites, so the entry is 1 and not 2. -/
theorem matmul_optimized_sgemm_unaligned_overwrites :
    rd (matmul_optimized_sgemm [1] [1] [1] 1 1 1 : Matrix Int) (0 * 1 + 0)
      ≠ rd (matmul_naive [1] [1] [1] 1 1 1 : Matrix Int) (0 * 1 + 0)
        + rd ([1] : Matrix Int) (0 * 1 + 0) := by
  rw [sgemm_unaligned_eq [1] [1] [1] 1 1 1 (by decide) rfl]
  decide

/-- Claim C7, amended.  When `m`, `n`, `p` are all multiples of 8, every entry of the output
of `matmul_optimized_sgemm` is the reference result plus the prior content of `C`; when some
dimension is not a multiple of 8, every entry is the reference result alone, whatever the
prior content of `C`. -/
theorem matmul_optimized_sgemm_accumulates_when_aligned [Semiring R] (A B C : Matrix R)
    (m n p : Nat) (_hA : A.length = m * n) (_hB : B.length = n * p) (hC : C.length = m * p) :
    ((m % 8 = 0 ∧ n % 8 = 0 ∧ p % 8 = 0) → ∀ i j, i < m → j < p →
      rd (matmul_optimized_sgemm A B C m n p) (i * p + j)
        = rd (matmul_naive A B C m n p) (i * p + j) + rd C (i * p + j)) ∧
    (¬ (m % 8 = 0 ∧ n % 8 = 0 ∧ p % 8 = 0) → ∀ i j, i < m → j < p →
      rd (matmul_optimized_sgemm A B C m n p) (i * p + j)
        = rd (matmul_naive A B C m n p) (i * p + j)) := by
  constructor
  · rintro ⟨hm, hn, hp⟩ i j hi hj
    rw [(sgemm_aligned A B C m n p hm hn hp hC).2 i j hi hj,
      matmul_naive_sum A B C m n p hC i j hi hj, add_comm]
  · intro h i j _ _
    rw [sgemm_unaligned_eq A B C m n p (by omega) hC]

theorem matmul_optimized_sgemm_accumulates_when_aligned_witness :
    rd (matmul_optimized_sgemm (List.replicate (8 * 8) 1) (List.replicate (8 * 8) 1)
        (List.replicate (8 * 8) 5) 8 8 8 : Matrix Int) (2 * 8 + 3)
      = rd (matmul_naive (List.replicate (8 * 8) 1) (List.replicate (8 * 8) 1)
        (List.replicate (8 * 8) 5) 8 8 8 : Matrix Int) (2 * 8 + 3)
        + rd (List.replicate (8 * 8) 5 : Matrix Int) (2 * 8 + 3) :=
  (matmul_optimized_sgemm_accumulates_when_aligned (List.replicate (8 * 8) 1)
    (List.replicate (8 * 8) 1) (List.replicate (8 * 8) 5) 8 8 8 (List.length_replicate _ _)
    (List.length_replicate _ _) (List.length_replicate _ _)).1
    ⟨by decide, by decide, by decide⟩ 2 3 (by decide) (by decide)

/-! ## The row partition of `matmul_parallel_threads` -/

theorem spawn_loop_succ (m T t : Nat) :
    spawn_loop m T (t + 1)
      = { start_row := (spawn_loop m T t).start_row + rows_for_thread (m / T) (m % T) t
          threads :=
            if rows_for_thread (m / T) (m % T) t > 0 then
              (spawn_loop m T t).threads ++ [((spawn_loop m T t).start_row,
                (spawn_loop m T t).start_row + rows_for_thread (m / T) (m % T) t)]
            else (spawn_loop m T t).threads } := by
  unfold spawn_loop
  simp only [List.range_succ, List.foldl_append, List.foldl_cons, List.foldl_nil]

theorem start_row_at_succ (m T t : Nat) : start_row_at m T (t + 1) = end_row_at m T t := by
  unfold end_row_at start_row_at
  rw [spawn_loop_succ]

/-- The closed form of `start_row`: `t` chunks of the base size, plus one extra row for each
of the first `m % T` workers already passed. -/
theorem start_row_at_eq (m T t : Nat) : start_row_at m T t = t * (m / T) + min t (m % T) := by
  induction t with
  | zero => simp [start_row_at, spawn_loop]
  | succ t ih =>
    rw [start_row_at_succ, end_row_at, ih, rows_for_thread, Nat.succ_mul]
    split <;> omega

theorem start_row_at_mono (m T : Nat) {t t' : Nat} (h : t ≤ t') :
    start_row_at m T t ≤ start_row_at m T t' := by
  rw [start_row_at_eq, start_row_at_eq]
  have := Nat.mul_le_mul_right (m / T) h
  omega

theorem start_row_at_last (m T : Nat) (hT : 1 ≤ T) : start_row_at m T T = m := by
  rw [start_row_at_eq]
  have h1 := Nat.mod_lt m (by omega : 0 < T)
  have h2 := Nat.div_add_mod m T
  omega

/-- Every row below `start_row_at m T u` lies in the range of some iteration before `u`. -/
theorem row_range_exists (m T : Nat) (u i : Nat) (hi : i < start_row_at m T u) :
    ∃ t, t < u ∧ start_row_at m T t ≤ i ∧ i < end_row_at m T t := by
  induction u with
  | zero => simp [start_row_at, spawn_loop] at hi
  | succ u ih =>
    by_cases h : i < start_row_at m T u
    · obtain ⟨t, ht, h1, h2⟩ := ih h
      exact ⟨t, by omega, h1, h2⟩
    · exact ⟨u, by omega, by omega, by rw [← start_row_at_succ]; exact hi⟩

/-- A row lies in the range of at most one iteration. -/
theorem row_range_unique (m T : Nat) (i t t' : Nat)
    (h1 : start_row_at m T t ≤ i) (h2 : i < end_row_at m T t)
    (h3 : start_row_at m T t' ≤ i) (h4 : i < end_row_at m T t') : t = t' := by
  rw [← start_row_at_succ] at h2 h4
  rcases Nat.lt_trichotomy t t' with h | h | h
  · have := start_row_at_mono m T (show _ + 1 ≤ _ from h)
    omega
  · exact h
  · have := start_row_at_mono m T (show _ + 1 ≤ _ from h)
    omega

theorem spawn_loop_threads (m T u : Nat) :
    (spawn_loop m T u).threads
      = ((List.range u).filter (fun t => decide (rows_for_thread (m / T) (m % T) t > 0))).map
          (fun t => (start_row_at m T t, end_row_at m T t)) := by
  induction u with
  | zero => simp [spawn_loop]
  | succ u ih =>
    rw [spawn_loop_succ, List.range_succ, List.filter_append, List.map_append]
    by_cases h : rows_for_thread (m / T) (m % T) u > 0
    · simp only [h, if_true, ih, List.filter_cons, List.filter_nil, decide_True, List.map_cons,
        List.map_nil]
      rfl
    · simp only [h, if_false, ih, List.filter_cons, List.filter_nil, decide_False,
        List.map_nil, List.append_nil]
      simp

theorem mem_spawned_threads (m T : Nat) (w : Nat × Nat) :
    w ∈ spawned_threads m T ↔
      ∃ t, t < T ∧ start_row_at m T t < end_row_at m T t
        ∧ w = (start_row_at m T t, end_row_at m T t) := by
  unfold spawned_threads
  rw [spawn_loop_threads, List.mem_map]
  constructor
  · rintro ⟨t, ht, rfl⟩
    rw [List.mem_filter, List.mem_range, decide_eq_true_eq] at ht
    exact ⟨t, ht.1, by unfold end_row_at; omega, rfl⟩
  · rintro ⟨t, ht, hlt, rfl⟩
    refine ⟨t, ?_, rfl⟩
    rw [List.mem_filter, List.mem_range, decide_eq_true_eq]
    exact ⟨ht, by unfold end_row_at at hlt; omega⟩

/-- Every row below `m` is in the range of exactly one spawned worker. -/
theorem spawned_unique (m T : Nat) (hT : 1 ≤ T) (i : Nat) (hi : i < m) :
    ∃ t, t < T ∧ (start_row_at m T t ≤ i ∧ i < end_row_at m T t) ∧
      (start_row_at m T t, end_row_at m T t) ∈ spawned_threads m T ∧
      ∀ w, w ∈ spawned_threads m T → w.1 ≤ i → i < w.2 →
        w = (start_row_at m T t, end_row_at m T t) := by
  obtain ⟨t, ht, h1, h2⟩ := row_range_exists m T T i (by rw [start_row_at_last m T hT]; exact hi)
  refine ⟨t, ht, ⟨h1, h2⟩, (mem_spawned_threads m T _).2 ⟨t, ht, by omega, rfl⟩, ?_⟩
  intro w hw hw1 hw2
  obtain ⟨t', _, _, rfl⟩ := (mem_spawned_threads m T w).1 hw
  rw [row_range_unique m T i t t' h1 h2 hw1 hw2]

/-- Claim C11.  For every row count `m` and thread count `T ≥ 1`, the row ranges
`[start_t, end_t)` of the spawning loop are consecutive: `start_0 = 0`,
`start_{t+1} = end_t`, and `end_{T-1} = m`; every row below `m` lies in exactly one range and
in the range of exactly one spawned worker; for `m = 10`, `T = 3` the ranges are `[0,4)`,
`[4,7)`, `[7,10)`. -/
theorem row_partition_complete (m T : Nat) (hT : 1 ≤ T) :
    start_row_at m T 0 = 0 ∧
    (∀ t, t < T → start_row_at m T (t + 1) = end_row_at m T t) ∧
    end_row_at m T (T - 1) = m ∧
    (∀ i, i < m → ∃! t, t < T ∧ start_row_at m T t ≤ i ∧ i < end_row_at m T t) ∧
    (∀ i, i < m → ∃! w, w ∈ spawned_threads m T ∧ w.1 ≤ i ∧ i < w.2) ∧
    (List.range 3).map (fun t => (start_row_at 10 3 t, end_row_at 10 3 t))
      = [(0, 4), (4, 7), (7, 10)] ∧
    spawned_threads 10 3 = [(0, 4), (4, 7), (7, 10)] := by
  refine ⟨rfl, fun t _ => start_row_at_succ m T t, ?_, fun i hi => ?_, fun i hi => ?_,
    by decide, by decide⟩
  · rw [← start_row_at_succ, Nat.sub_add_cancel hT, start_row_at_last m T hT]
  · obtain ⟨t, ht, h1, h2⟩ :=
      row_range_exists m T T i (by rw [start_row_at_last m T hT]; exact hi)
    exact ⟨t, ⟨ht, h1, h2⟩, fun t' ht' => row_range_unique m T i t' t ht'.2.1 ht'.2.2 h1 h2⟩
  · obtain ⟨t, _, h, hmem, huniq⟩ := spawned_unique m T hT i hi
    exact ⟨_, ⟨hmem, h.1, h.2⟩, fun w hw => huniq w hw.1 hw.2.1 hw.2.2⟩

theorem row_partition_complete_witness :
    end_row_at 10 3 (3 - 1) = 10 ∧
    ∃! t, t < 3 ∧ start_row_at 10 3 t ≤ 5 ∧ 5 < end_row_at 10 3 t :=
  ⟨(row_partition_complete 10 3 (by decide)).2.2.1,
   (row_partition_complete 10 3 (by decide)).2.2.2.1 5 (by decide)⟩

theorem filter_range_lt (m T : Nat) (h : m ≤ T) :
    (List.range T).filter (fun t => decide (t < m)) = List.range m := by
  induction T with
  | zero =>
    have : m = 0 := by omega
    subst this
    rfl
  | succ T ih =>
    rw [List.range_succ, List.filter_append]
    by_cases hm : m ≤ T
    · rw [ih hm]
      have : ¬ T < m := by omega
      simp [this]
    · have hm' : m = T + 1 := by omega
      subst hm'
      have hall : (List.range T).filter (fun t => decide (t < T + 1)) = List.range T := by
        rw [List.filter_eq_self]
        intro t ht
        have := List.mem_range.1 ht
        simp only [decide_eq_true_eq]
        omega
      rw [hall, List.range_succ]
      simp

theorem chunk_sum (m T u : Nat) :
    ∑ t ∈ Finset.range u, (end_row_at m T t - start_row_at m T t) = start_row_at m T u := by
  induction u with
  | zero => simp [start_row_at, spawn_loop]
  | succ u ih =>
    rw [Finset.sum_range_succ, ih, start_row_at_succ]
    unfold end_row_at
    omega

/-- When there are more threads than rows, the spawned workers are `[0,1), ..., [m-1,m)`. -/
theorem spawned_threads_small (m T : Nat) (h : m < T) :
    spawned_threads m T = (List.range m).map (fun t => (t, t + 1)) := by
  unfold spawned_threads
  rw [spawn_loop_threads]
  have hdiv : m / T = 0 := Nat.div_eq_of_lt h
  have hmod : m % T = m := Nat.mod_eq_of_lt h
  have hf : (fun t => decide (rows_for_thread (m / T) (m % T) t > 0))
      = (fun t => decide (t < m)) := by
    funext t
    rw [hdiv, hmod]
    unfold rows_for_thread
    by_cases ht : t < m <;> simp [ht]
  rw [hf, filter_range_lt m T (by omega)]
  apply List.map_congr_left
  intro t ht
  have ht' := List.mem_range.1 ht
  unfold end_row_at
  rw [start_row_at_eq, hdiv, hmod]
  unfold rows_for_thread
  rw [if_pos ht']
  simp only [Nat.mul_zero, Nat.zero_add, Prod.mk.injEq]
  omega

/-- When there are at least as many rows as threads, every iteration spawns a worker. -/
theorem spawned_threads_length_large (m T : Nat) (hT : 1 ≤ T) (h : T ≤ m) :
    (spawned_threads m T).length = T := by
  unfold spawned_threads
  rw [spawn_loop_threads, List.length_map, List.filter_eq_self.2, List.length_range]
  intro t _
  have : 0 < m / T := Nat.div_pos h (by omega)
  simp only [decide_eq_true_eq]
  unfold rows_for_thread
  omega

/-- Claim C14.  For every `m` and thread count `T ≥ 1`, iteration `t < T` assigns exactly
`m / T + (1 if t < m % T else 0)` rows; two chunk sizes differ by at most one, the larger
chunks come first, the sizes sum to `m`, `min m T` workers are spawned, and when `T > m` the
spawned workers are the `m` one-row ranges `[0,1), ..., [m-1,m)`. -/
theorem near_equal_chunks (m T : Nat) (hT : 1 ≤ T) :
    (∀ t, t < T →
      end_row_at m T t - start_row_at m T t = m / T + (if t < m % T then 1 else 0)) ∧
    (∀ t t', t < T → t' < T →
      end_row_at m T t - start_row_at m T t ≤ end_row_at m T t' - start_row_at m T t' + 1) ∧
    (∀ t t', t ≤ t' → t' < T →
      end_row_at m T t' - start_row_at m T t' ≤ end_row_at m T t - start_row_at m T t) ∧
    ∑ t ∈ Finset.range T, (end_row_at m T t - start_row_at m T t) = m ∧
    (spawned_threads m T).length = min m T ∧
    (m < T → spawned_threads m T = (List.range m).map (fun t => (t, t + 1))) := by
  have size : ∀ t, end_row_at m T t - start_row_at m T t
      = m / T + (if t < m % T then 1 else 0) := by
    intro t
    unfold end_row_at rows_for_thread
    exact Nat.add_sub_cancel_left _ _
  refine ⟨fun t _ => size t, fun t t' _ _ => ?_, fun t t' h _ => ?_, ?_, ?_,
    spawned_threads_small m T⟩
  · rw [size t, size t']
    split <;> split <;> omega
  · rw [size t, size t']
    split <;> split <;> omega
  · rw [chunk_sum, start_row_at_last m T hT]
  · by_cases h : T ≤ m
    · rw [spawned_threads_length_large m T hT h]; omega
    · rw [spawned_threads_small m T (by omega), List.length_map, List.length_range]; omega

theorem near_equal_chunks_witness :
    spawned_threads 2 5 = (List.range 2).map (fun t => (t, t + 1)) :=
  (near_equal_chunks 2 5 (by decide)).2.2.2.2.2 (by decide)

/-! ## The workers of `matmul_parallel_threads` -/

theorem worker_pw [Zero R] [Add R] [Mul R] (A B : Matrix R) (L n p s e : Nat) :
    PW L (fun C => worker A B C n p s e)
      (fun q c => (List.range' s (e - s)).foldl (fun c i => (List.range n).foldl (fun c k =>
        (List.range p).foldl (fun c j =>
          if q = i * p + j then c + rd A (i * n + k) * rd B (k * p + j) else c) c) c) c) := by
  unfold worker
  apply PW.foldl
  intro i _
  apply PW.foldl
  intro k _
  apply PW.foldl
  intro j _
  exact PW.set L (i * p + j) (fun c => c + rd A (i * n + k) * rd B (k * p + j))

/-- A worker seen from the entry `(i0, j0)`: the full accumulation when the row is in its
range, nothing otherwise. -/
theorem worker_fold [Zero R] [Add R] [Mul R] (A B : Matrix R) (n p i0 j0 s e : Nat)
    (hj0 : j0 < p) (c : R) :
    (List.range' s (e - s)).foldl (fun c i => (List.range n).foldl (fun c k =>
      (List.range p).foldl (fun c j =>
        if i0 * p + j0 = i * p + j then c + rd A (i * n + k) * rd B (k * p + j) else c) c) c) c
    = if s ≤ i0 ∧ i0 < e then dotAcc A B n p i0 j0 (List.range n) c else c := by
  have inner : ∀ (t k : Nat) (c : R), (List.range p).foldl (fun c j =>
      if i0 * p + j0 = t * p + j then c + rd A (t * n + k) * rd B (k * p + j) else c) c
      = if t = i0 then c + rd A (t * n + k) * rd B (k * p + j0) else c := by
    intro t k c
    rw [fold_col p i0 j0 t hj0 (List.range p) (List.nodup_range p)
      (fun x hx => List.mem_range.1 hx) (fun j c => c + rd A (t * n + k) * rd B (k * p + j))]
    simp [hj0]
  simp only [inner, foldl_guard]
  rw [foldl_select (List.range' s (e - s)) (List.nodup_range' _ _) (fun t => t = i0) True
    (fun t c => (List.range n).foldl (fun c k => c + rd A (t * n + k) * rd B (k * p + j0)) c)
    c i0 (fun t _ => by simp)]
  have hmem : (i0 ∈ List.range' s (e - s) ∧ True) ↔ (s ≤ i0 ∧ i0 < e) := by
    rw [mem_chunk, and_true]; omega
  simp only [hmem, dotAcc]

theorem run_workers_pw [Zero R] [Add R] [Mul R] (A B : Matrix R) (L n p : Nat)
    (order : List (Nat × Nat)) :
    PW L (fun C => run_workers A B C n p order)
      (fun q c => order.foldl (fun c w =>
        (List.range' w.1 (w.2 - w.1)).foldl (fun c i => (List.range n).foldl (fun c k =>
          (List.range p).foldl (fun c j =>
            if q = i * p + j then c + rd A (i * n + k) * rd B (k * p + j) else c) c) c) c)
        c) := by
  unfold run_workers
  apply PW.foldl
  intro w _
  exact worker_pw A B L n p w.1 w.2

theorem run_workers_entry [Zero R] [Add R] [Mul R] (A B C : Matrix R) (m n p : Nat)
    (order : List (Nat × Nat)) (hC : C.length = m * p) (i0 j0 : Nat) (hi0 : i0 < m)
    (hj0 : j0 < p) :
    rd (run_workers A B C n p order) (i0 * p + j0)
      = order.foldl (fun c w =>
          if w.1 ≤ i0 ∧ i0 < w.2 then dotAcc A B n p i0 j0 (List.range n) c else c)
        (rd C (i0 * p + j0)) := by
  rw [(run_workers_pw A B (m * p) n p order C hC).2 _ (idx_lt hi0 hj0)]
  apply List.foldl_ext
  intro c w _
  exact worker_fold A B n p i0 j0 w.1 w.2 hj0 c

theorem spawned_threads_nodup (m T : Nat) : (spawned_threads m T).Nodup := by
  unfold spawned_threads
  rw [spawn_loop_threads]
  apply List.Nodup.map_on
  · intro t ht t' ht' h
    rw [List.mem_filter, decide_eq_true_eq] at ht ht'
    rw [Prod.mk.injEq] at h
    have h1 : start_row_at m T t < end_row_at m T t := by unfold end_row_at; omega
    have h2 : start_row_at m T t' < end_row_at m T t' := by unfold end_row_at; omega
    exact row_range_unique m T (start_row_at m T t) t t' (Nat.le_refl _) h1 (by omega)
      (by omega)
  · exact (List.nodup_range T).filter _

/-- The workers, run to completion one after the other in any order, give the result of the
loop-order kernel. -/
theorem run_workers_perm [Zero R] [Add R] [Mul R] (A B C : Matrix R) (m n p T : Nat)
    (hT : 1 ≤ T) (hC : C.length = m * p) (order : List (Nat × Nat))
    (hperm : order.Perm (spawned_threads m T)) :
    run_workers A B C n p order = matmul_loop_reorder A B C m n p := by
  apply ext_entries ((run_workers_pw A B (m * p) n p order C hC).1)
    (matmul_loop_reorder_length A B C m n p hC)
  intro i j hi hj
  rw [run_workers_entry A B C m n p order hC i j hi hj,
    matmul_loop_reorder_entry A B C m n p hC i j hi hj]
  obtain ⟨t, _, hin, hmem, huniq⟩ := spawned_unique m T hT i hi
  exact foldl_unique order (hperm.nodup_iff.2 (spawned_threads_nodup m T))
    (fun w => w.1 ≤ i ∧ i < w.2) (fun _ c => dotAcc A B n p i j (List.range n) c) _
    (start_row_at m T t, end_row_at m T t) (hperm.mem_iff.2 hmem)
    (fun w hw => ⟨fun h => huniq w (hperm.mem_iff.1 hw) h.1 h.2, fun h => by rw [h]; exact hin⟩)

theorem num_threads_of_pos (hw : Nat) : 1 ≤ num_threads_of hw := by
  unfold num_threads_of
  split <;> omega

/-- Claim C15.  With each worker modelled as the loop-order accumulation over its own row
range, for every thread count `T ≥ 1`, every `m`, `n`, `p` and every prior `C`: running the
spawned workers in any order (any permutation of the spawned list) gives the buffer of
`matmul_loop_reorder`, and so does `matmul_parallel_threads` for every value of the hardware
thread count; a worker leaves alone every entry whose row is outside its range.  No property
of `+` and `*` is used. -/
theorem parallel_threads_order_independent [Zero R] [Add R] [Mul R] (A B C : Matrix R)
    (m n p T : Nat) (hT : 1 ≤ T) (_hA : A.length = m * n) (_hB : B.length = n * p)
    (hC : C.length = m * p) :
    (∀ order : List (Nat × Nat), order.Perm (spawned_threads m T) →
      run_workers A B C n p order = matmul_loop_reorder A B C m n p) ∧
    (∀ hw : Nat, matmul_parallel_threads hw A B C m n p = matmul_loop_reorder A B C m n p) ∧
    (∀ s e i j, i < m → j < p → ¬ (s ≤ i ∧ i < e) →
      rd (worker A B C n p s e) (i * p + j) = rd C (i * p + j)) := by
  refine ⟨fun order hperm => run_workers_perm A B C m n p T hT hC order hperm, fun hw => ?_,
    fun s e i j hi hj hout => ?_⟩
  · exact run_workers_perm A B C m n p (num_threads_of hw) (num_threads_of_pos hw) hC _
      (List.Perm.refl _)
  · rw [(worker_pw A B (m * p) n p s e C hC).2 _ (idx_lt hi hj)]
    exact (worker_fold A B n p i j s e hj _).trans (if_neg hout)

theorem parallel_threads_order_independent_witness :
    run_workers [1, 2, 3] [4, 5] [6, 7, 8, 9, 10, 11] 1 2 [(2, 3), (0, 2)]
      = (matmul_loop_reorder [1, 2, 3] [4, 5] [6, 7, 8, 9, 10, 11] 3 1 2 : Matrix Int) :=
  (parallel_threads_order_independent [1, 2, 3] [4, 5] [6, 7, 8, 9, 10, 11] 3 1 2 2
    (by decide) rfl rfl rfl).1 [(2, 3), (0, 2)]
    ((show spawned_threads 3 2 = [(0, 2), (2, 3)] from by decide) ▸ List.Perm.swap _ _ [])

/-! ## `verify_matrix` -/

theorem verify_loop_iff [LinearOrderedField R] (expected actual : Matrix R) (tol : R)
    (l : List Nat) :
    verify_loop expected actual tol l = true
      ↔ ∀ i, i ∈ l → |rd expected i - rd actual i| ≤ tol := by
  induction l with
  | nil => simp [verify_loop]
  | cons i rest ih =>
    unfold verify_loop
    by_cases h : |rd expected i - rd actual i| > tol
    · rw [if_pos h]
      constructor
      · intro hf
        exact absurd hf (by decide)
      · intro hall
        exact absurd (hall i (List.mem_cons_self _ _)) (not_le.2 h)
    · rw [if_neg h, ih]
      constructor
      · intro hall j hj
        rcases List.mem_cons.1 hj with rfl | hj'
        · exact not_lt.1 h
        · exact hall j hj'
      · intro hall j hj
        exact hall j (List.mem_cons_of_mem _ hj)

/-- Claim C12.  Over an ordered field, `verify_matrix expected actual tol` returns `true`
exactly when the two buffers have the same length and `|expected[i] - actual[i]| ≤ tol` at
every index; it returns `false` whenever the lengths differ, and differences exactly equal to
`tol` are accepted. -/
theorem verify_matrix_iff [LinearOrderedField R] (expected actual : Matrix R) (tol : R) :
    (verify_matrix expected actual tol = true ↔
      expected.length = actual.length ∧
        ∀ i, i < expected.length → |rd expected i - rd actual i| ≤ tol) ∧
    (expected.length ≠ actual.length → verify_matrix expected actual tol = false) ∧
    (expected.length = actual.length →
      (∀ i, i < expected.length → |rd expected i - rd actual i| = tol) →
      verify_matrix expected actual tol = true) := by
  have main : verify_matrix expected actual tol = true ↔
      expected.length = actual.length ∧
        ∀ i, i < expected.length → |rd expected i - rd actual i| ≤ tol := by
    unfold verify_matrix
    by_cases h : expected.length ≠ actual.length
    · rw [if_pos h]
      constructor
      · intro hf
        exact absurd hf (by decide)
      · intro hall
        exact absurd hall.1 h
    · rw [if_neg h, verify_loop_iff]
      constructor
      · intro hall
        exact ⟨not_not.1 h, fun i hi => hall i (List.mem_range.2 hi)⟩
      · intro hall i hi
        exact hall.2 i (List.mem_range.1 hi)
  refine ⟨main, fun h => ?_, fun hlen hall => ?_⟩
  · cases hv : verify_matrix expected actual tol
    · rfl
    · exact absurd (main.1 hv).1 h
  · exact main.2 ⟨hlen, fun i hi => le_of_eq (hall i hi)⟩

/-! ## The shape of the output -/

theorem strassen_recursive_length [Zero R] [Add R] [Sub R] [Mul R] (A B C : Matrix R)
    (size : Nat) (hC : C.length = size * size) :
    (strassen_recursive A B C size).length = size * size := by
  by_cases h : size ≤ 64
  · rw [strassen_base_eq A B C size h]
    exact matmul_loop_reorder_length A B C size size size hC
  · rw [strassen_recursive, if_neg h]
    lift_lets
    extract_lets ns sl Q Z T1a T2a M1 T1b M2 T2c M3 T2d M4 T1e M5 T1f T2f M6 T1g T2g M7
      C11 C12 C21 C22
    exact combine_length C11 C12 C21 C22 C size ns hC

theorem matmul_strassen_length [Zero R] [Add R] [Sub R] [Mul R] (A B C : Matrix R)
    (m n p : Nat) (hC : C.length = m * p) : (matmul_strassen A B C m n p).length = m * p := by
  by_cases h : m ≠ n ∨ n ≠ p
  · rw [matmul_strassen_fallback A B C m n p h]
    exact matmul_loop_reorder_length A B C m n p hC
  · have hmn : m = n := by omega
    have hnp : n = p := by omega
    subst hmn
    subst hnp
    rw [matmul_strassen_square]
    exact strassen_recursive_length A B C m hC

theorem matmul_optimized_sgemm_length [Zero R] [Add R] [Mul R] (A B C : Matrix R)
    (m n p : Nat) (hC : C.length = m * p) :
    (matmul_optimized_sgemm A B C m n p).length = m * p := by
  have hb := (sgemm_blocked_pws A B m n p _ (sgemm_init_inv C) hC).2.1
  unfold matmul_optimized_sgemm
  by_cases h : m % 8 ≠ 0 ∨ n % 8 ≠ 0 ∨ p % 8 ≠ 0
  · simp only [if_pos h]
    exact matmul_naive_length A B _ m n p hb
  · simp only [if_neg h]
    exact hb

/-- Claim C13.  For every input satisfying the length preconditions, each of `matmul_naive`,
`matmul_loop_reorder`, `matmul_tiled`, `matmul_simd`, `matmul_optimized_sgemm` and
`matmul_strassen` returns a buffer of length `m * p`, the length of the `C` passed in. -/
theorem kernels_keep_shape [Zero R] [Add R] [Sub R] [Mul R] (A B C : Matrix R) (m n p : Nat)
    (_hA : A.length = m * n) (_hB : B.length = n * p) (hC : C.length = m * p) :
    ((matmul_naive A B C m n p).length = m * p ∧
     (matmul_loop_reorder A B C m n p).length = m * p ∧
     (matmul_tiled A B C m n p).length = m * p ∧
     (matmul_simd A B C m n p).length = m * p ∧
     (matmul_optimized_sgemm A B C m n p).length = m * p ∧
     (matmul_strassen A B C m n p).length = m * p) ∧
    ((matmul_naive A B C m n p).length = C.length ∧
     (matmul_loop_reorder A B C m n p).length = C.length ∧
     (matmul_tiled A B C m n p).length = C.length ∧
     (matmul_simd A B C m n p).length = C.length ∧
     (matmul_optimized_sgemm A B C m n p).length = C.length ∧
     (matmul_strassen A B C m n p).length = C.length) := by
  have h := And.intro (matmul_naive_length A B C m n p hC)
    (And.intro (matmul_loop_reorder_length A B C m n p hC)
    (And.intro (matmul_tiled_length A B C m n p hC)
    (And.intro (matmul_simd_length A B C m n p hC)
    (And.intro (matmul_optimized_sgemm_length A B C m n p hC)
      (matmul_strassen_length A B C m n p hC)))))
  refine ⟨h, ?_⟩
  rw [hC]
  exact h

theorem kernels_keep_shape_witness :
    (matmul_strassen (List.replicate (65 * 65) 1) (List.replicate (65 * 65) 1)
      (List.replicate (65 * 65) 2) 65 65 65 : Matrix Int).length = 65 * 65 ∧
    (matmul_optimized_sgemm (List.replicate (7 * 7) 1) (List.replicate (7 * 7) 1)
      (List.replicate (7 * 7) 2) 7 7 7 : Matrix Int).length = 7 * 7 :=
  ⟨(kernels_keep_shape (List.replicate (65 * 65) 1) (List.replicate (65 * 65) 1)
      (List.replicate (65 * 65) 2) 65 65 65 (List.length_replicate _ _)
      (List.length_replicate _ _) (List.length_replicate _ _)).1.2.2.2.2.2,
   (kernels_keep_shape (List.replicate (7 * 7) 1) (List.replicate (7 * 7) 1)
      (List.replicate (7 * 7) 2) 7 7 7 (List.length_replicate _ _)
      (List.length_replicate _ _) (List.length_replicate _ _)).1.2.2.2.2.1⟩

/-! ## The base case, the formulas and the termination of `strassen_recursive` -/

theorem strassen_unfold [Zero R] [Add R] [Sub R] [Mul R] (A B C : Matrix R) (size : Nat)
    (h : ¬ size ≤ 64) :
    strassen_recursive A B C size
      = strassen_level (fun X Y Z => strassen_recursive X Y Z (size / 2)) A B C size := by
  rw [strassen_recursive, if_neg h]
  rfl

theorem strassen_descent_base (fuel : Nat) (s : Int) (h : s ≤ 64) :
    strassen_descent (fuel + 1) s = some 0 := by
  rw [strassen_descent, if_pos h]

theorem strassen_descent_exists (n : Nat) :
    ∀ s : Int, s.toNat ≤ n → ∃ d : Nat, ∀ fuel, d < fuel → strassen_descent fuel s = some d := by
  induction n with
  | zero =>
    intro s hs
    refine ⟨0, fun fuel hf => ?_⟩
    obtain ⟨f, rfl⟩ : ∃ f, fuel = f + 1 := ⟨fuel - 1, by omega⟩
    exact strassen_descent_base f s (by omega)
  | succ n ih =>
    intro s hs
    by_cases h : s ≤ 64
    · refine ⟨0, fun fuel hf => ?_⟩
      obtain ⟨f, rfl⟩ : ∃ f, fuel = f + 1 := ⟨fuel - 1, by omega⟩
      exact strassen_descent_base f s h
    · obtain ⟨d, hd⟩ := ih (s / 2) (by omega)
      refine ⟨d + 1, fun fuel hf => ?_⟩
      obtain ⟨f, rfl⟩ : ∃ f, fuel = f + 1 := ⟨fuel - 1, by omega⟩
      rw [strassen_descent, if_neg h, hd f (by omega)]
      rfl

/-- Claim C18.  `strassen_recursive` is total: for every side length it returns a buffer of
the length of `C`; at `size ≤ 64` it is the triple loop, with no recursive call; at
`size > 64` every recursive call is made on `size / 2`, and `0 < size / 2 < size`.  On C++
`int` sizes the same descent reaches the base case after finitely many halvings for every
integer, a non-positive one included (depth 0). -/
theorem strassen_recursion_terminates [Zero R] [Add R] [Sub R] [Mul R] :
    (∀ (A B C : Matrix R) (size : Nat), C.length = size * size →
      (strassen_recursive A B C size).length = size * size) ∧
    (∀ (A B C : Matrix R) (size : Nat), size ≤ 64 →
      strassen_recursive A B C size = matmul_loop_reorder A B C size size size) ∧
    (∀ (A B C : Matrix R) (size : Nat), 64 < size →
      (0 < size / 2 ∧ size / 2 < size) ∧
      strassen_recursive A B C size
        = strassen_level (fun X Y Z => strassen_recursive X Y Z (size / 2)) A B C size) ∧
    (∀ s : Int, 64 < s → 0 < s / 2 ∧ s / 2 < s) ∧
    (∀ s : Int, ∃ d : Nat, ∀ fuel, d < fuel → strassen_descent fuel s = some d) ∧
    (∀ s : Int, s ≤ 64 → ∀ fuel, strassen_descent (fuel + 1) s = some 0) := by
  refine ⟨fun A B C size hC => strassen_recursive_length A B C size hC,
    fun A B C size h => strassen_base_eq A B C size h,
    fun A B C size h => ⟨by omega, strassen_unfold A B C size (by omega)⟩,
    fun s h => by omega,
    fun s => strassen_descent_exists s.toNat s (Nat.le_refl _),
    fun s h fuel => strassen_descent_base fuel s h⟩

/-! ## The packing contract and the micro-kernel's tile -/

theorem rd_of_length_le [Zero R] (C : Matrix R) (x : Nat) (h : C.length ≤ x) : rd C x = 0 := by
  unfold rd
  exact List.getD_eq_default _ _ h

/-- A pointwise update that acts as the identity at `x` leaves the entry at `x` alone, inside
the buffer or beyond its end. -/
theorem PW.frame [Zero R] {L : Nat} {U : Matrix R → Matrix R} {u : Nat → R → R}
    (hU : PW L U u) (C : Matrix R) (hC : C.length = L) (x : Nat)
    (hx : x < L → u x (rd C x) = rd C x) : rd (U C) x = rd C x := by
  by_cases h : x < L
  · rw [(hU C hC).2 x h, hx h]
  · rw [rd_of_length_le _ _ (by rw [(hU C hC).1]; omega), rd_of_length_le _ _ (by omega)]

/-- The fill loop nest writes nothing outside `[off, off + m*p)`. -/
theorem fill_rect_frame [Zero R] (L m p off : Nat) (f : Nat → Nat → R) (C : Matrix R)
    (hC : C.length = L) (x : Nat) (hx : x < off ∨ off + m * p ≤ x) :
    rd ((List.range m).foldl (fun C i =>
      (List.range p).foldl (fun C j => C.set (off + (i * p + j)) (f i j)) C) C) x = rd C x := by
  have hpw : PW L (fun C : Matrix R => (List.range m).foldl (fun C i =>
        (List.range p).foldl (fun C j => C.set (off + (i * p + j)) (f i j)) C) C)
      (fun q c => (List.range m).foldl (fun c i => (List.range p).foldl (fun c j =>
        if q = off + (i * p + j) then f i j else c) c) c) := by
    apply PW.foldl
    intro i _
    apply PW.foldl
    intro j _
    exact PW.set L (off + (i * p + j)) (fun _ => f i j)
  apply hpw.frame C hC x
  intro _
  exact fold2_none _ _ _ (fun i hi j hj c => by
    have := idx_lt (List.mem_range.1 hi) (List.mem_range.1 hj)
    rw [if_neg (by omega)]) _

/-- Claim C19.  For every depth `k` and parent strides `lda`, `ldb`, with the packed panel
fitting in its scratch buffer: `pack_A` writes `A_packed[i*k + q] = A[i*lda + q]` for all
`i < 8`, `q < k`, and `pack_B` writes `B_packed[q*8 + j] = B[q*ldb + j]` for all `q < k`,
`j < 8` (offsets relative to the pointers passed); both keep the length of the scratch buffer
and leave every scratch entry outside the `8*k` packed ones unchanged. -/
theorem packing_contract [Zero R] (k lda ldb : Nat) (A B A_packed B_packed : Matrix R)
    (aoff boff pa pb : Nat) (hfitA : pa + 8 * k ≤ A_packed.length)
    (hfitB : pb + k * 8 ≤ B_packed.length) :
    ((pack_A k A aoff lda A_packed pa).length = A_packed.length ∧
     (∀ i q, i < 8 → q < k →
       rd (pack_A k A aoff lda A_packed pa) (pa + (i * k + q)) = rd A (aoff + (i * lda + q))) ∧
     (∀ x, x < pa ∨ pa + 8 * k ≤ x →
       rd (pack_A k A aoff lda A_packed pa) x = rd A_packed x)) ∧
    ((pack_B k B boff ldb B_packed pb).length = B_packed.length ∧
     (∀ q j, q < k → j < 8 →
       rd (pack_B k B boff ldb B_packed pb) (pb + (q * 8 + j)) = rd B (boff + (q * ldb + j))) ∧
     (∀ x, x < pb ∨ pb + k * 8 ≤ x →
       rd (pack_B k B boff ldb B_packed pb) x = rd B_packed x)) := by
  have hA := pack_A_spec k A aoff lda A_packed pa hfitA
  have hB := pack_B_spec k B boff ldb B_packed pb hfitB
  refine ⟨⟨hA.1, hA.2, fun x hx => ?_⟩, ⟨hB.1, hB.2, fun x hx => ?_⟩⟩
  · exact fill_rect_frame A_packed.length 8 k pa (fun i p => rd A (aoff + (i * lda + p)))
      A_packed rfl x hx
  · exact fill_rect_frame B_packed.length k 8 pb (fun p j => rd B (boff + (p * ldb + j)))
      B_packed rfl x hx

theorem packing_contract_witness :
    rd (pack_A 2 ([1, 2, 3, 4, 5, 6, 7, 8, 9, 10, 11, 12, 13, 14, 15, 16, 17, 18, 19, 20, 21, 22,
        23, 24] : Matrix Int) 1 3 (List.replicate 20 0) 0) (0 + (3 * 2 + 1))
      = rd ([1, 2, 3, 4, 5, 6, 7, 8, 9, 10, 11, 12, 13, 14, 15, 16, 17, 18, 19, 20, 21, 22,
        23, 24] : Matrix Int) (1 + (3 * 3 + 1)) :=
  (packing_contract 2 3 3 [1, 2, 3, 4, 5, 6, 7, 8, 9, 10, 11, 12, 13, 14, 15, 16, 17, 18, 19,
    20, 21, 22, 23, 24] [] (List.replicate 20 0) (List.replicate 20 0) 1 0 0 0
    (by decide) (by decide)).1.2.1 3 1 (by decide) (by decide)

/-- Claim C20.  Over exact arithmetic, for every depth `k` and output stride `ldc ≥ 8`, with
the 8 rows of the tile inside the buffer: `kernel_8x8` keeps the length of `C`, sets
`C[i*ldc + j]` to its prior value plus the sum over `q < k` of `Ap[i*k + q] * Bp[q*8 + j]` for
all `i, j < 8` (offsets relative to the pointers passed), and leaves every entry outside that
8-by-8 tile unchanged. -/
theorem kernel_8x8_tile_update [Semiring R] (k ldc : Nat) (hldc : 8 ≤ ldc)
    (Ap Bp C : Matrix R) (aoff boff coff : Nat) (hfit : coff + 7 * ldc + 8 ≤ C.length) :
    (kernel_8x8 k Ap aoff Bp boff C coff ldc).length = C.length ∧
    (∀ i j, i < 8 → j < 8 →
      rd (kernel_8x8 k Ap aoff Bp boff C coff ldc) (coff + (i * ldc + j))
        = rd C (coff + (i * ldc + j))
          + ∑ q ∈ Finset.range k, rd Ap (aoff + (i * k + q)) * rd Bp (boff + (q * 8 + j))) ∧
    (∀ x, (¬ ∃ i j, i < 8 ∧ j < 8 ∧ x = coff + (i * ldc + j)) →
      rd (kernel_8x8 k Ap aoff Bp boff C coff ldc) x = rd C x) := by
  have hpw := kernel_8x8_pw C.length k Ap aoff Bp boff coff ldc
  refine ⟨(hpw C rfl).1, fun i j hi hj => ?_, fun x hx => ?_⟩
  · have hrow : i * ldc ≤ 7 * ldc := Nat.mul_le_mul_right ldc (by omega)
    rw [(hpw C rfl).2 _ (by omega)]
    show (List.range 8).foldl (fun c r =>
      if coff + r * ldc ≤ coff + (i * ldc + j) ∧ coff + (i * ldc + j) < coff + r * ldc + 8 then
        (List.range k).foldl (fun acc t => rd Ap (aoff + (r * k + t))
          * rd Bp (boff + t * 8 + (coff + (i * ldc + j) - (coff + r * ldc))) + acc)
          (rd C (coff + (i * ldc + j)))
      else c) (rd C (coff + (i * ldc + j))) = _
    rw [foldl_select (List.range 8) (List.nodup_range 8)
      (fun r => coff + r * ldc ≤ coff + (i * ldc + j)
        ∧ coff + (i * ldc + j) < coff + r * ldc + 8) True
      (fun r _ => (List.range k).foldl (fun acc t => rd Ap (aoff + (r * k + t))
          * rd Bp (boff + t * 8 + (coff + (i * ldc + j) - (coff + r * ldc))) + acc)
          (rd C (coff + (i * ldc + j)))) _ i
      (fun r _ => by
        have hw := @window_iff ldc i j r 0 8 (by omega) (by omega)
        show _ ∧ _ ↔ _
        constructor
        · intro h
          exact ⟨(hw.1 ⟨by omega, by omega⟩).1, trivial⟩
        · rintro ⟨rfl, -⟩
          omega)]
    rw [if_pos ⟨List.mem_range.2 hi, trivial⟩, fma_fold_sum]
    congr 1
    apply Finset.sum_congr rfl
    intro t _
    have e : boff + t * 8 + (coff + (i * ldc + j) - (coff + i * ldc)) = boff + (t * 8 + j) := by
      omega
    rw [e]
  · apply hpw.frame C rfl x
    intro _
    apply foldl_none
    intro r hr hw
    have hr' := List.mem_range.1 hr
    exact hx ⟨r, x - (coff + r * ldc), hr', by omega, by omega⟩

theorem kernel_8x8_tile_update_witness :
    rd (kernel_8x8 1 (List.replicate 8 2) 0 (List.replicate 8 3) 0 (List.replicate 64 5) 0 8 :
        Matrix Int) (0 + (2 * 8 + 3))
      = rd (List.replicate 64 5 : Matrix Int) (0 + (2 * 8 + 3))
        + ∑ q ∈ Finset.range 1, rd (List.replicate 8 2 : Matrix Int) (0 + (2 * 1 + q))
            * rd (List.replicate 8 3 : Matrix Int) (0 + (q * 8 + 3)) :=
  (kernel_8x8_tile_update 1 8 (by decide) (List.replicate 8 2) (List.replicate 8 3)
    (List.replicate 64 5) 0 0 0 (by decide)).2.1 2 3 (by decide) (by decide)

/-- Claim C21. Same summation order as the reference, for arbitrary `+` and `*` (no
associativity, commutativity or distributivity assumed): started from a zeroed `C`, every
output element `(i,j)` of `matmul_naive`, of `matmul_loop_reorder` and of `matmul_tiled` is the
same left-to-right fold `((0 + A[i,0]*B[0,j]) + A[i,1]*B[1,j]) + ...` over `k = 0..n-1`, and
the three output buffers are equal. -/
theorem same_summation_order [Zero R] [Add R] [Mul R] (A B : Matrix R) (m n p : Nat)
    (_hA : A.length = m * n) (_hB : B.length = n * p) :
    (∀ i j, i < m → j < p →
      rd (matmul_naive A B (zeros (m * p)) m n p) (i * p + j)
          = (List.range n).foldl (fun acc k => acc + rd A (i * n + k) * rd B (k * p + j)) 0
      ∧ rd (matmul_loop_reorder A B (zeros (m * p)) m n p) (i * p + j)
          = (List.range n).foldl (fun acc k => acc + rd A (i * n + k) * rd B (k * p + j)) 0
      ∧ rd (matmul_tiled A B (zeros (m * p)) m n p) (i * p + j)
          = (List.range n).foldl (fun acc k => acc + rd A (i * n + k) * rd B (k * p + j)) 0)
    ∧ matmul_loop_reorder A B (zeros (m * p)) m n p = matmul_naive A B (zeros (m * p)) m n p
    ∧ matmul_tiled A B (zeros (m * p)) m n p = matmul_naive A B (zeros (m * p)) m n p := by
  have hZ : (zeros (m * p) : Matrix R).length = m * p := length_zeros _
  have hN := fun i j hi hj => matmul_naive_entry A B (zeros (m * p)) m n p hZ i j hi hj
  have hL : ∀ i j, i < m → j < p →
      rd (matmul_loop_reorder A B (zeros (m * p)) m n p) (i * p + j)
        = dotAcc A B n p i j (List.range n) 0 := by
    intro i j hi hj
    rw [matmul_loop_reorder_entry A B (zeros (m * p)) m n p hZ i j hi hj, rd_zeros]
  have hT : ∀ i j, i < m → j < p →
      rd (matmul_tiled A B (zeros (m * p)) m n p) (i * p + j)
        = dotAcc A B n p i j (List.range n) 0 := by
    intro i j hi hj
    rw [matmul_tiled_entry A B (zeros (m * p)) m n p hZ i j hi hj, rd_zeros]
  refine ⟨fun i j hi hj => ⟨hN i j hi hj, hL i j hi hj, hT i j hi hj⟩, ?_, ?_⟩
  · exact ext_entries (matmul_loop_reorder_length A B _ m n p hZ)
      (matmul_naive_length A B _ m n p hZ)
      (fun i j hi hj => (hL i j hi hj).trans (hN i j hi hj).symm)
  · exact ext_entries (matmul_tiled_length A B _ m n p hZ)
      (matmul_naive_length A B _ m n p hZ)
      (fun i j hi hj => (hT i j hi hj).trans (hN i j hi hj).symm)

/-- Instance of `same_summation_order` on a 2x2 product of integer matrices. -/
theorem same_summation_order_witness :
    ([1, 2, 3, 4] : Matrix Int).length = 2 * 2 ∧ ([5, 6, 7, 8] : Matrix Int).length = 2 * 2 ∧
    ((∀ i j, i < 2 → j < 2 →
      rd (matmul_naive ([1, 2, 3, 4] : Matrix Int) [5, 6, 7, 8] (zeros (2 * 2)) 2 2 2)
            (i * 2 + j)
          = (List.range 2).foldl (fun acc k =>
              acc + rd ([1, 2, 3, 4] : Matrix Int) (i * 2 + k) * rd [5, 6, 7, 8] (k * 2 + j)) 0
      ∧ rd (matmul_loop_reorder ([1, 2, 3, 4] : Matrix Int) [5, 6, 7, 8] (zeros (2 * 2)) 2 2 2)
            (i * 2 + j)
          = (List.range 2).foldl (fun acc k =>
              acc + rd ([1, 2, 3, 4] : Matrix Int) (i * 2 + k) * rd [5, 6, 7, 8] (k * 2 + j)) 0
      ∧ rd (matmul_tiled ([1, 2, 3, 4] : Matrix Int) [5, 6, 7, 8] (zeros (2 * 2)) 2 2 2)
            (i * 2 + j)
          = (List.range 2).foldl (fun acc k =>
              acc + rd ([1, 2, 3, 4] : Matrix Int) (i * 2 + k) * rd [5, 6, 7, 8] (k * 2 + j)) 0)
    ∧ matmul_loop_reorder ([1, 2, 3, 4] : Matrix Int) [5, 6, 7, 8] (zeros (2 * 2)) 2 2 2
        = matmul_naive [1, 2, 3, 4] [5, 6, 7, 8] (zeros (2 * 2)) 2 2 2
    ∧ matmul_tiled ([1, 2, 3, 4] : Matrix Int) [5, 6, 7, 8] (zeros (2 * 2)) 2 2 2
        = matmul_naive [1, 2, 3, 4] [5, 6, 7, 8] (zeros (2 * 2)) 2 2 2) :=
  ⟨rfl, rfl, same_summation_order [1, 2, 3, 4] [5, 6, 7, 8] 2 2 2 rfl rfl⟩



theorem partition_congr [Zero R] (A B A' B' : Matrix R) (size h : Nat)
    (hA : ∀ i j, i < h + h → j < h + h → rd A' (i * size + j) = rd A (i * size + j))
    (hB : ∀ i j, i < h + h → j < h + h → rd B' (i * size + j) = rd B (i * size + j))
    (Q : Quadrants R) : partition A' B' size h Q = partition A B size h Q := by
  unfold partition
  refine List.foldl_ext _ _ _ (fun Q i hi => ?_)
  refine List.foldl_ext _ _ _ (fun Q j hj => ?_)
  have hi := List.mem_range.1 hi
  have hj := List.mem_range.1 hj
  rw [hA i j (by omega) (by omega), hA i (j + h) (by omega) (by omega),
    hA (i + h) j (by omega) (by omega), hA (i + h) (j + h) (by omega) (by omega),
    hB i j (by omega) (by omega), hB i (j + h) (by omega) (by omega),
    hB (i + h) j (by omega) (by omega), hB (i + h) (j + h) (by omega) (by omega)]

theorem strassen_level_congr [Zero R] [Add R] [Sub R]
    (rec : Matrix R → Matrix R → Matrix R → Matrix R) (A B A' B' C : Matrix R) (size : Nat)
    (hA : ∀ i j, i < size / 2 + size / 2 → j < size / 2 + size / 2 →
      rd A' (i * size + j) = rd A (i * size + j))
    (hB : ∀ i j, i < size / 2 + size / 2 → j < size / 2 + size / 2 →
      rd B' (i * size + j) = rd B (i * size + j)) :
    strassen_level rec A' B' C size = strassen_level rec A B C size := by
  unfold strassen_level
  simp only [partition_congr A B A' B' size (size / 2) hA hB]

/-- Claim C22. On an odd side `s > 64` Strassen drops the last row and column:
`strassen_recursive` runs one level with quadrant side `(s-1)/2` (strassen.cpp, line 39);
its result does not depend on row `s-1` or column `s-1` of `A` or `B` (any `A'`, `B'` that
agree with `A`, `B` on the other entries give the same result); and every entry of `C` in
row `s-1` and in column `s-1` keeps its prior value, which is zero when `C` was zeroed. -/
theorem strassen_odd_drops_last_row_col [Zero R] [Add R] [Sub R] [Mul R] (A B C : Matrix R)
    (s : Nat) (hodd : s % 2 = 1) (h64 : 64 < s) (hC : C.length = s * s) :
    strassen_recursive A B C s
        = strassen_level (fun X Y Z => strassen_recursive X Y Z ((s - 1) / 2)) A B C s
    ∧ (∀ A' B' : Matrix R,
        (∀ i j, i < s - 1 → j < s - 1 → rd A' (i * s + j) = rd A (i * s + j)) →
        (∀ i j, i < s - 1 → j < s - 1 → rd B' (i * s + j) = rd B (i * s + j)) →
        strassen_recursive A' B' C s = strassen_recursive A B C s)
    ∧ (∀ j, j < s →
        rd (strassen_recursive A B C s) ((s - 1) * s + j) = rd C ((s - 1) * s + j))
    ∧ (∀ i, i < s →
        rd (strassen_recursive A B C s) (i * s + (s - 1)) = rd C (i * s + (s - 1)))
    ∧ (C = zeros (s * s) → ∀ i j, i < s → j < s → (i = s - 1 ∨ j = s - 1) →
        rd (strassen_recursive A B C s) (i * s + j) = 0) := by
  have hs : ¬ s ≤ 64 := by omega
  have hhalf : s / 2 = (s - 1) / 2 := by omega
  have hsum : s / 2 + s / 2 = s - 1 := by omega
  refine ⟨?_, ?_, ?_, ?_, ?_⟩
  · rw [strassen_unfold A B C s hs, hhalf]
  · intro A' B' hA hB
    rw [strassen_unfold A' B' C s hs, strassen_unfold A B C s hs]
    exact strassen_level_congr _ A B A' B' C s (by rw [hsum]; exact hA) (by rw [hsum]; exact hB)
  · intro j hj
    exact strassen_frame A B C s hs hC (s - 1) j (by omega) hj (Or.inl (by omega))
  · intro i hi
    exact strassen_frame A B C s hs hC i (s - 1) hi (by omega) (Or.inr (by omega))
  · intro hz i j hi hj hij
    have hfr : rd (strassen_recursive A B C s) (i * s + j) = rd C (i * s + j) :=
      strassen_frame A B C s hs hC i j hi hj
        (by rcases hij with h | h
            · exact Or.inl (by omega)
            · exact Or.inr (by omega))
    rw [hfr, hz, rd_zeros]

/-- Instance of `strassen_odd_drops_last_row_col` at side 65 on matrices of ones: the corner
entry `(64, 64)` of `C` keeps its prior value. -/
theorem strassen_odd_drops_last_row_col_witness :
    65 % 2 = 1 ∧ 64 < 65 ∧ (List.replicate (65 * 65) (1 : Int)).length = 65 * 65 ∧
    rd (strassen_recursive (List.replicate (65 * 65) (1 : Int)) (List.replicate (65 * 65) 1)
        (List.replicate (65 * 65) 1) 65) ((65 - 1) * 65 + 64)
      = rd (List.replicate (65 * 65) (1 : Int)) ((65 - 1) * 65 + 64) :=
  ⟨by decide, by decide, List.length_replicate _ _,
    (strassen_odd_drops_last_row_col (List.replicate (65 * 65) (1 : Int))
      (List.replicate (65 * 65) 1) (List.replicate (65 * 65) 1) 65 (by decide) (by decide)
      (List.length_replicate _ _)).2.2.1 64 (by decide)⟩

/-- A checked loop succeeds, and agrees with the unchecked loop, when every iteration does so
under an invariant of the loop state. -/
theorem foldlOpt_some {σ τ : Type} (l : List τ) (fc : σ → τ → Option σ) (f : σ → τ → σ)
    (Inv : σ → Prop) (h : ∀ s t, t ∈ l → Inv s → fc s t = some (f s t) ∧ Inv (f s t))
    (s : σ) (hs : Inv s) : foldlOpt l fc s = some (l.foldl f s) ∧ Inv (l.foldl f s) := by
  induction l generalizing s with
  | nil => exact ⟨rfl, hs⟩
  | cons t ts ih =>
    have h1 := h s t (List.mem_cons_self _ _) hs
    have h2 := ih (fun s' t' ht' hs' => h s' t' (List.mem_cons_of_mem _ ht') hs') (f s t) h1.2
    refine ⟨?_, h2.2⟩
    rw [foldlOpt, h1.1, Option.some_bind]
    exact h2.1

theorem rd_checked_some [Zero R] (M : Matrix R) (i : Nat) (h : i < M.length) :
    rd_checked M i = some (rd M i) := if_pos h

theorem set_checked_some (M : Matrix R) (i : Nat) (v : R) (h : i < M.length) :
    set_checked M i v = some (M.set i v) := if_pos h

theorem ptr_checked_some (M : Matrix R) (off : Nat) (h : off < M.length) :
    ptr_checked M off = some () := if_pos h

theorem loadu_checked_some [Zero R] (M : Matrix R) (off : Nat) (h : off + 8 ≤ M.length) :
    loadu_checked M off = some (_mm256_loadu_ps M off) := if_pos h

theorem storeu_checked_some [Zero R] (M : Matrix R) (off : Nat) (v : M256 R)
    (h : off + 8 ≤ M.length) : storeu_checked M off v = some (_mm256_storeu_ps M off v) :=
  if_pos h

/-- Checked write of a rectangle through reads that are all in bounds. -/
theorem fill_rect_checked [Zero R] (rows cols poff : Nat) (src : Matrix R)
    (sidx : Nat → Nat → Nat) (didx : Nat → Nat → Nat) (M : Matrix R)
    (hsrc : ∀ i j, i < rows → j < cols → sidx i j < src.length)
    (hdst : ∀ i j, i < rows → j < cols → poff + didx i j < M.length) :
    foldlOpt (List.range rows) (fun M i =>
        foldlOpt (List.range cols) (fun M j =>
          (rd_checked src (sidx i j)).bind (fun v => set_checked M (poff + didx i j) v)) M) M
      = some ((List.range rows).foldl (fun M i =>
          (List.range cols).foldl (fun M j => M.set (poff + didx i j) (rd src (sidx i j))) M)
          M) := by
  refine (foldlOpt_some _ _ _ (fun M' : Matrix R => M'.length = M.length) ?_ M rfl).1
  intro M1 i hi h1
  have hi := List.mem_range.1 hi
  refine foldlOpt_some _ _ _ (fun M' : Matrix R => M'.length = M.length) ?_ M1 h1
  intro M2 j hj h2
  have hj := List.mem_range.1 hj
  refine ⟨?_, by show (List.set _ _ _).length = _; rw [List.length_set]; exact h2⟩
  rw [rd_checked_some _ _ (hsrc i j hi hj), Option.some_bind,
    set_checked_some _ _ _ (by rw [h2]; exact hdst i j hi hj)]

theorem pack_A_checked_eq [Zero R] (k : Nat) (A : Matrix R) (aoff lda : Nat) (Ap : Matrix R)
    (poff : Nat) (hsrc : ∀ r t, r < 8 → t < k → aoff + (r * lda + t) < A.length)
    (hfit : poff + 8 * k ≤ Ap.length) :
    pack_A_checked k A aoff lda Ap poff = some (pack_A k A aoff lda Ap poff) := by
  unfold pack_A_checked pack_A
  refine fill_rect_checked 8 k poff A (fun i p => aoff + (i * lda + p))
    (fun i p => i * k + p) Ap hsrc ?_
  intro i j hi hj
  have := @idx_lt 8 k i j hi hj
  show poff + (i * k + j) < _
  omega

theorem pack_B_checked_eq [Zero R] (k : Nat) (B : Matrix R) (boff ldb : Nat) (Bp : Matrix R)
    (poff : Nat) (hsrc : ∀ t l, t < k → l < 8 → boff + (t * ldb + l) < B.length)
    (hfit : poff + k * 8 ≤ Bp.length) :
    pack_B_checked k B boff ldb Bp poff = some (pack_B k B boff ldb Bp poff) := by
  unfold pack_B_checked pack_B
  refine fill_rect_checked k 8 poff B (fun p j => boff + (p * ldb + j))
    (fun p j => p * 8 + j) Bp hsrc ?_
  intro i j hi hj
  show poff + (i * 8 + j) < _
  omega

theorem kernel_8x8_checked_eq [Zero R] [Add R] [Mul R] (k : Nat) (A : Matrix R) (aoff : Nat)
    (B : Matrix R) (boff : Nat) (C : Matrix R) (coff ldc : Nat)
    (hA : ∀ r t, r < 8 → t < k → aoff + (r * k + t) < A.length)
    (hB : ∀ t, t < k → boff + t * 8 + 8 ≤ B.length)
    (hC : ∀ r, r < 8 → coff + r * ldc + 8 ≤ C.length) :
    kernel_8x8_checked k A aoff B boff C coff ldc
      = some (kernel_8x8 k A aoff B boff C coff ldc) := by
  unfold kernel_8x8_checked kernel_8x8
  have h1 := (foldlOpt_some (List.range 8)
    (fun (c : Matrix (M256 R)) i =>
      (loadu_checked C (coff + i * ldc)).bind (fun v => some (c.set i v)))
    (fun c i => c.set i (_mm256_loadu_ps C (coff + i * ldc))) (fun _ => True)
    (fun c i hi _ => ⟨by
      dsimp only
      rw [loadu_checked_some _ _ (hC i (List.mem_range.1 hi)), Option.some_bind], trivial⟩)
    (zeros 8) trivial).1
  rw [h1, Option.some_bind]
  have h2 := fun c0 : Matrix (M256 R) => (foldlOpt_some (List.range k)
    (fun (c : Matrix (M256 R)) p =>
      (loadu_checked B (boff + p * 8)).bind (fun b_vec =>
        foldlOpt (List.range 8) (fun c i =>
          (rd_checked A (aoff + (i * k + p))).bind (fun a =>
            some (c.set i (_mm256_fmadd_ps (_mm256_set1_ps a) b_vec (rd c i))))) c))
    (fun c p =>
      let b_vec := _mm256_loadu_ps B (boff + p * 8)
      (List.range 8).foldl (fun c i =>
        let a_vec := _mm256_set1_ps (rd A (aoff + (i * k + p)))
        c.set i (_mm256_fmadd_ps a_vec b_vec (rd c i))) c) (fun _ => True)
    (fun c p hp _ => ⟨by
      have hp := List.mem_range.1 hp
      dsimp only
      rw [loadu_checked_some _ _ (hB p hp), Option.some_bind]
      exact (foldlOpt_some (List.range 8) _ _ (fun _ => True)
        (fun c i hi _ => ⟨by
          rw [rd_checked_some _ _ (hA i p (List.mem_range.1 hi) hp), Option.some_bind],
          trivial⟩) c trivial).1, trivial⟩)
    c0 trivial).1
  rw [h2, Option.some_bind]
  refine (foldlOpt_some (List.range 8) _ _ (fun M : Matrix R => M.length = C.length) ?_ C
    rfl).1
  intro M i hi hM
  have hi := List.mem_range.1 hi
  refine ⟨storeu_checked_some _ _ _ (by rw [hM]; exact hC i hi), ?_⟩
  exact ((storeu_pw C.length _ _) M hM).1

theorem matmul_naive_checked_eq [Zero R] [Add R] [Mul R] (A B C : Matrix R) (m n p : Nat)
    (hA : A.length = m * n) (hB : B.length = n * p) (hC : C.length = m * p) :
    matmul_naive_checked A B C m n p = some (matmul_naive A B C m n p) := by
  unfold matmul_naive_checked matmul_naive
  refine (foldlOpt_some _ _ _ (fun M : Matrix R => M.length = m * p) ?_ C hC).1
  intro M1 i hi h1
  have hi := List.mem_range.1 hi
  refine foldlOpt_some _ _ _ (fun M : Matrix R => M.length = m * p) ?_ M1 h1
  intro M2 j hj h2
  have hj := List.mem_range.1 hj
  have hsum := (foldlOpt_some (List.range n)
    (fun (sum : R) k => (rd_checked A (i * n + k)).bind (fun a =>
      (rd_checked B (k * p + j)).bind (fun b => some (sum + a * b))))
    (fun sum k => sum + rd A (i * n + k) * rd B (k * p + j)) (fun _ => True)
    (fun sum k hk _ => ⟨by
      have hk := List.mem_range.1 hk
      dsimp only
      rw [rd_checked_some _ _ (by rw [hA]; exact idx_lt hi hk), Option.some_bind,
        rd_checked_some _ _ (by rw [hB]; exact idx_lt hk hj), Option.some_bind], trivial⟩)
    0 trivial).1
  dsimp only
  refine ⟨?_, by rw [List.length_set]; exact h2⟩
  rw [hsum, Option.some_bind]
  exact set_checked_some _ _ _ (by rw [h2]; exact idx_lt hi hj)

/-- One micro-tile of the blocked pass: inside an 8-row, 8-column tile that fits the matrices
every access is in bounds, and the buffer lengths are kept. -/
theorem sgemm_tile_checked_eq [Zero R] [Add R] [Mul R] (A : Matrix R)
    (m n p kb i ii j jj k : Nat) (s : SgemmState R) (hA : A.length = m * n)
    (hI : SgemmInv s) (hC : s.C.length = m * p) (hi : i + ii + 8 ≤ m) (hj : j + jj + 8 ≤ p)
    (hk : k + kb ≤ n) (hkb : kb ≤ KC) (hk0 : 0 < kb) :
    sgemm_tile_checked A n p kb i ii j jj k s
        = some ⟨pack_A kb A ((i + ii) * n + k) n s.A_packed 0, s.B_packed,
            kernel_8x8 kb (pack_A kb A ((i + ii) * n + k) n s.A_packed 0) 0 s.B_packed 0 s.C
              ((i + ii) * p + (j + jj)) p⟩
    ∧ (pack_A kb A ((i + ii) * n + k) n s.A_packed 0).length = MC * KC
    ∧ (kernel_8x8 kb (pack_A kb A ((i + ii) * n + k) n s.A_packed 0) 0 s.B_packed 0 s.C
        ((i + ii) * p + (j + jj)) p).length = m * p := by
  have hAp := hI.1
  have hBp := hI.2
  rw [MC_eq, KC_eq] at hAp
  rw [KC_eq, NC_eq] at hBp
  rw [KC_eq] at hkb
  have hfit : 0 + 8 * kb ≤ s.A_packed.length := by omega
  have hpl := (pack_A_spec kb A ((i + ii) * n + k) n s.A_packed 0 hfit).1
  have hsrc : ∀ r t, r < 8 → t < kb → (i + ii) * n + k + (r * n + t) < A.length := by
    intro r t hr ht
    have := @idx_lt m n (i + ii + r) (k + t) (by omega) (by omega)
    rw [Nat.add_mul] at this
    omega
  have hp1 : (i + ii) * n + k < A.length := by
    have := hsrc 0 0 (by omega) hk0
    omega
  have hp2 : (i + ii) * p + (j + jj) < s.C.length := by
    rw [hC]; exact idx_lt (by omega) (by omega)
  have hkA : ∀ r t, r < 8 → t < kb →
      0 + (r * kb + t) < (pack_A kb A ((i + ii) * n + k) n s.A_packed 0).length := by
    intro r t hr ht
    have := @idx_lt 8 kb r t hr ht
    rw [hpl]; omega
  have hkB : ∀ t, t < kb → 0 + t * 8 + 8 ≤ s.B_packed.length := by
    intro t ht
    omega
  have hkC : ∀ r, r < 8 → (i + ii) * p + (j + jj) + r * p + 8 ≤ s.C.length := by
    intro r hr
    have := Nat.mul_le_mul_right p (show i + ii + r + 1 ≤ m by omega)
    rw [Nat.add_mul, Nat.add_mul, Nat.one_mul] at this
    rw [hC]; omega
  refine ⟨?_, ?_, ?_⟩
  · unfold sgemm_tile_checked
    rw [ptr_checked_some _ _ hp1, Option.some_bind, ptr_checked_some _ _ (by omega),
      Option.some_bind, pack_A_checked_eq _ _ _ _ _ _ hsrc hfit, Option.some_bind,
      ptr_checked_some _ _ (by rw [hpl]; omega), Option.some_bind,
      ptr_checked_some _ _ (by omega), Option.some_bind, ptr_checked_some _ _ hp2,
      Option.some_bind, kernel_8x8_checked_eq _ _ _ _ _ _ _ _ hkA hkB hkC, Option.some_bind]
  · rw [hpl, hI.1]
  · exact (kernel_8x8_pw (m * p) kb _ 0 s.B_packed 0 _ p s.C hC).1

theorem sgemm_blocked_checked_eq [Zero R] [Add R] [Mul R] (A B : Matrix R) (m n p : Nat)
    (hA : A.length = m * n) (hB : B.length = n * p) (s : SgemmState R) (hI : SgemmInv s)
    (hC : s.C.length = m * p) :
    sgemm_blocked_checked A B m n p s = some (sgemm_blocked A B m n p s)
    ∧ (SgemmInv (sgemm_blocked A B m n p s) ∧ (sgemm_blocked A B m n p s).C.length = m * p) := by
  unfold sgemm_blocked_checked sgemm_blocked
  refine foldlOpt_some _ _ _ (fun s : SgemmState R => SgemmInv s ∧ s.C.length = m * p) ?_ s
    ⟨hI, hC⟩
  intro s j hj hs
  have hj := ((mem_steps (by decide : 0 < NC)).1 hj).choose_spec.2
  dsimp only
  refine foldlOpt_some _ _ _ (fun s : SgemmState R => SgemmInv s ∧ s.C.length = m * p) ?_ s hs
  intro s k hk hs
  have hk := ((mem_steps (by decide : 0 < KC)).1 hk).choose_spec.2
  have hkb : min KC (n - k) ≤ KC := Nat.min_le_left _ _
  have hkn : k + min KC (n - k) ≤ n := by
    have := Nat.min_le_right KC (n - k)
    omega
  have hk0 : 0 < min KC (n - k) := by
    rw [KC_eq]; omega
  dsimp only
  refine foldlOpt_some _ _ _ (fun s : SgemmState R => SgemmInv s ∧ s.C.length = m * p) ?_ s hs
  intro s i hi hs
  have hi := ((mem_steps (by decide : 0 < MC)).1 hi).choose_spec.2
  dsimp only
  refine foldlOpt_some _ _ _ (fun s : SgemmState R => SgemmInv s ∧ s.C.length = m * p) ?_ s hs
  intro s jj _ hs
  dsimp only
  by_cases hjj : jj + 8 > min NC (p - j)
  · rw [if_pos hjj, if_pos hjj]
    exact ⟨rfl, hs⟩
  · rw [if_neg hjj, if_neg hjj]
    have hjp : j + jj + 8 ≤ p := by
      have := Nat.min_le_right NC (p - j)
      omega
    have hBp := hs.1.2
    have hfit : 0 + min KC (n - k) * 8 ≤ s.B_packed.length := by
      rw [hBp, NC_eq]; rw [KC_eq] at hkb ⊢; omega
    have hsrc : ∀ t l, t < min KC (n - k) → l < 8 →
        k * p + (j + jj) + (t * p + l) < B.length := by
      intro t l ht hl
      have := @idx_lt n p (k + t) (j + jj + l) (by omega) (by omega)
      rw [Nat.add_mul] at this
      rw [hB]; omega
    have hp1 : k * p + (j + jj) < B.length := by
      have := hsrc 0 0 hk0 (by omega)
      omega
    have hp2 : 0 < s.B_packed.length := by
      rw [hBp, KC_eq, NC_eq]; omega
    rw [ptr_checked_some _ _ hp1, Option.some_bind, ptr_checked_some _ _ hp2,
      Option.some_bind, pack_B_checked_eq _ _ _ _ _ _ hsrc hfit, Option.some_bind]
    have hbl := (pack_B_spec (min KC (n - k)) B (k * p + (j + jj)) p s.B_packed 0 hfit).1
    refine foldlOpt_some _ _ _ (fun s : SgemmState R => SgemmInv s ∧ s.C.length = m * p) ?_
      _ ⟨⟨hs.1.1, hbl.trans hBp⟩, hs.2⟩
    intro s ii _ hs
    dsimp only
    by_cases hii : ii + 8 > min MC (m - i)
    · rw [if_pos hii, if_pos hii]
      exact ⟨rfl, hs⟩
    · rw [if_neg hii, if_neg hii]
      dsimp only
      have him : i + ii + 8 ≤ m := by
        have := Nat.min_le_right MC (m - i)
        omega
      have ht := sgemm_tile_checked_eq A m n p (min KC (n - k)) i ii j jj k s hA hs.1 hs.2
        him hjp hkn hkb hk0
      refine ⟨ht.1, ?_, ?_⟩
      · exact And.intro ht.2.1 hs.1.2
      · exact ht.2.2

/-- The checked kernel does report a bad index: with an empty `B` the first pointer into `B`
already fails. -/
theorem matmul_optimized_sgemm_checked_detects :
    matmul_optimized_sgemm_checked (List.replicate 64 (1 : Int)) [] (List.replicate 64 1) 8 8 8
      = none := by
  rfl

/-- Claim C23. Packed kernel indexing is in bounds: for all `m`, `n`, `p` (aligned or not) and
buffers with `|A| = m*n`, `|B| = n*p`, `|C| = m*p`, the bounds-checked run of
`matmul_optimized_sgemm` (with `pack_A`, `pack_B`, `kernel_8x8` and the naive fallback) never
meets an index outside its buffer and returns exactly the result of the unchecked kernel.  The
packed extents satisfy `8*kb <= MC*KC` and `kb*8 <= KC*NC`, an 8-wide column tile at `j+jj` is
processed only when `j+jj+8 <= p`, and an 8-row tile at `i+ii` only when `i+ii+8 <= m`. -/
theorem sgemm_indices_in_bounds [Zero R] [Add R] [Mul R] (A B C : Matrix R) (m n p : Nat)
    (hA : A.length = m * n) (hB : B.length = n * p) (hC : C.length = m * p) :
    matmul_optimized_sgemm_checked A B C m n p = some (matmul_optimized_sgemm A B C m n p)
    ∧ (∀ k, 8 * min KC (n - k) ≤ MC * KC ∧ min KC (n - k) * 8 ≤ KC * NC)
    ∧ (∀ j jj, j ∈ steps p NC → jj ∈ steps (min NC (p - j)) 8 →
        ¬ jj + 8 > min NC (p - j) → j + jj + 8 ≤ p)
    ∧ (∀ i ii, i ∈ steps m MC → ii ∈ steps (min MC (m - i)) 8 →
        ¬ ii + 8 > min MC (m - i) → i + ii + 8 ≤ m) := by
  refine ⟨?_, ?_, ?_, ?_⟩
  · have hb := sgemm_blocked_checked_eq A B m n p hA hB _ (sgemm_init_inv C) hC
    unfold matmul_optimized_sgemm_checked matmul_optimized_sgemm
    rw [hb.1, Option.some_bind]
    dsimp only
    by_cases h : m % 8 ≠ 0 ∨ n % 8 ≠ 0 ∨ p % 8 ≠ 0
    · rw [if_pos h, if_pos h]
      exact matmul_naive_checked_eq A B _ m n p hA hB hb.2.2
    · rw [if_neg h, if_neg h]
  · intro k
    have := Nat.min_le_left KC (n - k)
    rw [MC_eq, NC_eq]
    rw [KC_eq] at this ⊢
    omega
  · intro j jj hj _ hjj
    have hj := ((mem_steps (by decide : 0 < NC)).1 hj).choose_spec.2
    have := Nat.min_le_right NC (p - j)
    omega
  · intro i ii hi _ hii
    have hi := ((mem_steps (by decide : 0 < MC)).1 hi).choose_spec.2
    have := Nat.min_le_right MC (m - i)
    omega

/-- Instance of `sgemm_indices_in_bounds` on 8x8 matrices of ones. -/
theorem sgemm_indices_in_bounds_witness :
    (List.replicate (8 * 8) (1 : Int)).length = 8 * 8 ∧
    matmul_optimized_sgemm_checked (List.replicate (8 * 8) (1 : Int)) (List.replicate (8 * 8) 1)
        (List.replicate (8 * 8) 1) 8 8 8
      = some (matmul_optimized_sgemm (List.replicate (8 * 8) (1 : Int))
          (List.replicate (8 * 8) 1) (List.replicate (8 * 8) 1) 8 8 8) :=
  ⟨List.length_replicate _ _,
    (sgemm_indices_in_bounds (List.replicate (8 * 8) (1 : Int)) (List.replicate (8 * 8) 1)
      (List.replicate (8 * 8) 1) 8 8 8 (List.length_replicate _ _) (List.length_replicate _ _)
      (List.length_replicate _ _)).1⟩



end MatMul
